import Mathlib

/-!
Shallow embedding of the bucketed peer-address manager
(`src/addrman_multi.cpp`, together with the index declarations in
`src/unnamed/part_000` = `addrman_multi_impl.h`).

Modelling conventions:
* Network identities (`CService` addresses and `CNetAddr` sources) are `Nat`
  identifiers.  The keyed 64-bit hash, the asmap-driven group function, the
  address-key serialization, routability and network class are external to
  this subsystem (they live in `hash.h` / `netaddress.cpp`, outside the
  sources); they are parameters of the model (`Ctx`), exactly as the spec
  treats them ("the core consumes a keyed 64-bit hash function" and "a
  `NetGroup` function").
* The multi-index container is a list of entries; the two orderings
  (ByAddress, ByBucket) are realised by sorting with the exact key extractors
  of the source (`(CService, is-alias)` and `(fInTried, m_bucket,
  m_bucketpos)`).
* `int64_t` fields are `Int`; the `uint32_t` field `nTime` is a `Nat`, with
  assignments from `int64_t` going through reduction mod 2^32.
* Randomness (`insecure_rand`) is an oracle passed to each operation;
  the current time (`GetAdjustedTime`) is an explicit parameter.
-/

namespace AddrSpec

/-- Token fed to the keyed hash `H`.  Each constructor mirrors a distinct
C++ type serialized into `CHashWriter` by the bucketing functions:
the secret key (`uint256`), a byte vector (address key / group key),
an integral value, and a single byte (the `'N'` / `'K'` tag). -/
inductive HTok where
  | key (k : Nat)
  | bytes (b : Nat)
  | num (n : Nat)
  | byte (b : Nat)
deriving DecidableEq

/-- External collaborators of the subsystem (spec §1 "out of scope"):
the keyed hash, the asmap group function, the canonical address key,
routability, network class, and the `CNetAddr` equality used by the
self-announcement test `addr == source`. -/
structure Ctx where
  H : List HTok → Nat
  grp : Nat → Nat
  addrKey : Nat → Nat
  routable : Nat → Bool
  netClass : Nat → Nat
  sameAddr : Nat → Nat → Bool

/-! Configuration constants, from the tops of `addrman_multi.cpp` and
`addrman_multi_impl.h`. -/

def ADDRMAN_TRIED_BUCKETS_PER_GROUP : Nat := 8
def ADDRMAN_NEW_BUCKETS_PER_SOURCE_GROUP : Nat := 64
def ADDRMAN_NEW_BUCKETS_PER_ADDRESS : Nat := 8
def ADDRMAN_HORIZON_DAYS : Int := 30
def ADDRMAN_RETRIES : Int := 3
def ADDRMAN_MAX_FAILURES : Int := 10
def ADDRMAN_MIN_FAIL_DAYS : Int := 7
def ADDRMAN_REPLACEMENT_HOURS : Int := 4
def ADDRMAN_SET_TRIED_COLLISION_SIZE : Nat := 10
def ADDRMAN_TEST_WINDOW : Int := 40 * 60
def ADDRMAN_TRIED_BUCKET_COUNT : Nat := 2 ^ 8
def ADDRMAN_NEW_BUCKET_COUNT : Nat := 2 ^ 10
def ADDRMAN_BUCKET_SIZE : Nat := 2 ^ 6

/-- `AddrInfo::GetTriedBucket`. -/
def getTriedBucket (c : Ctx) (K : Nat) (a : Nat) : Nat :=
  let hash1 := c.H [.key K, .bytes (c.addrKey a)]
  let hash2 := c.H [.key K, .bytes (c.grp a), .num (hash1 % ADDRMAN_TRIED_BUCKETS_PER_GROUP)]
  hash2 % ADDRMAN_TRIED_BUCKET_COUNT

/-- `AddrInfo::GetNewBucket`. -/
def getNewBucket (c : Ctx) (K : Nat) (a src : Nat) : Nat :=
  let sourceGroupKey := c.grp src
  let hash1 := c.H [.key K, .bytes (c.grp a), .bytes sourceGroupKey]
  let hash2 := c.H [.key K, .bytes sourceGroupKey,
                    .num (hash1 % ADDRMAN_NEW_BUCKETS_PER_SOURCE_GROUP)]
  hash2 % ADDRMAN_NEW_BUCKET_COUNT

/-- `AddrInfo::GetBucketPosition`; 78 = 'N', 75 = 'K'. -/
def getBucketPosition (c : Ctx) (K : Nat) (fNew : Bool) (bucket a : Nat) : Nat :=
  c.H [.key K, .byte (if fNew then 78 else 75), .num bucket, .bytes (c.addrKey a)]
    % ADDRMAN_BUCKET_SIZE

/-- An `AddrInfo` entry of the multi-index table.  `fAlias` models
`nRandomPos == -1` (the alias discriminator of `ByAddressExtractor`);
the position itself is kept implicitly by the `vRandom` list of the state. -/
structure Entry where
  svc : Nat
  source : Nat
  fInTried : Bool
  fAlias : Bool
  mBucket : Nat
  mBucketpos : Nat
  nTime : Nat
  nServices : Nat
  nLastTry : Int
  nLastCountAttempt : Int
  nLastSuccess : Int
  nAttempts : Int
deriving DecidableEq

/-- The `(fInTried, m_bucket, m_bucketpos)` key of `ByBucketExtractor`. -/
def slotOf (e : Entry) : Bool × Nat × Nat := (e.fInTried, e.mBucket, e.mBucketpos)

/-- `AddrInfo::Rebucket`. -/
def rebucket (c : Ctx) (K : Nat) (e : Entry) : Entry :=
  let b := if e.fInTried then getTriedBucket c K e.svc else getNewBucket c K e.svc e.source
  { e with mBucket := b, mBucketpos := getBucketPosition c K (!e.fInTried) b e.svc }

/-- `AddrInfo::IsTerrible`. -/
def isTerrible (e : Entry) (now : Int) : Bool :=
  if e.nLastTry ≠ 0 ∧ e.nLastTry ≥ now - 60 then false
  else if (e.nTime : Int) > now + 10 * 60 then true
  else if e.nTime = 0 ∨ now - (e.nTime : Int) > ADDRMAN_HORIZON_DAYS * 24 * 60 * 60 then true
  else if e.nLastSuccess = 0 ∧ e.nAttempts ≥ ADDRMAN_RETRIES then true
  else if now - e.nLastSuccess > ADDRMAN_MIN_FAIL_DAYS * 24 * 60 * 60 ∧
          e.nAttempts ≥ ADDRMAN_MAX_FAILURES then true
  else false

/-- `AddrInfo::GetChance`.  The C++ `double` arithmetic is modelled with
exact rationals (0.66 = 33/50). -/
def getChance (e : Entry) (now : Int) : ℚ :=
  (if max (now - e.nLastTry) 0 < 60 * 10 then (1 / 100 : ℚ) else 1) *
    (33 / 50 : ℚ) ^ (min e.nAttempts 8).toNat

/-- The manager state: `nKey`, the multi-index container, `vRandom`
(list of the canonical entries' addresses, in vector order), the two
counters, `nLastGood`, and `m_tried_collisions`.  A collision-set member
is recorded as the `(CService, is-alias)` key of the entry it points to
(`Good_` only ever inserts canonical entries, key `(addr, false)`). -/
structure AMState where
  key : Nat
  entries : List Entry
  vRandom : List Nat
  nNew : Int
  nTried : Int
  nLastGood : Int
  collisions : List (Nat × Bool)
deriving DecidableEq

/-- A freshly constructed manager (deterministic mode fixes `nKey`);
`nLastGood` starts at 1 ("so that never is strictly worse"). -/
def AMState.empty (key : Nat) : AMState :=
  { key := key, entries := [], vRandom := [], nNew := 0, nTried := 0,
    nLastGood := 1, collisions := [] }

/-! Index access, mirroring the `m_index.get<ByAddress>()` /
`m_index.get<ByBucket>()` lookups. -/

/-- `find(std::pair(addr, false))` on the ByAddress index: the canonical
(non-alias) entry for an address. -/
def findCanonical (st : AMState) (a : Nat) : Option Entry :=
  st.entries.find? fun e => e.svc == a && !e.fAlias

/-- `find(std::pair(addr, true))` on the ByAddress index: some alias entry
for an address. -/
def findAlias (st : AMState) (a : Nat) : Option Entry :=
  st.entries.find? fun e => e.svc == a && e.fAlias

/-- `find(ByBucketView(tried, bucket, pos))` on the ByBucket index. -/
def findSlot (st : AMState) (s : Bool × Nat × Nat) : Option Entry :=
  st.entries.find? fun e => slotOf e == s

/-- Number of entries with address `a` in an entry list. -/
def countA (l : List Entry) (a : Nat) : Nat :=
  (l.filter fun e => e.svc == a).length

/-- `AddrManMultiImpl::CountAddr`: number of entries (canonical and
aliases) with the given address. -/
def countAddr (st : AMState) (a : Nat) : Nat := countA st.entries a

/-- In-place modification of an entry of the container
(`m_index.modify`): the first occurrence of `e` is replaced by `e'`. -/
def replaceFirst : List Entry → Entry → Entry → List Entry
  | [], _, _ => []
  | x :: xs, e, e' => if x = e then e' :: xs else x :: replaceFirst xs e e'

/-- Overwrite the first occurrence of `a` with `b`. -/
def replaceNat : List Nat → Nat → Nat → List Nat
  | [], _, _ => []
  | x :: xs, a, b => if x = a then b :: xs else x :: replaceNat xs a b

/-- `SwapRandom(pos, size-1)` followed by `pop_back`: the cell of the
element `a` receives the last element and the vector shrinks by one. -/
def removeSwap (v : List Nat) (a : Nat) : List Nat :=
  if a ∈ v then (replaceNat v a (v.getLastD 0)).dropLast else v

/-- `SwapRandom(i, j)` as used by `GetAddr_`. -/
def swapRandomV (v : List Nat) (i j : Nat) : List Nat :=
  if i = j then v
  else
    match v.get? i, v.get? j with
    | some x, some y => (v.set i y).set j x
    | _, _ => v

/-- `AddrManMultiImpl::UpdateStat`. -/
def updateStat (st : AMState) (e : Entry) (inc : Int) : AMState :=
  if !e.fAlias then
    if e.fInTried then { st with nTried := st.nTried + inc }
    else { st with nNew := st.nNew + inc }
  else st

/-- `std::set::insert` on `m_tried_collisions` (no duplicates). -/
def insertColl (s : List (Nat × Bool)) (c : Nat × Bool) : List (Nat × Bool) :=
  if c ∈ s then s else s ++ [c]

/-- The common tail of `EraseInner`: drop the entry from the collision
set, update the counter, and erase it from the container. -/
def eraseRaw (st : AMState) (x : Entry) : AMState :=
  let st := { st with collisions := st.collisions.erase (x.svc, x.fAlias) }
  let st := updateStat st x (-1)
  { st with entries := st.entries.erase x }

/-- `Modify(it, fun)`: `UpdateStat(-1)`, apply `fun`, `Rebucket`,
`UpdateStat(+1)`.  Returns the new state together with the value the
iterator points to afterwards. -/
def modifyE (c : Ctx) (st : AMState) (e : Entry) (f : Entry → Entry) : AMState × Entry :=
  let st1 := updateStat st e (-1)
  let e' := rebucket c st.key (f e)
  let st2 := { st1 with entries := replaceFirst st1.entries e e' }
  (updateStat st2 e' 1, e')

/-- `AddrManMultiImpl::EraseInner`.  If the entry to delete is canonical
and has an alias, the alias is deleted instead (its source is moved onto
the canonical entry); otherwise the entry is dropped from `vRandom` and
erased. -/
def eraseInner (c : Ctx) (st : AMState) (e : Entry) : AMState :=
  if !e.fAlias then
    match findAlias st e.svc with
    | some al =>
      let st :=
        if (e.svc, true) ∈ st.collisions then
          { st with collisions := insertColl st.collisions (e.svc, false) }
        else st
      let st := (modifyE c st e fun i => { i with source := al.source }).1
      eraseRaw st al
    | none =>
      let st := { st with vRandom := removeSwap st.vRandom e.svc }
      eraseRaw st e
  else eraseRaw st e

/-- `AddrManMultiImpl::Insert`: rebucket, set the alias flag
(`nRandomPos`), bump the counter, insert into the container and (for
non-aliases) append to `vRandom`. -/
def insertEntry (c : Ctx) (st : AMState) (info : Entry) (al : Bool) : AMState :=
  let info := rebucket c st.key info
  let info := { info with fAlias := al }
  let st := updateStat st info 1
  { st with entries := info :: st.entries,
            vRandom := if al then st.vRandom else st.vRandom ++ [info.svc] }

/-- The `while (true)` loop of `MakeTried` (and of the tried-duplicate
branch of `Unserialize`): erase every entry with the given address.
`lower_bound((addr, false))` visits the canonical entry first when one
exists.  Fuel bounds the recursion; each `eraseInner` call removes one
entry. -/
def eraseAllAddr (c : Ctx) : Nat → AMState → Nat → AMState
  | 0, st, _ => st
  | fuel + 1, st, a =>
    match findCanonical st a with
    | some e => eraseAllAddr c fuel (eraseInner c st e) a
    | none =>
      match findAlias st a with
      | some e => eraseAllAddr c fuel (eraseInner c st e) a
      | none => st

/-- `AddrManMultiImpl::MakeTried`. -/
def makeTried (c : Ctx) (st : AMState) (e : Entry) : AMState :=
  let info := e
  let st := eraseInner c st e
  let st := eraseAllAddr c (st.entries.length + 1) st info.svc
  let info := rebucket c st.key { info with fInTried := true }
  let st :=
    match findSlot st (true, info.mBucket, info.mBucketpos) with
    | some victim =>
      let infoEvict := victim
      let st := eraseInner c st victim
      let infoEvict := rebucket c st.key { infoEvict with fInTried := false }
      let st :=
        match findSlot st (false, infoEvict.mBucket, infoEvict.mBucketpos) with
        | some occ => eraseInner c st occ
        | none => st
      let al := (findCanonical st infoEvict.svc).isSome
      insertEntry c st infoEvict al
    | none => st
  insertEntry c st info false

/-- A `CAddress` argument to `Add`: the service identity plus the
gossiped timestamp and service bits. -/
structure CAddr where
  svc : Nat
  time : Nat
  services : Nat
deriving DecidableEq

/-- Reduction of an `int64_t` value into the `uint32_t` field `nTime`. -/
def toU32 (x : Int) : Nat := x.toNat % 2 ^ 32

/-- `AddrInfo info(addr, source)` with `info.fInTried = false`:
statistics default to zero, `nTime`/`nServices` come from the
`CAddress`. -/
def mkInfo (a : CAddr) (src : Nat) : Entry :=
  { svc := a.svc, source := src, fInTried := false, fAlias := false,
    mBucket := 0, mBucketpos := 0, nTime := a.time, nServices := a.services,
    nLastTry := 0, nLastCountAttempt := 0, nLastSuccess := 0, nAttempts := 0 }

/-- The CAddress slice of an entry, as returned by `GetAddr_`/`Select_`. -/
def mkCAddr (e : Entry) : CAddr := ⟨e.svc, e.nTime, e.nServices⟩

/-- The final insert of `AddSingle` (from `info.Rebucket` to the end):
look up the new-table slot, possibly evict, insert, and report whether
an insertion happened (`fInsert`). -/
def addFinish (c : Ctx) (st : AMState) (info : Entry) (al : Bool) (now : Int) :
    Bool × AMState :=
  let info := rebucket c st.key info
  match findSlot st (false, info.mBucket, info.mBucketpos) with
  | none => (true, insertEntry c st info al)
  | some infoExisting =>
    if infoExisting.svc ≠ info.svc then
      if isTerrible infoExisting now ∨ (!al ∧ countAddr st infoExisting.svc > 1) then
        (true, insertEntry c (eraseInner c st infoExisting) info al)
      else (false, st)
    else (false, st)

/-- `AddrManMultiImpl::AddSingle`.  `rnd` is the `insecure_rand.randrange`
draw for the stochastic alias test; `now` is `GetAdjustedTime()`. -/
def addSingle (c : Ctx) (st : AMState) (a : CAddr) (src : Nat) (pen : Int)
    (now : Int) (rnd : Nat) : Bool × AMState :=
  if !c.routable a.svc then (false, st)
  else
    let pen := if c.sameAddr a.svc src then 0 else pen
    match findCanonical st a.svc with
    | some it =>
      let fCurrentlyOnline := now - (a.time : Int) < 24 * 60 * 60
      let nUpdateInterval : Int := if fCurrentlyOnline then 60 * 60 else 24 * 60 * 60
      let (st, it) :=
        if a.time ≠ 0 ∧ (it.nTime = 0 ∨ (it.nTime : Int) < (a.time : Int) - nUpdateInterval - pen)
        then modifyE c st it fun i => { i with nTime := toU32 (max 0 ((a.time : Int) - pen)) }
        else (st, it)
      let (st, it) := modifyE c st it fun i => { i with nServices := i.nServices ||| a.services }
      if a.time = 0 ∨ (it.nTime ≠ 0 ∧ (a.time : Int) ≤ (it.nTime : Int)) then (false, st)
      else if it.fInTried then (false, st)
      else
        let aliases := countAddr st a.svc
        if aliases = ADDRMAN_NEW_BUCKETS_PER_ADDRESS then (false, st)
        else
          let nFactor := 2 ^ aliases
          if nFactor > 1 ∧ rnd % nFactor ≠ 0 then (false, st)
          else addFinish c st (mkInfo a src) true now
    | none =>
      let info := mkInfo a src
      let info := { info with nTime := toU32 (max 0 ((a.time : Int) - pen)) }
      addFinish c st info false now

/-- `AddrManMultiImpl::Add_`: fold `AddSingle` over the vector, reporting
whether any address was added.  `rng i` is the random draw consumed by
the `i`-th `AddSingle` call. -/
def addLoop (c : Ctx) (src : Nat) (pen : Int) (now : Int) (rng : Nat → Nat) :
    AMState → List CAddr → Nat → Nat × AMState
  | st, [], _ => (0, st)
  | st, a :: rest, i =>
    let (ok, st) := addSingle c st a src pen now (rng i)
    let (n, st) := addLoop c src pen now rng st rest (i + 1)
    ((if ok then 1 else 0) + n, st)

def add_ (c : Ctx) (st : AMState) (addrs : List CAddr) (src : Nat) (pen : Int)
    (now : Int) (rng : Nat → Nat) : Bool × AMState :=
  let (n, st) := addLoop c src pen now rng st addrs 0
  (decide (0 < n), st)

/-- `AddrManMultiImpl::Good_`. -/
def good_ (c : Ctx) (st : AMState) (a : Nat) (testBeforeEvict : Bool) (nTime : Int) :
    Bool × AMState :=
  let st := { st with nLastGood := nTime }
  match findCanonical st a with
  | none => (false, st)
  | some it =>
    let (st, it) := modifyE c st it fun i =>
      { i with nLastSuccess := nTime, nLastTry := nTime, nAttempts := 0 }
    if it.fInTried then (false, st)
    else
      let triedBucket := getTriedBucket c st.key a
      let triedBucketPos := getBucketPosition c st.key false triedBucket a
      match findSlot st (true, triedBucket, triedBucketPos) with
      | some _ =>
        if testBeforeEvict then
          let st :=
            if st.collisions.length < ADDRMAN_SET_TRIED_COLLISION_SIZE then
              { st with collisions := insertColl st.collisions (a, false) }
            else st
          (false, st)
        else (true, makeTried c st it)
      | none => (true, makeTried c st it)

/-- `AddrManMultiImpl::Attempt_`. -/
def attempt_ (c : Ctx) (st : AMState) (a : Nat) (countFailure : Bool) (nTime : Int) :
    AMState :=
  match findCanonical st a with
  | none => st
  | some it =>
    let lastGood := st.nLastGood
    (modifyE c st it fun i =>
      let i := { i with nLastTry := nTime }
      if countFailure ∧ i.nLastCountAttempt < lastGood then
        { i with nLastCountAttempt := nTime, nAttempts := i.nAttempts + 1 }
      else i).1

/-- `AddrManMultiImpl::Connected_`. -/
def connected_ (c : Ctx) (st : AMState) (a : Nat) (nTime : Int) : AMState :=
  match findCanonical st a with
  | none => st
  | some it =>
    if nTime - (it.nTime : Int) > 20 * 60 then
      (modifyE c st it fun i => { i with nTime := toU32 nTime }).1
    else st

/-- `AddrManMultiImpl::SetServices_`. -/
def setServices_ (c : Ctx) (st : AMState) (a : Nat) (services : Nat) : AMState :=
  match findCanonical st a with
  | none => st
  | some it => (modifyE c st it fun i => { i with nServices := services }).1

/-- One iteration of the `ResolveCollisions_` loop, for the collision-set
member `cl`.  Members erased by an earlier iteration's `Good_` call are
skipped. -/
def resolveStep (c : Ctx) (st : AMState) (now : Int) (cl : Nat × Bool) : AMState :=
  if cl ∉ st.collisions then st
  else
    match findCanonical st cl.1 with
    | none => st
    | some infoNew =>
      let triedBucket := getTriedBucket c st.key infoNew.svc
      let triedBucketPos := getBucketPosition c st.key false triedBucket infoNew.svc
      match findSlot st (true, triedBucket, triedBucketPos) with
      | some infoOld =>
        if now - infoOld.nLastSuccess < ADDRMAN_REPLACEMENT_HOURS * (60 * 60) then
          { st with collisions := st.collisions.erase cl }
        else if now - infoOld.nLastTry < ADDRMAN_REPLACEMENT_HOURS * (60 * 60) then
          if now - infoOld.nLastTry > 60 then
            let st := (good_ c st infoNew.svc false now).2
            { st with collisions := st.collisions.erase cl }
          else st
        else if now - infoNew.nLastSuccess > ADDRMAN_TEST_WINDOW then
          let st := (good_ c st infoNew.svc false now).2
          { st with collisions := st.collisions.erase cl }
        else st
      | none =>
        let st := (good_ c st infoNew.svc false now).2
        { st with collisions := st.collisions.erase cl }

/-- `AddrManMultiImpl::ResolveCollisions_`: iterate over the members of
the collision set (the iteration snapshot is taken up front; erased
members are skipped by `resolveStep`). -/
def resolveCollisions_ (c : Ctx) (st : AMState) (now : Int) : AMState :=
  st.collisions.foldl (fun s cl => resolveStep c s now cl) st

/-- The loop body of `GetAddr_`, with explicit index `n`, fuel, and the
accumulated result (in reverse). -/
def getAddrGo (c : Ctx) (now : Int) (network : Option Nat) (nNodes : Nat)
    (rng : Nat → Nat) : Nat → Nat → AMState → List CAddr → List CAddr × AMState
  | 0, _, st, acc => (acc.reverse, st)
  | fuel + 1, n, st, acc =>
    if n < st.vRandom.length then
      if nNodes ≤ acc.length then (acc.reverse, st)
      else
        let j := n + rng n % (st.vRandom.length - n)
        let st := { st with vRandom := swapRandomV st.vRandom n j }
        let acc :=
          match findCanonical st (st.vRandom.getD n 0) with
          | none => acc
          | some ai =>
            if network ≠ none ∧ some (c.netClass ai.svc) ≠ network then acc
            else if isTerrible ai now then acc
            else mkCAddr ai :: acc
        getAddrGo c now network nNodes rng fuel (n + 1) st acc
    else (acc.reverse, st)

/-- `AddrManMultiImpl::GetAddr_`. -/
def getAddr_ (c : Ctx) (st : AMState) (maxAddresses maxPct : Nat)
    (network : Option Nat) (now : Int) (rng : Nat → Nat) : List CAddr × AMState :=
  let nNodes := st.vRandom.length
  let nNodes := if maxPct ≠ 0 then maxPct * nNodes / 100 else nNodes
  let nNodes := if maxAddresses ≠ 0 then min nNodes maxAddresses else nNodes
  getAddrGo c now network nNodes rng st.vRandom.length 0 st []

/-- The linear scan of a bucket in `Select_`: the first occupied position
starting at `p`, wrapping around. -/
def firstOccupied (st : AMState) (tried : Bool) (b p : Nat) : Option Entry :=
  (List.range ADDRMAN_BUCKET_SIZE).findSome? fun i =>
    findSlot st (tried, b, (p + i) % ADDRMAN_BUCKET_SIZE)

/-- The rejection-sampling loop of `Select_` over one table; `fuel`
bounds the `while (1)`.  `rng k` is the `k`-th random draw. -/
def selectFromTable (c : Ctx) (st : AMState) (tried : Bool) (now : Int) :
    Nat → (Nat → Nat) → Nat → ℚ → Option (CAddr × Int)
  | 0, _, _, _ => none
  | fuel + 1, rng, k, f =>
    let bucketCount := if tried then ADDRMAN_TRIED_BUCKET_COUNT else ADDRMAN_NEW_BUCKET_COUNT
    let b := rng k % bucketCount
    let p := rng (k + 1) % ADDRMAN_BUCKET_SIZE
    match firstOccupied st tried b p with
    | none => selectFromTable c st tried now fuel rng (k + 2) f
    | some it =>
      if ((rng (k + 2) % 2 ^ 30 : Nat) : ℚ) < f * getChance it now * 2 ^ 30 then
        some (mkCAddr it, it.nLastTry)
      else selectFromTable c st tried now fuel rng (k + 3) (f * (6 / 5))

/-- `AddrManMultiImpl::Select_` (const: the state is not modified). -/
def select_ (c : Ctx) (st : AMState) (newOnly : Bool) (now : Int) (fuel : Nat)
    (rng : Nat → Nat) : Option (CAddr × Int) :=
  if st.entries.isEmpty then none
  else if newOnly ∧ st.nNew = 0 then none
  else if ¬newOnly ∧ st.nTried > 0 ∧ (st.nNew = 0 ∨ rng 0 % 2 = 0) then
    selectFromTable c st true now fuel rng 1 1
  else selectFromTable c st false now fuel rng 1 1

/-! Serialization (format `V5_MULTIINDEX`).  The byte-level codecs for the
individual primitives (BIP155 addresses, varints, ...) live outside this
subsystem; the stream is modelled at the level of the records the
serializer emits and the deserializer consumes. -/

/-- The ByBucket iteration order: lexicographic on
`(fInTried, m_bucket, m_bucketpos)` (`std::tuple` ordering,
`false < true`). -/
def bucketLe (a b : Entry) : Bool :=
  decide (a.fInTried = false ∧ b.fInTried = true) ||
  (a.fInTried == b.fInTried &&
    (a.mBucket < b.mBucket ||
      (a.mBucket == b.mBucket && a.mBucketpos ≤ b.mBucketpos)))

def insertOrd {A : Type _} (le : A → A → Bool) (a : A) : List A → List A
  | [] => [a]
  | b :: l => if le a b then a :: b :: l else b :: insertOrd le a l

def isort {A : Type _} (le : A → A → Bool) : List A → List A
  | [] => []
  | a :: l => insertOrd le a (isort le l)

def byBucketSorted (l : List Entry) : List Entry := isort bucketLe l

/-- The ByAddress iteration order: lexicographic on
`(CService, nRandomPos == -1)`, so the canonical entry of an address
precedes its aliases. -/
def addrLe (a b : Entry) : Bool :=
  a.svc < b.svc || (a.svc == b.svc && (!a.fAlias || b.fAlias))

def byAddressSorted (l : List Entry) : List Entry := isort addrLe l

/-- The per-canonical-entry record of the V5 body: the `CAddress`
(address, time, services) and the four statistics. -/
structure SerEntry where
  svc : Nat
  time : Nat
  services : Nat
  lastTry : Int
  lastCountAttempt : Int
  lastSuccess : Int
  attempts : Int
deriving DecidableEq

/-- The V5 stream: the two header bytes, `nKey`, `nNew`, `nTried`, then
the new records (each with its `alias_count`-long source list, the first
source being the canonical entry's) followed by the tried records (one
source each). -/
structure SerFile where
  format : Nat
  compat : Nat
  key : Nat
  nNew : Int
  nTried : Int
  newRecs : List (SerEntry × List Nat)
  triedRecs : List (SerEntry × Nat)
deriving DecidableEq

def serEntryOf (e : Entry) : SerEntry :=
  ⟨e.svc, e.nTime, e.nServices, e.nLastTry, e.nLastCountAttempt, e.nLastSuccess, e.nAttempts⟩

/-- The alias sources of an address, in ByAddress index order (the
iteration `project<ByAddress>` + `++addrit` of `Serialize`). -/
def aliasSources (st : AMState) (a : Nat) : List Nat :=
  ((byAddressSorted st.entries).filter fun x => x.svc == a && x.fAlias).map (·.source)

/-- `AddrManMultiImpl::Serialize`: format byte 5,
`compat = INCOMPATIBILITY_BASE + lowest_compatible` = 32 + 5, the key,
the counters, then the canonical entries in ByBucket order (new ones
first, since `false < true` in the bucket key) with their sources. -/
def serialize (st : AMState) : SerFile :=
  let canon := (byBucketSorted st.entries).filter fun e => !e.fAlias
  { format := 5, compat := 32 + 5, key := st.key, nNew := st.nNew, nTried := st.nTried,
    newRecs := (canon.filter fun e => !e.fInTried).map fun e =>
      (serEntryOf e, e.source :: aliasSources st e.svc),
    triedRecs := (canon.filter fun e => e.fInTried).map fun e => (serEntryOf e, e.source) }

/-- The entry built from a read record for one of its sources
(`AddrInfo info` with the `CAddress` and statistics fields read from the
stream). -/
def entryOfSer (r : SerEntry) (tried : Bool) (src : Nat) : Entry :=
  { svc := r.svc, source := src, fInTried := tried, fAlias := false,
    mBucket := 0, mBucketpos := 0, nTime := r.time, nServices := r.services,
    nLastTry := r.lastTry, nLastCountAttempt := r.lastCountAttempt,
    nLastSuccess := r.lastSuccess, nAttempts := r.attempts }

/-- The per-source body of the `Unserialize` read loop: rebucket, erase a
same-slot occupant, detect an existing entry with the same address
(alias for new entries, erase-all for tried ones), insert. -/
def insertRead (c : Ctx) (st : AMState) (info : Entry) : AMState :=
  let info := rebucket c st.key info
  let st :=
    match findSlot st (info.fInTried, info.mBucket, info.mBucketpos) with
    | some occ => eraseInner c st occ
    | none => st
  if st.entries.any (fun e => e.svc == info.svc) then
    if info.fInTried then
      let st := eraseAllAddr c (st.entries.length + 1) st info.svc
      insertEntry c st info false
    else insertEntry c st info true
  else insertEntry c st info false

/-- `AddrManMultiImpl::CheckAddrman`, ByAddress pass: walks the entries
in ByAddress order tracking the predecessor.  Alias entries must not be
tried (-1) and must share their predecessor's address (-2); canonical
entries must be correctly referenced by `vRandom` (the
`nRandomPos`/`vRandom` back-pointer checks -22 and -23, expressed here as
"the address occurs exactly once in `vRandom`") and must differ from
their predecessor's address (-3); every entry must be at its recomputed
bucket (-5). -/
def checkAddrPass (c : Ctx) (st : AMState) : Option Entry → List Entry → Option Int
  | _, [] => none
  | prev, e :: rest =>
    if e.fAlias then
      if e.fInTried then some (-1)
      else
        match prev with
        | none => some (-2)
        | some p =>
          if p.svc ≠ e.svc then some (-2)
          else if rebucket c st.key e ≠ e then some (-5)
          else checkAddrPass c st (some e) rest
    else
      if st.vRandom.count e.svc ≠ 1 then some (-23)
      else
        let dup : Bool :=
          match prev with
          | some p => p.svc == e.svc
          | none => false
        if dup then some (-3)
        else if rebucket c st.key e ≠ e then some (-5)
        else checkAddrPass c st (some e) rest

/-- Adjacent-duplicate scan of the ByBucket pass (-10). -/
def chainDup : List Entry → Bool
  | a :: b :: rest => slotOf a == slotOf b || chainDup (b :: rest)
  | _ => false

/-- `AddrManMultiImpl::CheckAddrman`: 0 means consistent. -/
def checkAddrman (c : Ctx) (st : AMState) : Int :=
  match checkAddrPass c st none (byAddressSorted st.entries) with
  | some code => code
  | none =>
    let countedNew := (st.entries.filter fun e => !e.fAlias && !e.fInTried).length
    let countedTried := (st.entries.filter fun e => !e.fAlias && e.fInTried).length
    if (countedNew : Int) ≠ st.nNew then -6
    else if (countedTried : Int) ≠ st.nTried then -7
    else if countedNew + countedTried ≠ st.vRandom.length then -8
    else if chainDup (byBucketSorted st.entries) then -10
    else 0

/-- `AddrManMultiImpl::Unserialize` (V5 body) into a fresh manager: check
the compat byte (`uint8_t` arithmetic), read the records new-first, and
run the consistency check, failing on a nonzero code. -/
def unserialize (c : Ctx) (f : SerFile) : Except Int AMState :=
  let lowestCompatible := (f.compat + 256 - 32) % 256
  if lowestCompatible > 5 then .error (-100)
  else
    let st := AMState.empty f.key
    let st := f.newRecs.foldl
      (fun s rec => rec.2.foldl (fun s2 src => insertRead c s2 (entryOfSer rec.1 false src)) s) st
    let st := f.triedRecs.foldl
      (fun s rec => insertRead c s (entryOfSer rec.1 true rec.2)) st
    let code := checkAddrman c st
    if code ≠ 0 then .error code else .ok st

/-! The state-machine view: one constructor per public operation of the
claims (`Add`, `Good`, `Attempt`, `Connected`, `SetServices`,
`ResolveCollisions`, `Select`, `GetAddr`, deserialize).  `Select` is a
const method: it draws random numbers but leaves the state unchanged. -/

inductive Step (c : Ctx) : AMState → AMState → Prop where
  | add (st : AMState) (addrs : List CAddr) (src : Nat) (pen now : Int) (rng : Nat → Nat) :
      Step c st (add_ c st addrs src pen now rng).2
  | good (st : AMState) (a : Nat) (now : Int) :
      Step c st (good_ c st a true now).2
  | attempt (st : AMState) (a : Nat) (cf : Bool) (now : Int) :
      Step c st (attempt_ c st a cf now)
  | connected (st : AMState) (a : Nat) (now : Int) :
      Step c st (connected_ c st a now)
  | setServices (st : AMState) (a : Nat) (sv : Nat) :
      Step c st (setServices_ c st a sv)
  | resolve (st : AMState) (now : Int) :
      Step c st (resolveCollisions_ c st now)
  | select (st : AMState) (newOnly : Bool) (now : Int) (fuel : Nat) (rng : Nat → Nat) :
      Step c st st
  | getAddr (st : AMState) (maxA maxPct : Nat) (nw : Option Nat) (now : Int) (rng : Nat → Nat) :
      Step c st (getAddr_ c st maxA maxPct nw now rng).2
  | unser (st : AMState) (f : SerFile) (st' : AMState) :
      unserialize c f = .ok st' → Step c st st'

/-- The mutating table operations without deserialization. -/
inductive StepM (c : Ctx) : AMState → AMState → Prop where
  | add (st : AMState) (addrs : List CAddr) (src : Nat) (pen now : Int) (rng : Nat → Nat) :
      StepM c st (add_ c st addrs src pen now rng).2
  | good (st : AMState) (a : Nat) (now : Int) :
      StepM c st (good_ c st a true now).2
  | attempt (st : AMState) (a : Nat) (cf : Bool) (now : Int) :
      StepM c st (attempt_ c st a cf now)
  | connected (st : AMState) (a : Nat) (now : Int) :
      StepM c st (connected_ c st a now)
  | setServices (st : AMState) (a : Nat) (sv : Nat) :
      StepM c st (setServices_ c st a sv)
  | resolve (st : AMState) (now : Int) :
      StepM c st (resolveCollisions_ c st now)
  | select (st : AMState) (newOnly : Bool) (now : Int) (fuel : Nat) (rng : Nat → Nat) :
      StepM c st st
  | getAddr (st : AMState) (maxA maxPct : Nat) (nw : Option Nat) (now : Int) (rng : Nat → Nat) :
      StepM c st (getAddr_ c st maxA maxPct nw now rng).2

/-- States reachable from a fresh manager by the mutating public API. -/
def Reach (c : Ctx) (key : Nat) (st : AMState) : Prop :=
  Relation.ReflTransGen (StepM c) (AMState.empty key) st

/-- States reachable from a fresh manager by the full public API,
deserialization included. -/
def ReachF (c : Ctx) (key : Nat) (st : AMState) : Prop :=
  Relation.ReflTransGen (Step c) (AMState.empty key) st

/-! The consistency invariant (spec §3).  Each component is decidable, so
concrete states can be checked by `decide`. -/

/-- Invariant 1: each occupied slot holds at most one entry. -/
def SlotU (st : AMState) : Prop :=
  st.entries.Pairwise fun a b => slotOf a ≠ slotOf b

/-- Invariant 5: stored bucket fields equal the recomputation. -/
def BuckOk (c : Ctx) (st : AMState) : Prop :=
  ∀ e ∈ st.entries, rebucket c st.key e = e

/-- Aliases live only in the new table. -/
def AliasNew (st : AMState) : Prop :=
  ∀ e ∈ st.entries, e.fAlias → e.fInTried = false

/-- Invariant 2a: at most one canonical entry per address. -/
def CanonU (st : AMState) : Prop :=
  (st.entries.filter fun e => !e.fAlias).Pairwise fun a b => a.svc ≠ b.svc

/-- Invariant 2b: every alias has a canonical entry, in the new table. -/
def AliasCanon (st : AMState) : Prop :=
  ∀ e ∈ st.entries, e.fAlias →
    ∃ cn ∈ st.entries, !cn.fAlias ∧ cn.svc = e.svc ∧ cn.fInTried = false

/-- Invariant 3: a tried entry is the only entry with its address. -/
def TriedSolo (st : AMState) : Prop :=
  ∀ e ∈ st.entries, e.fInTried → countAddr st e.svc = 1

/-- Invariant 4: at most `MAX_NEW_REFS = 8` entries per address. -/
def RefBound (st : AMState) : Prop :=
  ∀ e ∈ st.entries, countAddr st e.svc ≤ ADDRMAN_NEW_BUCKETS_PER_ADDRESS

/-- Number of canonical new entries in an entry list. -/
def newCnt (l : List Entry) : Nat := (l.filter fun e => !e.fAlias && !e.fInTried).length

/-- Number of (canonical) tried entries in an entry list. -/
def triedCnt (l : List Entry) : Nat := (l.filter fun e => !e.fAlias && e.fInTried).length

/-- Addresses of the canonical entries of an entry list. -/
def canonSvcs (l : List Entry) : List Nat := (l.filter fun e => !e.fAlias).map (·.svc)

/-- Invariant 6: the counters agree with the table. -/
def CountersOk (st : AMState) : Prop :=
  st.nNew = (newCnt st.entries : Int) ∧ st.nTried = (triedCnt st.entries : Int)

/-- Invariant 7: `vRandom` is a permutation of the canonical entries. -/
def VRandOk (st : AMState) : Prop :=
  st.vRandom.Perm (canonSvcs st.entries)

/-- The collision set holds (deduplicated) references to canonical
new-table entries. -/
def CollOk (st : AMState) : Prop :=
  st.collisions.Nodup ∧
  ∀ cl ∈ st.collisions, cl.2 = false ∧
    ∃ e ∈ st.entries, !e.fAlias ∧ e.fInTried = false ∧ e.svc = cl.1

structure InvB (b : Bool) (c : Ctx) (st : AMState) : Prop where
  slotU : SlotU st
  buckOk : BuckOk c st
  aliasNew : AliasNew st
  canonU : CanonU st
  aliasCanon : AliasCanon st
  triedSolo : TriedSolo st
  refBound : b = true → RefBound st
  countersOk : CountersOk st
  vRandOk : VRandOk st
  collOk : CollOk st

/-- The full invariant: all components including the reference-count
bound.  (`InvB false` drops the bound: it is the part of the invariant
that deserialization re-establishes — the multi-index `CheckAddrman`
does not check the bound, so a loaded table can exceed it.) -/
abbrev Inv (c : Ctx) (st : AMState) : Prop := InvB true c st

/-- Equivalence of states in the sense of the round-trip property:
the same canonical entries (with all their fields), the same
alias `(address, source)` pairs, and the same counters.  (`vRandom`
order and the memory-only collision set and `nLastGood` are not part of
the serialized state.) -/
def canonOf (st : AMState) : List Entry := st.entries.filter fun e => !e.fAlias

def aliasPairsOf (st : AMState) : List (Nat × Nat) :=
  (st.entries.filter fun e => e.fAlias).map fun e => (e.svc, e.source)

def equivState (s t : AMState) : Prop :=
  (canonOf s).Perm (canonOf t) ∧ (aliasPairsOf s).Perm (aliasPairsOf t) ∧
  s.nNew = t.nNew ∧ s.nTried = t.nTried

/-! Spec-side bucket formulas.  These three definitions follow the
wording of the spec (tried bucket: `H(K ‖ addr_key) mod 8` fed into
`H(K ‖ group(addr) ‖ b1) mod 256`; new bucket: `H(K ‖ group(addr) ‖
group(source)) mod 64` fed into `H(K ‖ group(source) ‖ b1) mod 1024`;
position: `H(K ‖ tag ‖ bucket ‖ addr_key) mod 64`), to be compared with
the translations of the source above. -/

def triedBucketSpec (c : Ctx) (K a : Nat) : Nat :=
  c.H [.key K, .bytes (c.grp a), .num (c.H [.key K, .bytes (c.addrKey a)] % 8)] % 256

def newBucketSpec (c : Ctx) (K a src : Nat) : Nat :=
  c.H [.key K, .bytes (c.grp src),
       .num (c.H [.key K, .bytes (c.grp a), .bytes (c.grp src)] % 64)] % 1024

def bucketPosSpec (c : Ctx) (K : Nat) (isNew : Bool) (bucket a : Nat) : Nat :=
  c.H [.key K, .byte (if isNew then 78 else 75), .num bucket, .bytes (c.addrKey a)] % 64

/-- The alias entries of an address, in the iteration order of
`Serialize` (`aliasSources` is their `source` projection). -/
def aliasEnts (st : AMState) (a : Nat) : List Entry :=
  (byAddressSorted st.entries).filter fun x => x.svc == a && x.fAlias

/-! Concrete fixtures for the counterexample and witness theorems: a
small deterministic hash and a context over it, and a few states built
by running the public operations. -/

/-- A deterministic test hash: two-byte-vector calls (the new-bucket
first hash) add the groups, `(bytes, num)` calls (the second hashes)
return the fed-in value for large groups and `7` otherwise, and
position calls return `3`. -/
def hT : List HTok → Nat
  | [.key _, .bytes _] => 0
  | [.key _, .bytes g, .num r] => if 1000 ≤ g then r else 7
  | [.key _, .bytes g, .bytes s] => g + s
  | [.key _, .byte _, .num _, .bytes _] => 3
  | _ => 0

def ctxT : Ctx :=
  { H := hT, grp := id, addrKey := id, routable := fun _ => true,
    netClass := fun _ => 0, sameAddr := fun _ _ => false }

/-- One `Add` of a single address from source 1000. -/
def addA (st : AMState) (a : Nat) : AMState :=
  (add_ ctxT st [⟨a, 500000, 1⟩] 1000 0 500000 (fun _ => 0)).2

def stA : AMState := addA (AMState.empty 0) 100

/-- Address 100 promoted to the tried table. -/
def stB : AMState := (good_ ctxT stA 100 true 500000).2

/-- Eleven more addresses whose tried slot collides with address 100. -/
def stC : AMState := [1, 2, 3, 4, 5, 6, 7, 8, 9, 10, 11].foldl addA stB

/-- `Good` on the first ten fills the collision set to its cap. -/
def stD : AMState :=
  [1, 2, 3, 4, 5, 6, 7, 8, 9, 10].foldl (fun s a => (good_ ctxT s a true 500000).2) stC

/-- The canonical entry of address 11 in `stD`. -/
def itD : Entry := ⟨11, 1000, false, false, 51, 3, 500000, 1, 0, 0, 0, 0⟩

/-- The tried entry occupying address 11's target tried slot in `stD`. -/
def wD : Entry := ⟨100, 1000, true, false, 7, 3, 500000, 1, 500000, 0, 500000, 0⟩

/-- A state with one canonical entry, gossiped time 99000. -/
def stc5 : AMState :=
  (add_ ctxT (AMState.empty 0) [⟨1, 99000, 1⟩] 1001 0 99000 (fun _ => 0)).2

/-- The canonical entry of `stc5`. -/
def itC5 : Entry := ⟨1, 1001, false, false, 42, 3, 99000, 1, 0, 0, 0, 0⟩

/-- A V5 stream carrying one new record with nine sources. -/
def badFile : SerFile :=
  { format := 5, compat := 37, key := 0, nNew := 1, nTried := 0,
    newRecs := [(⟨1, 400000, 1, 0, 0, 0, 0⟩,
      [1001, 1002, 1003, 1004, 1005, 1006, 1007, 1008, 1009])],
    triedRecs := [] }

/-- A state with one canonical (non-terrible) entry. -/
def stg : AMState :=
  (add_ ctxT (AMState.empty 0) [⟨1, 499999, 1⟩] 1001 0 500000 (fun _ => 0)).2

/-- A fresh entry with all statistics zero. -/
def e0 : Entry := ⟨1, 1, false, false, 0, 0, 0, 0, 0, 0, 0, 0⟩

/-- One `Add` of address 1 from a given source. -/
def addS (st : AMState) (src : Nat) (t : Nat) : AMState :=
  (add_ ctxT st [⟨1, t, 1⟩] src 0 500000 (fun _ => 0)).2

/-- Address 1 with a canonical entry (source 1001) and one alias
(source 1002). -/
def sta : AMState := addS (addS (AMState.empty 0) 1001 400000) 1002 400100

/-- The canonical entry of `sta`. -/
def cnA : Entry := ⟨1, 1001, false, false, 42, 3, 400000, 1, 0, 0, 0, 0⟩

/-- The alias entry of `sta`. -/
def alA : Entry := ⟨1, 1002, false, true, 43, 3, 400100, 1, 0, 0, 0, 0⟩

/-! ### Basic lemmas: filtered lengths, finds, and list surgery -/

theorem lenf_perm (p : Entry → Bool) {l l' : List Entry} (h : l.Perm l') :
    (l.filter p).length = (l'.filter p).length :=
  (h.filter p).length_eq

theorem lenf_cons (p : Entry → Bool) (x : Entry) (l : List Entry) :
    ((x :: l).filter p).length = (l.filter p).length + (if p x then 1 else 0) := by
  by_cases h : p x <;> simp [List.filter_cons, h]

theorem lenf_erase (p : Entry → Bool) {x : Entry} {l : List Entry} (h : x ∈ l) :
    ((l.erase x).filter p).length = (l.filter p).length - (if p x then 1 else 0) := by
  have h1 := lenf_perm p (List.perm_cons_erase h)
  rw [h1, lenf_cons]
  omega

theorem countA_perm {l l' : List Entry} (h : l.Perm l') (a : Nat) :
    countA l a = countA l' a := lenf_perm _ h

theorem countA_cons (x : Entry) (l : List Entry) (a : Nat) :
    countA (x :: l) a = countA l a + (if x.svc = a then 1 else 0) := by
  unfold countA
  rw [lenf_cons]
  by_cases h : x.svc = a <;> simp [h]

theorem countA_erase {x : Entry} {l : List Entry} (h : x ∈ l) (a : Nat) :
    countA (l.erase x) a = countA l a - (if x.svc = a then 1 else 0) := by
  unfold countA
  rw [lenf_erase _ h]
  by_cases h2 : x.svc = a <;> simp [h2]

theorem countA_pos_of_mem {x : Entry} {l : List Entry} (h : x ∈ l) :
    0 < countA l x.svc := by
  unfold countA
  have : x ∈ l.filter fun e => e.svc == x.svc := by
    rw [List.mem_filter]; exact ⟨h, by simp⟩
  exact List.length_pos.mpr (List.ne_nil_of_mem this)

theorem newCnt_perm {l l' : List Entry} (h : l.Perm l') : newCnt l = newCnt l' :=
  lenf_perm _ h

theorem newCnt_cons (x : Entry) (l : List Entry) :
    newCnt (x :: l) = newCnt l + (if !x.fAlias && !x.fInTried then 1 else 0) :=
  lenf_cons _ x l

theorem newCnt_erase {x : Entry} {l : List Entry} (h : x ∈ l) :
    newCnt (l.erase x) = newCnt l - (if !x.fAlias && !x.fInTried then 1 else 0) :=
  lenf_erase _ h

theorem triedCnt_perm {l l' : List Entry} (h : l.Perm l') : triedCnt l = triedCnt l' :=
  lenf_perm _ h

theorem triedCnt_cons (x : Entry) (l : List Entry) :
    triedCnt (x :: l) = triedCnt l + (if !x.fAlias && x.fInTried then 1 else 0) :=
  lenf_cons _ x l

theorem triedCnt_erase {x : Entry} {l : List Entry} (h : x ∈ l) :
    triedCnt (l.erase x) = triedCnt l - (if !x.fAlias && x.fInTried then 1 else 0) :=
  lenf_erase _ h

theorem canonSvcs_perm {l l' : List Entry} (h : l.Perm l') :
    (canonSvcs l).Perm (canonSvcs l') := (h.filter _).map _

theorem canonSvcs_cons (x : Entry) (l : List Entry) :
    canonSvcs (x :: l) = if x.fAlias then canonSvcs l else x.svc :: canonSvcs l := by
  by_cases h : x.fAlias <;> simp [canonSvcs, List.filter_cons, h]

theorem canonSvcs_erase_alias {x : Entry} {l : List Entry} (hm : x ∈ l) (ha : x.fAlias) :
    (canonSvcs (l.erase x)).Perm (canonSvcs l) := by
  have h1 := canonSvcs_perm (List.perm_cons_erase hm)
  rw [canonSvcs_cons, if_pos ha] at h1
  exact h1.symm

theorem canonSvcs_erase_canon {x : Entry} {l : List Entry} (hm : x ∈ l) (ha : ¬x.fAlias) :
    (canonSvcs l).Perm (x.svc :: canonSvcs (l.erase x)) := by
  have h1 := canonSvcs_perm (List.perm_cons_erase hm)
  rwa [canonSvcs_cons, if_neg ha] at h1

theorem findCanonical_some {st : AMState} {a : Nat} {e : Entry}
    (h : findCanonical st a = some e) : e ∈ st.entries ∧ e.svc = a ∧ e.fAlias = false := by
  have hm := List.mem_of_find?_eq_some h
  have hp := List.find?_some h
  simp only [Bool.and_eq_true, beq_iff_eq, Bool.not_eq_true'] at hp
  exact ⟨hm, hp.1, hp.2⟩

theorem findCanonical_none {st : AMState} {a : Nat} (h : findCanonical st a = none) :
    ∀ e ∈ st.entries, e.svc = a → e.fAlias = true := by
  intro e he hsvc
  have := List.find?_eq_none.mp h e he
  simp only [Bool.and_eq_true, beq_iff_eq, Bool.not_eq_true', not_and] at this
  by_contra hb
  exact absurd (this hsvc) (by simpa using hb)

theorem findAlias_some {st : AMState} {a : Nat} {e : Entry}
    (h : findAlias st a = some e) : e ∈ st.entries ∧ e.svc = a ∧ e.fAlias = true := by
  have hm := List.mem_of_find?_eq_some h
  have hp := List.find?_some h
  simp only [Bool.and_eq_true, beq_iff_eq] at hp
  exact ⟨hm, hp.1, hp.2⟩

theorem findAlias_none {st : AMState} {a : Nat} (h : findAlias st a = none) :
    ∀ e ∈ st.entries, e.svc = a → e.fAlias = false := by
  intro e he hsvc
  have := List.find?_eq_none.mp h e he
  simp only [Bool.and_eq_true, beq_iff_eq, not_and] at this
  by_contra hb
  exact absurd (this hsvc) (by simpa using hb)

theorem findSlot_some {st : AMState} {s : Bool × Nat × Nat} {e : Entry}
    (h : findSlot st s = some e) : e ∈ st.entries ∧ slotOf e = s := by
  have hm := List.mem_of_find?_eq_some h
  have hp := List.find?_some h
  simp only [beq_iff_eq] at hp
  exact ⟨hm, hp⟩

theorem findSlot_none {st : AMState} {s : Bool × Nat × Nat} (h : findSlot st s = none) :
    ∀ e ∈ st.entries, slotOf e ≠ s := by
  intro e he
  have := List.find?_eq_none.mp h e he
  simpa using this

theorem replaceFirst_perm {e : Entry} {l : List Entry} (h : e ∈ l) (e' : Entry) :
    (replaceFirst l e e').Perm (e' :: l.erase e) := by
  induction l with
  | nil => cases h
  | cons x xs ih =>
    by_cases hx : x = e
    · subst hx
      simp [replaceFirst, List.erase_cons_head]
    · have hmem : e ∈ xs := by
        cases List.mem_cons.mp h with
        | inl h1 => exact absurd h1.symm hx
        | inr h2 => exact h2
      have : (x :: xs).erase e = x :: xs.erase e := by
        rw [List.erase_cons_tail]
        simp [hx]
      rw [this]
      simp only [replaceFirst, if_neg hx]
      exact ((ih hmem).cons x).trans (List.Perm.swap e' x _)

theorem replaceFirst_not_mem {e : Entry} {l : List Entry} (h : e ∉ l) (e' : Entry) :
    replaceFirst l e e' = l := by
  induction l with
  | nil => rfl
  | cons x xs ih =>
    have hx : x ≠ e := fun hh => h (hh ▸ List.mem_cons_self x xs)
    have hxs : e ∉ xs := fun hh => h (List.mem_cons_of_mem x hh)
    simp [replaceFirst, hx, ih hxs]

/-! ### Record-field computations for the state primitives -/

@[simp] theorem updateStat_key (st : AMState) (e : Entry) (i : Int) :
    (updateStat st e i).key = st.key := by
  unfold updateStat; split <;> [skip; rfl]; split <;> rfl

@[simp] theorem updateStat_entries (st : AMState) (e : Entry) (i : Int) :
    (updateStat st e i).entries = st.entries := by
  unfold updateStat; split <;> [skip; rfl]; split <;> rfl

@[simp] theorem updateStat_vRandom (st : AMState) (e : Entry) (i : Int) :
    (updateStat st e i).vRandom = st.vRandom := by
  unfold updateStat; split <;> [skip; rfl]; split <;> rfl

@[simp] theorem updateStat_collisions (st : AMState) (e : Entry) (i : Int) :
    (updateStat st e i).collisions = st.collisions := by
  unfold updateStat; split <;> [skip; rfl]; split <;> rfl

@[simp] theorem updateStat_nLastGood (st : AMState) (e : Entry) (i : Int) :
    (updateStat st e i).nLastGood = st.nLastGood := by
  unfold updateStat; split <;> [skip; rfl]; split <;> rfl

theorem updateStat_nNew (st : AMState) (e : Entry) (i : Int) :
    (updateStat st e i).nNew = st.nNew + (if !e.fAlias && !e.fInTried then i else 0) := by
  unfold updateStat
  by_cases ha : e.fAlias <;> by_cases ht : e.fInTried <;> simp [ha, ht]

theorem updateStat_nTried (st : AMState) (e : Entry) (i : Int) :
    (updateStat st e i).nTried = st.nTried + (if !e.fAlias && e.fInTried then i else 0) := by
  unfold updateStat
  by_cases ha : e.fAlias <;> by_cases ht : e.fInTried <;> simp [ha, ht]

@[simp] theorem eraseRaw_key (st : AMState) (x : Entry) : (eraseRaw st x).key = st.key := by
  simp [eraseRaw]

@[simp] theorem eraseRaw_entries (st : AMState) (x : Entry) :
    (eraseRaw st x).entries = st.entries.erase x := by
  simp [eraseRaw]

@[simp] theorem eraseRaw_vRandom (st : AMState) (x : Entry) :
    (eraseRaw st x).vRandom = st.vRandom := by
  simp [eraseRaw]

@[simp] theorem eraseRaw_collisions (st : AMState) (x : Entry) :
    (eraseRaw st x).collisions = st.collisions.erase (x.svc, x.fAlias) := by
  simp [eraseRaw]

@[simp] theorem eraseRaw_nLastGood (st : AMState) (x : Entry) :
    (eraseRaw st x).nLastGood = st.nLastGood := by
  simp [eraseRaw]

theorem eraseRaw_nNew (st : AMState) (x : Entry) :
    (eraseRaw st x).nNew = st.nNew + (if !x.fAlias && !x.fInTried then -1 else 0) := by
  simp [eraseRaw, updateStat_nNew]

theorem eraseRaw_nTried (st : AMState) (x : Entry) :
    (eraseRaw st x).nTried = st.nTried + (if !x.fAlias && x.fInTried then -1 else 0) := by
  simp [eraseRaw, updateStat_nTried]

@[simp] theorem modifyE_key (c : Ctx) (st : AMState) (e : Entry) (f : Entry → Entry) :
    (modifyE c st e f).1.key = st.key := by
  simp [modifyE]

@[simp] theorem modifyE_entries (c : Ctx) (st : AMState) (e : Entry) (f : Entry → Entry) :
    (modifyE c st e f).1.entries = replaceFirst st.entries e (rebucket c st.key (f e)) := by
  simp [modifyE]

@[simp] theorem modifyE_vRandom (c : Ctx) (st : AMState) (e : Entry) (f : Entry → Entry) :
    (modifyE c st e f).1.vRandom = st.vRandom := by
  simp [modifyE]

@[simp] theorem modifyE_collisions (c : Ctx) (st : AMState) (e : Entry) (f : Entry → Entry) :
    (modifyE c st e f).1.collisions = st.collisions := by
  simp [modifyE]

@[simp] theorem modifyE_nLastGood (c : Ctx) (st : AMState) (e : Entry) (f : Entry → Entry) :
    (modifyE c st e f).1.nLastGood = st.nLastGood := by
  simp [modifyE]

@[simp] theorem modifyE_snd (c : Ctx) (st : AMState) (e : Entry) (f : Entry → Entry) :
    (modifyE c st e f).2 = rebucket c st.key (f e) := by
  simp [modifyE]

theorem modifyE_nNew (c : Ctx) (st : AMState) (e : Entry) (f : Entry → Entry) :
    (modifyE c st e f).1.nNew = st.nNew +
      (if !e.fAlias && !e.fInTried then -1 else 0) +
      (if !(rebucket c st.key (f e)).fAlias && !(rebucket c st.key (f e)).fInTried
        then 1 else 0) := by
  simp [modifyE, updateStat_nNew]

theorem modifyE_nTried (c : Ctx) (st : AMState) (e : Entry) (f : Entry → Entry) :
    (modifyE c st e f).1.nTried = st.nTried +
      (if !e.fAlias && e.fInTried then -1 else 0) +
      (if !(rebucket c st.key (f e)).fAlias && (rebucket c st.key (f e)).fInTried
        then 1 else 0) := by
  simp [modifyE, updateStat_nTried]

@[simp] theorem insertEntry_key (c : Ctx) (st : AMState) (info : Entry) (al : Bool) :
    (insertEntry c st info al).key = st.key := by
  simp [insertEntry]

theorem insertEntry_entries (c : Ctx) (st : AMState) (info : Entry) (al : Bool) :
    (insertEntry c st info al).entries =
      { rebucket c st.key info with fAlias := al } :: st.entries := by
  simp [insertEntry]

theorem insertEntry_vRandom (c : Ctx) (st : AMState) (info : Entry) (al : Bool) :
    (insertEntry c st info al).vRandom =
      if al then st.vRandom else st.vRandom ++ [info.svc] := by
  have : (rebucket c st.key info).svc = info.svc := by simp [rebucket]
  simp [insertEntry, this]

@[simp] theorem insertEntry_collisions (c : Ctx) (st : AMState) (info : Entry) (al : Bool) :
    (insertEntry c st info al).collisions = st.collisions := by
  simp [insertEntry]

@[simp] theorem insertEntry_nLastGood (c : Ctx) (st : AMState) (info : Entry) (al : Bool) :
    (insertEntry c st info al).nLastGood = st.nLastGood := by
  simp [insertEntry]

theorem insertEntry_nNew (c : Ctx) (st : AMState) (info : Entry) (al : Bool) :
    (insertEntry c st info al).nNew =
      st.nNew + (if !al && !info.fInTried then 1 else 0) := by
  have : (rebucket c st.key info).fInTried = info.fInTried := by simp [rebucket]
  simp [insertEntry, updateStat_nNew, this]

theorem insertEntry_nTried (c : Ctx) (st : AMState) (info : Entry) (al : Bool) :
    (insertEntry c st info al).nTried =
      st.nTried + (if !al && info.fInTried then 1 else 0) := by
  have : (rebucket c st.key info).fInTried = info.fInTried := by simp [rebucket]
  simp [insertEntry, updateStat_nTried, this]

/-! Fields that `rebucket` leaves unchanged. -/

@[simp] theorem rebucket_svc (c : Ctx) (K : Nat) (e : Entry) :
    (rebucket c K e).svc = e.svc := by simp [rebucket]

@[simp] theorem rebucket_source (c : Ctx) (K : Nat) (e : Entry) :
    (rebucket c K e).source = e.source := by simp [rebucket]

@[simp] theorem rebucket_fInTried (c : Ctx) (K : Nat) (e : Entry) :
    (rebucket c K e).fInTried = e.fInTried := by simp [rebucket]

@[simp] theorem rebucket_fAlias (c : Ctx) (K : Nat) (e : Entry) :
    (rebucket c K e).fAlias = e.fAlias := by simp [rebucket]

@[simp] theorem rebucket_nTime (c : Ctx) (K : Nat) (e : Entry) :
    (rebucket c K e).nTime = e.nTime := by simp [rebucket]

@[simp] theorem rebucket_nServices (c : Ctx) (K : Nat) (e : Entry) :
    (rebucket c K e).nServices = e.nServices := by simp [rebucket]

@[simp] theorem rebucket_nLastTry (c : Ctx) (K : Nat) (e : Entry) :
    (rebucket c K e).nLastTry = e.nLastTry := by simp [rebucket]

@[simp] theorem rebucket_nLastCountAttempt (c : Ctx) (K : Nat) (e : Entry) :
    (rebucket c K e).nLastCountAttempt = e.nLastCountAttempt := by simp [rebucket]

@[simp] theorem rebucket_nLastSuccess (c : Ctx) (K : Nat) (e : Entry) :
    (rebucket c K e).nLastSuccess = e.nLastSuccess := by simp [rebucket]

@[simp] theorem rebucket_nAttempts (c : Ctx) (K : Nat) (e : Entry) :
    (rebucket c K e).nAttempts = e.nAttempts := by simp [rebucket]

/-- The slot of a rebucketed entry depends only on the address, source
and table of the entry. -/
theorem slotOf_rebucket_congr (c : Ctx) (K : Nat) {e e' : Entry}
    (hs : e.svc = e'.svc) (hsrc : e.source = e'.source) (ht : e.fInTried = e'.fInTried) :
    slotOf (rebucket c K e) = slotOf (rebucket c K e') := by
  simp [slotOf, rebucket, hs, hsrc, ht]

/-- For an entry satisfying the rebucket fixpoint, the stored slot is
the computed one. -/
theorem slotOf_eq_of_fix (c : Ctx) (K : Nat) {e : Entry} (h : rebucket c K e = e)
    {e' : Entry} (hs : e'.svc = e.svc) (hsrc : e'.source = e.source)
    (ht : e'.fInTried = e.fInTried) :
    slotOf (rebucket c K e') = slotOf e := by
  rw [slotOf_rebucket_congr c K hs hsrc ht, h]

/-! ### `removeSwap` and `swapRandomV` are permutations -/

theorem replaceNat_append {l₁ : List Nat} {a : Nat} (h : a ∉ l₁) (l₂ : List Nat) (b : Nat) :
    replaceNat (l₁ ++ a :: l₂) a b = l₁ ++ b :: l₂ := by
  induction l₁ with
  | nil => simp [replaceNat]
  | cons x xs ih =>
    have hx : x ≠ a := fun hh => h (hh ▸ List.mem_cons_self x xs)
    have hxs : a ∉ xs := fun hh => h (List.mem_cons_of_mem x hh)
    simp [replaceNat, hx, ih hxs]

theorem removeSwap_perm {v : List Nat} {a : Nat} (h : a ∈ v) :
    (removeSwap v a).Perm (v.erase a) := by
  obtain ⟨l₁, l₂, hnot, hv, herase⟩ := List.exists_erase_eq h
  rw [removeSwap, if_pos h, herase, hv]
  rcases List.eq_nil_or_concat l₂ with h2 | ⟨l₃, b, rfl⟩
  · subst h2
    rw [List.getLastD_concat, replaceNat_append hnot, List.dropLast_concat]
    simp
  · simp only [List.concat_eq_append]
    have hlast : (l₁ ++ a :: (l₃ ++ [b])).getLastD 0 = b := by
      have : l₁ ++ a :: (l₃ ++ [b]) = (l₁ ++ a :: l₃) ++ [b] := by simp
      rw [this, List.getLastD_concat]
    rw [hlast, replaceNat_append hnot]
    have : l₁ ++ b :: (l₃ ++ [b]) = (l₁ ++ b :: l₃) ++ [b] := by simp
    rw [this, List.dropLast_concat]
    have hp : (b :: l₃).Perm (l₃ ++ [b]) := by
      have h3 := (@List.perm_middle ℕ b l₃ []).symm
      simpa using h3
    exact List.Perm.append_left l₁ hp

theorem removeSwap_not_mem {v : List Nat} {a : Nat} (h : a ∉ v) :
    removeSwap v a = v := by
  rw [removeSwap, if_neg h]

theorem swapRandomV_perm (v : List Nat) (i j : Nat) : (swapRandomV v i j).Perm v := by
  unfold swapRandomV
  by_cases hij : i = j
  · rw [if_pos hij]
  · rw [if_neg hij]
    cases hi : v.get? i with
    | none => exact List.Perm.refl v
    | some x =>
      cases hj : v.get? j with
      | none => exact List.Perm.refl v
      | some y =>
        have hi' : v[i]? = some x := by simpa using hi
        have hj' : v[j]? = some y := by simpa using hj
        obtain ⟨hilt, hiv⟩ := List.getElem?_eq_some_iff.mp hi'
        obtain ⟨hjlt, hjv⟩ := List.getElem?_eq_some_iff.mp hj'
        rw [List.perm_iff_count]
        intro b
        have hjlt2 : j < (v.set i y).length := by simpa using hjlt
        have hset : (v.set i y)[j] = v[j] := by
          rw [List.getElem_set_ne]
          omega
        rw [List.count_set x b (v.set i y) j hjlt2]
        · rw [List.count_set y b v i hilt]
          rw [hset, hiv, hjv]
          have hxmem : x ∈ v := hiv ▸ List.getElem_mem hilt
          have hymem : y ∈ v := hjv ▸ List.getElem_mem hjlt
          by_cases hxb : x = b <;> by_cases hyb : y = b
          · have hb : 1 ≤ List.count b v := List.one_le_count_iff.mpr (hxb ▸ hxmem)
            simp [hxb, hyb]
            omega
          · have hb : 1 ≤ List.count b v := List.one_le_count_iff.mpr (hxb ▸ hxmem)
            simp [hxb, hyb]
            omega
          · have hb : 1 ≤ List.count b v := List.one_le_count_iff.mpr (hyb ▸ hymem)
            simp [hxb, hyb]
          · simp [hxb, hyb]

/-! ### Consequences of the invariant and its transport along permutations -/

theorem slotU_nodup {st : AMState} (h : SlotU st) : st.entries.Nodup :=
  h.imp fun hne => fun heq => hne (heq ▸ rfl)

theorem slotU_ne {st : AMState} (h : SlotU st) {x y : Entry}
    (hx : x ∈ st.entries) (hy : y ∈ st.entries) (hne : x ≠ y) :
    slotOf x ≠ slotOf y :=
  List.Pairwise.forall (fun _ _ hr => hr.symm) h hx hy hne

theorem countA_two {x y : Entry} {l : List Entry} (hx : x ∈ l) (hy : y ∈ l)
    (hne : y ≠ x) (hsx : x.svc = a) (hsy : y.svc = a) : 2 ≤ countA l a := by
  have h1 : countA (l.erase x) a = countA l a - 1 := by
    rw [countA_erase hx, if_pos hsx]
  have hy2 : y ∈ l.erase x := (List.mem_erase_of_ne hne).mpr hy
  have h2 := countA_pos_of_mem hy2
  rw [hsy] at h2
  have h3 := countA_pos_of_mem hx
  rw [hsx] at h3
  omega

/-- A canonical entry's address is in the canonical-address list. -/
theorem mem_canonSvcs {e : Entry} {l : List Entry} (hm : e ∈ l) (ha : e.fAlias = false) :
    e.svc ∈ canonSvcs l := by
  unfold canonSvcs
  exact List.mem_map.mpr ⟨e, List.mem_filter.mpr ⟨hm, by simp [ha]⟩, rfl⟩

variable {b : Bool}

/-- Transport of the invariant along permutations of the container and
of `vRandom` (with equal keys, counters and collision set). -/
theorem inv_congr {c : Ctx} {st st' : AMState} (h : InvB b c st)
    (hk : st'.key = st.key) (he : st'.entries.Perm st.entries)
    (hv : st'.vRandom.Perm st.vRandom) (hn : st'.nNew = st.nNew)
    (ht : st'.nTried = st.nTried) (hcl : st'.collisions = st.collisions) :
    InvB b c st' := by
  constructor
  · exact (he.pairwise_iff fun hr => hr.symm).mpr h.slotU
  · intro e hm
    rw [hk]
    exact h.buckOk e (he.mem_iff.mp hm)
  · intro e hm
    exact h.aliasNew e (he.mem_iff.mp hm)
  · exact ((he.filter _).pairwise_iff fun hr => hr.symm).mpr h.canonU
  · intro e hm ha
    obtain ⟨cn, hcn, h1, h2, h3⟩ := h.aliasCanon e (he.mem_iff.mp hm) ha
    exact ⟨cn, he.mem_iff.mpr hcn, h1, h2, h3⟩
  · intro e hm hT
    rw [show countAddr st' e.svc = countAddr st e.svc from countA_perm he e.svc]
    exact h.triedSolo e (he.mem_iff.mp hm) hT
  · intro hb e hm
    rw [show countAddr st' e.svc = countAddr st e.svc from countA_perm he e.svc]
    exact h.refBound hb e (he.mem_iff.mp hm)
  · have h1 := h.countersOk
    exact ⟨by rw [hn, h1.1, newCnt_perm he], by rw [ht, h1.2, triedCnt_perm he]⟩
  · exact hv.trans (h.vRandOk.trans (canonSvcs_perm he.symm))
  · refine ⟨hcl ▸ h.collOk.1, ?_⟩
    intro cl hm
    obtain ⟨h1, e, hmem, h2⟩ := h.collOk.2 cl (hcl ▸ hm)
    exact ⟨h1, e, he.mem_iff.mpr hmem, h2⟩

/-- `rebucket` is a fixpoint after setting the alias flag on a
rebucketed entry. -/
theorem rebucket_fix {c : Ctx} {K : Nat} (info : Entry) (al : Bool) :
    rebucket c K { rebucket c K info with fAlias := al } =
      { rebucket c K info with fAlias := al } := by
  simp [rebucket]

/-- The slot of the entry inserted by `insertEntry`. -/
theorem insertEntry_slot (c : Ctx) (st : AMState) (info : Entry) (al : Bool) :
    slotOf { rebucket c st.key info with fAlias := al } = slotOf (rebucket c st.key info) := by
  simp [slotOf]

@[simp] theorem withAlias_svc (x : Entry) (b : Bool) :
    ({ x with fAlias := b } : Entry).svc = x.svc := rfl

@[simp] theorem withAlias_source (x : Entry) (b : Bool) :
    ({ x with fAlias := b } : Entry).source = x.source := rfl

@[simp] theorem withAlias_fInTried (x : Entry) (b : Bool) :
    ({ x with fAlias := b } : Entry).fInTried = x.fInTried := rfl

@[simp] theorem withAlias_fAlias (x : Entry) (b : Bool) :
    ({ x with fAlias := b } : Entry).fAlias = b := rfl

@[simp] theorem withAlias_slotOf (x : Entry) (b : Bool) :
    slotOf { x with fAlias := b } = slotOf x := rfl

theorem AMState.ext' {s t : AMState} (hk : s.key = t.key) (he : s.entries = t.entries)
    (hv : s.vRandom = t.vRandom) (hn : s.nNew = t.nNew) (ht : s.nTried = t.nTried)
    (hg : s.nLastGood = t.nLastGood) (hc : s.collisions = t.collisions) : s = t := by
  cases s; cases t; simp_all

/-- `insertEntry` as an explicit state. -/
theorem insertEntry_eq (c : Ctx) (st : AMState) (info : Entry) (al : Bool) :
    insertEntry c st info al =
      { key := st.key,
        entries := { rebucket c st.key info with fAlias := al } :: st.entries,
        vRandom := if al then st.vRandom else st.vRandom ++ [info.svc],
        nNew := st.nNew + (if !al && !info.fInTried then 1 else 0),
        nTried := st.nTried + (if !al && info.fInTried then 1 else 0),
        nLastGood := st.nLastGood,
        collisions := st.collisions } := by
  apply AMState.ext'
  · exact insertEntry_key c st info al
  · exact insertEntry_entries c st info al
  · exact insertEntry_vRandom c st info al
  · exact insertEntry_nNew c st info al
  · exact insertEntry_nTried c st info al
  · exact insertEntry_nLastGood c st info al
  · exact insertEntry_collisions c st info al

/-- `eraseRaw` as an explicit state. -/
theorem eraseRaw_eq (st : AMState) (x : Entry) :
    eraseRaw st x =
      { key := st.key,
        entries := st.entries.erase x,
        vRandom := st.vRandom,
        nNew := st.nNew + (if !x.fAlias && !x.fInTried then -1 else 0),
        nTried := st.nTried + (if !x.fAlias && x.fInTried then -1 else 0),
        nLastGood := st.nLastGood,
        collisions := st.collisions.erase (x.svc, x.fAlias) } := by
  apply AMState.ext'
  · exact eraseRaw_key st x
  · exact eraseRaw_entries st x
  · exact eraseRaw_vRandom st x
  · exact eraseRaw_nNew st x
  · exact eraseRaw_nTried st x
  · exact eraseRaw_nLastGood st x
  · exact eraseRaw_collisions st x

/-- `modifyE` as an explicit state. -/
theorem modifyE_eq (c : Ctx) (st : AMState) (e : Entry) (f : Entry → Entry) :
    (modifyE c st e f).1 =
      { key := st.key,
        entries := replaceFirst st.entries e (rebucket c st.key (f e)),
        vRandom := st.vRandom,
        nNew := st.nNew + (if !e.fAlias && !e.fInTried then -1 else 0) +
          (if !(rebucket c st.key (f e)).fAlias && !(rebucket c st.key (f e)).fInTried
            then 1 else 0),
        nTried := st.nTried + (if !e.fAlias && e.fInTried then -1 else 0) +
          (if !(rebucket c st.key (f e)).fAlias && (rebucket c st.key (f e)).fInTried
            then 1 else 0),
        nLastGood := st.nLastGood,
        collisions := st.collisions } := by
  apply AMState.ext'
  · exact modifyE_key c st e f
  · exact modifyE_entries c st e f
  · exact modifyE_vRandom c st e f
  · exact modifyE_nNew c st e f
  · exact modifyE_nTried c st e f
  · exact modifyE_nLastGood c st e f
  · exact modifyE_collisions c st e f

/-! ### `insertEntry` preserves the invariant -/

theorem insertEntry_inv_canon {c : Ctx} {st : AMState} {info : Entry}
    (hinv : InvB b c st)
    (hslot : ∀ x ∈ st.entries, slotOf x ≠ slotOf (rebucket c st.key info))
    (hcnt : countAddr st info.svc = 0) :
    InvB b c (insertEntry c st info false) := by
  have hnomem : ∀ x ∈ st.entries, x.svc ≠ info.svc := by
    intro x hx heq
    have h1 := countA_pos_of_mem hx
    rw [heq] at h1
    unfold countAddr at hcnt
    omega
  rw [insertEntry_eq]
  constructor
  case slotU =>
    unfold SlotU
    dsimp only
    rw [List.pairwise_cons]
    refine ⟨fun x hx hc => hslot x hx ?_, hinv.slotU⟩
    rw [insertEntry_slot] at hc
    exact hc.symm
  case buckOk =>
    intro e hm
    dsimp only at hm ⊢
    cases List.mem_cons.mp hm with
    | inl h1 => rw [h1]; exact rebucket_fix info false
    | inr h2 => exact hinv.buckOk e h2
  case aliasNew =>
    intro e hm ha
    dsimp only at hm
    cases List.mem_cons.mp hm with
    | inl h1 => rw [h1] at ha; simp at ha
    | inr h2 => exact hinv.aliasNew e h2 ha
  case canonU =>
    unfold CanonU
    dsimp only
    rw [List.filter_cons_of_pos (by simp)]
    rw [List.pairwise_cons]
    refine ⟨fun x hx => ?_, hinv.canonU⟩
    have hx2 := (List.mem_filter.mp hx).1
    dsimp only
    simp only [rebucket_svc]
    exact fun hc => hnomem x hx2 hc.symm
  case aliasCanon =>
    intro e hm ha
    dsimp only at hm ⊢
    cases List.mem_cons.mp hm with
    | inl h1 => rw [h1] at ha; simp at ha
    | inr h2 =>
      obtain ⟨cn, hcn, p1, p2, p3⟩ := hinv.aliasCanon e h2 ha
      exact ⟨cn, List.mem_cons_of_mem _ hcn, p1, p2, p3⟩
  case triedSolo =>
    intro e hm hT
    unfold countAddr
    dsimp only at hm ⊢
    rw [countA_cons]
    simp only [rebucket_svc]
    cases List.mem_cons.mp hm with
    | inl h1 =>
      rw [h1]
      have hc0 : countA st.entries info.svc = 0 := hcnt
      simp [hc0]
    | inr h2 =>
      have he1 := hinv.triedSolo e h2 hT
      unfold countAddr at he1
      rw [he1, if_neg fun hc => hnomem e h2 hc.symm]
  case refBound =>
    intro hb e hm
    unfold countAddr
    dsimp only at hm ⊢
    rw [countA_cons]
    simp only [rebucket_svc]
    cases List.mem_cons.mp hm with
    | inl h1 =>
      rw [h1]
      have hc0 : countA st.entries info.svc = 0 := hcnt
      simp [hc0, ADDRMAN_NEW_BUCKETS_PER_ADDRESS]
    | inr h2 =>
      have he1 := hinv.refBound hb e h2
      unfold countAddr at he1
      rw [if_neg fun hc => hnomem e h2 hc.symm]
      simpa using he1
  case countersOk =>
    obtain ⟨h1, h2⟩ := hinv.countersOk
    unfold CountersOk
    dsimp only
    constructor
    · rw [newCnt_cons, h1]
      by_cases ht : info.fInTried <;> simp [ht]
    · rw [triedCnt_cons, h2]
      by_cases ht : info.fInTried <;> simp [ht]
  case vRandOk =>
    unfold VRandOk
    dsimp only
    rw [if_neg (by simp), canonSvcs_cons, if_neg (by simp)]
    simp only [rebucket_svc]
    exact (List.perm_append_singleton info.svc st.vRandom).trans (hinv.vRandOk.cons info.svc)
  case collOk =>
    refine ⟨hinv.collOk.1, ?_⟩
    intro cl hm
    dsimp only at hm ⊢
    obtain ⟨p1, e, hmem, p2⟩ := hinv.collOk.2 cl hm
    exact ⟨p1, e, List.mem_cons_of_mem _ hmem, p2⟩

theorem insertEntry_inv_alias {c : Ctx} {st : AMState} {info : Entry}
    (hinv : InvB b c st)
    (hslot : ∀ x ∈ st.entries, slotOf x ≠ slotOf (rebucket c st.key info))
    (hcanon : ∃ cn ∈ st.entries, cn.fAlias = false ∧ cn.svc = info.svc ∧ cn.fInTried = false)
    (hcb : b = true → countAddr st info.svc ≤ 7)
    (hnew : info.fInTried = false) :
    InvB b c (insertEntry c st info true) := by
  obtain ⟨cn, hcnm, hcn1, hcn2, hcn3⟩ := hcanon
  rw [insertEntry_eq]
  constructor
  case slotU =>
    unfold SlotU
    dsimp only
    rw [List.pairwise_cons]
    refine ⟨fun x hx hc => hslot x hx ?_, hinv.slotU⟩
    rw [insertEntry_slot] at hc
    exact hc.symm
  case buckOk =>
    intro e hm
    dsimp only at hm ⊢
    cases List.mem_cons.mp hm with
    | inl h1 => rw [h1]; exact rebucket_fix info true
    | inr h2 => exact hinv.buckOk e h2
  case aliasNew =>
    intro e hm ha
    dsimp only at hm
    cases List.mem_cons.mp hm with
    | inl h1 => rw [h1]; simpa using hnew
    | inr h2 => exact hinv.aliasNew e h2 ha
  case canonU =>
    unfold CanonU
    dsimp only
    rw [List.filter_cons_of_neg (by simp)]
    exact hinv.canonU
  case aliasCanon =>
    intro e hm hal
    dsimp only at hm ⊢
    cases List.mem_cons.mp hm with
    | inl h1 =>
      refine ⟨cn, List.mem_cons_of_mem _ hcnm, by simp [hcn1], ?_, hcn3⟩
      rw [h1]
      simp [hcn2]
    | inr h2 =>
      obtain ⟨cn2, hcn2m, p1, p2, p3⟩ := hinv.aliasCanon e h2 hal
      exact ⟨cn2, List.mem_cons_of_mem _ hcn2m, p1, p2, p3⟩
  case triedSolo =>
    intro e hm hT
    unfold countAddr
    dsimp only at hm ⊢
    rw [countA_cons]
    simp only [withAlias_svc, rebucket_svc]
    cases List.mem_cons.mp hm with
    | inl h1 =>
      rw [h1] at hT
      simp only [withAlias_fInTried, rebucket_fInTried] at hT
      rw [hnew] at hT
      cases hT
    | inr h2 =>
      have he1 := hinv.triedSolo e h2 hT
      unfold countAddr at he1
      by_cases hc : info.svc = e.svc
      · exfalso
        have hne : cn ≠ e := by
          intro hq
          rw [hq] at hcn3
          rw [hcn3] at hT
          cases hT
        have h2c := countA_two h2 hcnm hne rfl (hc ▸ hcn2)
        omega
      · rw [he1, if_neg hc]
  case refBound =>
    intro hb e hm
    unfold countAddr
    dsimp only at hm ⊢
    rw [countA_cons]
    simp only [withAlias_svc, rebucket_svc]
    have hcb' : countA st.entries info.svc ≤ 7 := hcb hb
    cases List.mem_cons.mp hm with
    | inl h1 =>
      rw [h1]
      simp only [withAlias_svc, rebucket_svc, if_true]
      unfold ADDRMAN_NEW_BUCKETS_PER_ADDRESS
      omega
    | inr h2 =>
      have he1 : countA st.entries e.svc ≤ 8 := by
        have := hinv.refBound hb e h2
        unfold countAddr ADDRMAN_NEW_BUCKETS_PER_ADDRESS at this
        exact this
      unfold ADDRMAN_NEW_BUCKETS_PER_ADDRESS
      by_cases hc : info.svc = e.svc
      · rw [if_pos hc]
        rw [hc] at hcb'
        omega
      · rw [if_neg hc]
        omega
  case countersOk =>
    obtain ⟨h1, h2⟩ := hinv.countersOk
    unfold CountersOk
    dsimp only
    constructor
    · rw [newCnt_cons, h1]; simp
    · rw [triedCnt_cons, h2]; simp
  case vRandOk =>
    unfold VRandOk
    dsimp only
    rw [if_pos rfl, canonSvcs_cons, if_pos (by simp)]
    exact hinv.vRandOk
  case collOk =>
    refine ⟨hinv.collOk.1, ?_⟩
    intro cl hm
    dsimp only at hm ⊢
    obtain ⟨p1, e, hmem, p2⟩ := hinv.collOk.2 cl hm
    exact ⟨p1, e, List.mem_cons_of_mem _ hmem, p2⟩

/-! ### `eraseInner`: case equations and invariant preservation -/

theorem lenf_pos_of_mem {p : Entry → Bool} {x : Entry} {l : List Entry}
    (hm : x ∈ l) (hp : p x = true) : 0 < (l.filter p).length :=
  List.length_pos.mpr (List.ne_nil_of_mem (List.mem_filter.mpr ⟨hm, hp⟩))

theorem eraseInner_alias_eq (c : Ctx) (st : AMState) {e : Entry} (ha : e.fAlias = true) :
    eraseInner c st e = eraseRaw st e := by
  simp [eraseInner, ha]

theorem eraseInner_noalias_eq (c : Ctx) (st : AMState) {e : Entry} (ha : e.fAlias = false)
    (hal : findAlias st e.svc = none) :
    eraseInner c st e = eraseRaw { st with vRandom := removeSwap st.vRandom e.svc } e := by
  simp only [eraseInner, ha, Bool.not_false, if_true, hal]

theorem eraseInner_redirect_eq (c : Ctx) (st : AMState) {e al : Entry}
    (ha : e.fAlias = false) (hal : findAlias st e.svc = some al)
    (hno : (e.svc, true) ∉ st.collisions) :
    eraseInner c st e =
      eraseRaw (modifyE c st e fun i => { i with source := al.source }).1 al := by
  simp only [eraseInner, ha, Bool.not_false, if_true, hal, if_neg hno]

/-- Erasing an alias entry (the branch of `EraseInner` with
`nRandomPos == -1`, and also the final state of the alias-redirect
branch) preserves the invariant. -/
theorem inv_erase_alias {c : Ctx} {st : AMState} {al : Entry}
    (hinv : InvB b c st) (hm : al ∈ st.entries) (ha : al.fAlias = true) :
    InvB b c (eraseRaw st al) := by
  have hnd : st.entries.Nodup := slotU_nodup hinv.slotU
  rw [eraseRaw_eq]
  constructor
  case slotU =>
    unfold SlotU
    dsimp only
    exact hinv.slotU.sublist (List.erase_sublist al st.entries)
  case buckOk =>
    intro x hx
    exact hinv.buckOk x ((List.erase_sublist al st.entries).subset hx)
  case aliasNew =>
    intro x hx
    exact hinv.aliasNew x ((List.erase_sublist al st.entries).subset hx)
  case canonU =>
    unfold CanonU
    dsimp only
    exact hinv.canonU.sublist (List.Sublist.filter _ (List.erase_sublist al st.entries))
  case aliasCanon =>
    intro x hx hxa
    dsimp only at hx ⊢
    have hxl := (List.erase_sublist al st.entries).subset hx
    obtain ⟨cn, hcn, p1, p2, p3⟩ := hinv.aliasCanon x hxl hxa
    have hne : cn ≠ al := by
      intro hq
      rw [hq] at p1
      rw [ha] at p1
      cases p1
    exact ⟨cn, (List.mem_erase_of_ne hne).mpr hcn, p1, p2, p3⟩
  case triedSolo =>
    intro x hx hT
    unfold countAddr
    dsimp only at hx ⊢
    have hxl := (List.erase_sublist al st.entries).subset hx
    have hx1 := hinv.triedSolo x hxl hT
    unfold countAddr at hx1
    by_cases hc : al.svc = x.svc
    · exfalso
      have hxne : x ≠ al := (hnd.mem_erase_iff.mp hx).1
      have := countA_two hxl hm (fun hq => hxne hq.symm) rfl hc
      omega
    · rw [countA_erase hm, if_neg hc, hx1]
  case refBound =>
    intro hb x hx
    unfold countAddr
    dsimp only at hx ⊢
    have hxl := (List.erase_sublist al st.entries).subset hx
    have hx1 := hinv.refBound hb x hxl
    unfold countAddr ADDRMAN_NEW_BUCKETS_PER_ADDRESS at hx1
    unfold ADDRMAN_NEW_BUCKETS_PER_ADDRESS
    rw [countA_erase hm]
    by_cases hc : al.svc = x.svc <;> simp [hc] <;> omega
  case countersOk =>
    obtain ⟨h1, h2⟩ := hinv.countersOk
    unfold CountersOk
    dsimp only
    rw [newCnt_erase hm, triedCnt_erase hm, ha]
    simp [h1, h2]
  case vRandOk =>
    unfold VRandOk
    dsimp only
    exact hinv.vRandOk.trans (canonSvcs_erase_alias hm ha).symm
  case collOk =>
    obtain ⟨hnd2, hcoll⟩ := hinv.collOk
    refine ⟨hnd2.erase _, ?_⟩
    intro cl hcl
    dsimp only at hcl ⊢
    have hcl2 := (List.erase_sublist _ _).subset hcl
    obtain ⟨p1, x, hxm, q1, q2, q3⟩ := hcoll cl hcl2
    have hne : x ≠ al := by
      intro hq
      rw [hq, ha] at q1
      cases q1
    exact ⟨p1, x, (List.mem_erase_of_ne hne).mpr hxm, q1, q2, q3⟩

/-- Erasing a canonical entry that has no aliases (the `vRandom`
shrink branch of `EraseInner`) preserves the invariant. -/
theorem inv_erase_noalias {c : Ctx} {st : AMState} {e : Entry}
    (hinv : InvB b c st) (hm : e ∈ st.entries) (ha : e.fAlias = false)
    (hal : findAlias st e.svc = none) :
    InvB b c (eraseRaw { st with vRandom := removeSwap st.vRandom e.svc } e) := by
  have hnd : st.entries.Nodup := slotU_nodup hinv.slotU
  have hsvcmem : e.svc ∈ st.vRandom :=
    hinv.vRandOk.mem_iff.mpr (mem_canonSvcs hm ha)
  rw [eraseRaw_eq]
  constructor
  case slotU =>
    unfold SlotU
    dsimp only
    exact hinv.slotU.sublist (List.erase_sublist e st.entries)
  case buckOk =>
    intro x hx
    exact hinv.buckOk x ((List.erase_sublist e st.entries).subset hx)
  case aliasNew =>
    intro x hx
    exact hinv.aliasNew x ((List.erase_sublist e st.entries).subset hx)
  case canonU =>
    unfold CanonU
    dsimp only
    exact hinv.canonU.sublist (List.Sublist.filter _ (List.erase_sublist e st.entries))
  case aliasCanon =>
    intro x hx hxa
    dsimp only at hx ⊢
    have hxl := (List.erase_sublist e st.entries).subset hx
    obtain ⟨cn, hcn, p1, p2, p3⟩ := hinv.aliasCanon x hxl hxa
    have hne : cn ≠ e := by
      intro hq
      have hxsvc : x.svc = e.svc := by rw [← hq, p2]
      have hf := findAlias_none hal x hxl hxsvc
      rw [hxa] at hf
      cases hf
    exact ⟨cn, (List.mem_erase_of_ne hne).mpr hcn, p1, p2, p3⟩
  case triedSolo =>
    intro x hx hT
    unfold countAddr
    dsimp only at hx ⊢
    have hxl := (List.erase_sublist e st.entries).subset hx
    have hx1 := hinv.triedSolo x hxl hT
    unfold countAddr at hx1
    by_cases hc : e.svc = x.svc
    · exfalso
      have hxne : x ≠ e := (hnd.mem_erase_iff.mp hx).1
      have := countA_two hxl hm (fun hq => hxne hq.symm) rfl hc
      omega
    · rw [countA_erase hm, if_neg hc, hx1]
  case refBound =>
    intro hb x hx
    unfold countAddr
    dsimp only at hx ⊢
    have hxl := (List.erase_sublist e st.entries).subset hx
    have hx1 := hinv.refBound hb x hxl
    unfold countAddr ADDRMAN_NEW_BUCKETS_PER_ADDRESS at hx1
    unfold ADDRMAN_NEW_BUCKETS_PER_ADDRESS
    rw [countA_erase hm]
    by_cases hc : e.svc = x.svc <;> simp [hc] <;> omega
  case countersOk =>
    obtain ⟨h1, h2⟩ := hinv.countersOk
    unfold CountersOk
    dsimp only
    rw [newCnt_erase hm, triedCnt_erase hm, ha]
    by_cases ht : e.fInTried
    · have hpos : 0 < triedCnt st.entries :=
        lenf_pos_of_mem hm (by simp [ha, ht])
      rw [ht]
      simp only [Bool.not_true, Bool.not_false, Bool.true_and, Bool.false_and,
        Bool.and_true, Bool.and_false, if_true, if_false, Bool.false_eq_true,
        Nat.sub_zero]
      exact ⟨by omega, by omega⟩
    · have ht' : e.fInTried = false := by simpa using ht
      have hpos : 0 < newCnt st.entries :=
        lenf_pos_of_mem hm (by simp [ha, ht'])
      rw [ht']
      simp only [Bool.not_true, Bool.not_false, Bool.true_and, Bool.false_and,
        Bool.and_true, Bool.and_false, if_true, if_false, Bool.false_eq_true,
        Nat.sub_zero]
      exact ⟨by omega, by omega⟩
  case vRandOk =>
    unfold VRandOk
    dsimp only
    have h1 : (removeSwap st.vRandom e.svc).Perm (st.vRandom.erase e.svc) :=
      removeSwap_perm hsvcmem
    have h2 : (st.vRandom.erase e.svc).Perm ((canonSvcs st.entries).erase e.svc) :=
      hinv.vRandOk.erase e.svc
    have h3 := canonSvcs_erase_canon hm (by simp [ha])
    have h4 : ((canonSvcs st.entries).erase e.svc).Perm
        ((e.svc :: canonSvcs (st.entries.erase e)).erase e.svc) :=
      h3.erase e.svc
    rw [List.erase_cons_head] at h4
    exact (h1.trans h2).trans h4
  case collOk =>
    obtain ⟨hnd2, hcoll⟩ := hinv.collOk
    refine ⟨hnd2.erase _, ?_⟩
    intro cl hcl
    dsimp only at hcl ⊢
    obtain ⟨hclne, hcl2⟩ := hnd2.mem_erase_iff.mp hcl
    obtain ⟨p1, x, hxm, q1, q2, q3⟩ := hcoll cl hcl2
    have hne : x ≠ e := by
      intro hq
      apply hclne
      have : cl.1 = e.svc := by rw [← q3, hq]
      rw [ha]
      rw [Prod.ext_iff]
      exact ⟨this, p1⟩
    exact ⟨p1, x, (List.mem_erase_of_ne hne).mpr hxm, q1, q2, q3⟩

@[simp] theorem withSource_svc (x : Entry) (s : Nat) :
    ({ x with source := s } : Entry).svc = x.svc := rfl

@[simp] theorem withSource_source (x : Entry) (s : Nat) :
    ({ x with source := s } : Entry).source = s := rfl

@[simp] theorem withSource_fAlias (x : Entry) (s : Nat) :
    ({ x with source := s } : Entry).fAlias = x.fAlias := rfl

@[simp] theorem withSource_fInTried (x : Entry) (s : Nat) :
    ({ x with source := s } : Entry).fInTried = x.fInTried := rfl

theorem rebucket_idem (c : Ctx) (K : Nat) (x : Entry) :
    rebucket c K (rebucket c K x) = rebucket c K x := by
  simp [rebucket]

theorem canonU_ne {st : AMState} (h : CanonU st) {x y : Entry}
    (hx : x ∈ st.entries) (hy : y ∈ st.entries)
    (hax : x.fAlias = false) (hay : y.fAlias = false) (hne : x ≠ y) : x.svc ≠ y.svc := by
  have hx2 : x ∈ st.entries.filter fun e => !e.fAlias :=
    List.mem_filter.mpr ⟨hx, by simp [hax]⟩
  have hy2 : y ∈ st.entries.filter fun e => !e.fAlias :=
    List.mem_filter.mpr ⟨hy, by simp [hay]⟩
  exact List.Pairwise.forall (fun _ _ hr => hr.symm) h hx2 hy2 hne

/-- The alias-redirect branch of `EraseInner` as an explicit state:
the canonical entry keeps its statistics, takes over the alias's source
(and hence the alias's slot), and the alias disappears; `vRandom`, the
counters and the collision set are unchanged. -/
theorem eraseInner_redirect_state (c : Ctx) (st : AMState) {e al : Entry}
    (ha : e.fAlias = false) (hal : findAlias st e.svc = some al)
    (hno : (e.svc, true) ∉ st.collisions) :
    eraseInner c st e =
      { key := st.key,
        entries := (replaceFirst st.entries e
          (rebucket c st.key { e with source := al.source })).erase al,
        vRandom := st.vRandom, nNew := st.nNew, nTried := st.nTried,
        nLastGood := st.nLastGood, collisions := st.collisions } := by
  obtain ⟨hm2, hsvc2, hfa2⟩ := findAlias_some hal
  rw [eraseInner_redirect_eq c st ha hal hno, eraseRaw_eq, modifyE_eq]
  apply AMState.ext'
  · rfl
  · rfl
  · rfl
  · simp only [rebucket_fAlias, rebucket_fInTried, withSource_fAlias, withSource_fInTried,
      ha, hfa2]
    by_cases ht2 : e.fInTried <;> simp [ht2]
  · simp only [rebucket_fAlias, rebucket_fInTried, withSource_fAlias, withSource_fInTried,
      ha, hfa2]
    by_cases ht2 : e.fInTried <;> simp [ht2]
  · rfl
  · show st.collisions.erase (al.svc, al.fAlias) = st.collisions
    rw [hfa2, hsvc2]
    exact List.erase_of_not_mem hno

/-- Erasing a canonical entry that has an alias preserves the
invariant. -/
theorem inv_erase_redirect {c : Ctx} {st : AMState} {e al : Entry}
    (hinv : InvB b c st) (hm : e ∈ st.entries) (ha : e.fAlias = false)
    (hal : findAlias st e.svc = some al) :
    InvB b c (eraseInner c st e) := by
  obtain ⟨halm, hsvc2, hfa2⟩ := findAlias_some hal
  have hno : (e.svc, true) ∉ st.collisions := by
    intro hc
    have := (hinv.collOk.2 _ hc).1
    simp at this
  have hnd : st.entries.Nodup := slotU_nodup hinv.slotU
  have hne : e ≠ al := by
    intro hq
    rw [hq] at ha
    rw [ha] at hfa2
    cases hfa2
  have he_new : e.fInTried = false := by
    by_contra hb
    have hb' : e.fInTried = true := by simpa using hb
    have h1 := hinv.triedSolo e hm hb'
    unfold countAddr at h1
    have h2 := countA_two halm hm hne hsvc2 rfl
    omega
  have hal_new : al.fInTried = false := hinv.aliasNew al halm hfa2
  set E' : Entry := rebucket c st.key { e with source := al.source } with hE'
  have hslotE' : slotOf E' = slotOf al := by
    rw [hE']
    exact slotOf_eq_of_fix c st.key (hinv.buckOk al halm)
      (by simp [hsvc2]) (by simp) (by simp [he_new, hal_new])
  have halerase : al ∈ st.entries.erase e := (List.mem_erase_of_ne hne.symm).mpr halm
  have hEfa : E'.fAlias = false := by rw [hE']; simp [ha]
  have hEsvc : E'.svc = e.svc := by rw [hE']; simp
  have hEtried : E'.fInTried = false := by rw [hE']; simp [he_new]
  have hcnt2 : 2 ≤ countA st.entries e.svc := countA_two halm hm hne hsvc2 rfl
  -- the permuted shape
  have hperm : ((replaceFirst st.entries e E').erase al).Perm
      (E' :: (st.entries.erase e).erase al) := by
    have h1 := (replaceFirst_perm hm E').erase al
    have h2 : (E' :: st.entries.erase e).erase al = E' :: (st.entries.erase e).erase al := by
      apply List.erase_cons_tail
      intro hq
      have hq2 : E' = al := by simpa using hq
      rw [hq2, hfa2] at hEfa
      cases hEfa
    rw [h2] at h1
    exact h1
  set M : List Entry := (st.entries.erase e).erase al with hM
  have hMsub : M.Sublist st.entries :=
    (List.erase_sublist al (st.entries.erase e)).trans (List.erase_sublist e st.entries)
  have hMmem : ∀ x ∈ M, x ∈ st.entries ∧ x ≠ e ∧ x ≠ al := by
    intro x hx
    have h1 := (hnd.erase e).mem_erase_iff.mp hx
    have h2 := hnd.mem_erase_iff.mp h1.2
    exact ⟨h2.2, h2.1, h1.1⟩
  have hcntM : ∀ a, countA M a =
      countA st.entries a - (if e.svc = a then 1 else 0) - (if e.svc = a then 1 else 0) := by
    intro a
    rw [hM, countA_erase halerase, countA_erase hm, hsvc2]
  rw [eraseInner_redirect_state c st ha hal hno]
  have hgoal : InvB b c
      { key := st.key, entries := E' :: M, vRandom := st.vRandom,
        nNew := st.nNew, nTried := st.nTried, nLastGood := st.nLastGood,
        collisions := st.collisions } := by
    constructor
    case slotU =>
      unfold SlotU
      dsimp only
      rw [List.pairwise_cons]
      constructor
      · intro x hx
        rw [hslotE']
        exact slotU_ne hinv.slotU halm (hMmem x hx).1 (fun hq => (hMmem x hx).2.2 hq.symm)
      · exact hinv.slotU.sublist hMsub
    case buckOk =>
      intro x hx
      dsimp only at hx ⊢
      cases List.mem_cons.mp hx with
      | inl h1 => rw [h1, hE']; exact rebucket_idem c st.key _
      | inr h2 => exact hinv.buckOk x (hMsub.subset h2)
    case aliasNew =>
      intro x hx hxa
      dsimp only at hx
      cases List.mem_cons.mp hx with
      | inl h1 => rw [h1] at hxa; rw [hEfa] at hxa; cases hxa
      | inr h2 => exact hinv.aliasNew x (hMsub.subset h2) hxa
    case canonU =>
      unfold CanonU
      dsimp only
      rw [List.filter_cons_of_pos (by simp [hEfa])]
      rw [List.pairwise_cons]
      constructor
      · intro y hy
        have hy1 := List.mem_filter.mp hy
        have hy2 := hMmem y hy1.1
        rw [hEsvc]
        exact canonU_ne hinv.canonU hm hy2.1 ha (by simpa using hy1.2) (Ne.symm hy2.2.1)
      · exact hinv.canonU.sublist (hMsub.filter _)
    case aliasCanon =>
      intro x hx hxa
      dsimp only at hx ⊢
      cases List.mem_cons.mp hx with
      | inl h1 => rw [h1] at hxa; rw [hEfa] at hxa; cases hxa
      | inr h2 =>
        obtain ⟨cn, hcn, p1, p2, p3⟩ := hinv.aliasCanon x (hMsub.subset h2) hxa
        by_cases hq : cn = e
        · refine ⟨E', List.mem_cons_self _ _, by simp [hEfa], ?_, hEtried⟩
          rw [hEsvc, ← hq, p2]
        · have hcnal : cn ≠ al := by
            intro hz
            rw [hz, hfa2] at p1
            cases p1
          refine ⟨cn, List.mem_cons_of_mem _ ?_, p1, p2, p3⟩
          rw [hM]
          exact (List.mem_erase_of_ne hcnal).mpr ((List.mem_erase_of_ne hq).mpr hcn)
    case triedSolo =>
      intro x hx hT
      unfold countAddr
      dsimp only at hx ⊢
      rw [countA_cons, hEsvc]
      cases List.mem_cons.mp hx with
      | inl h1 =>
        rw [h1] at hT
        rw [hEtried] at hT
        cases hT
      | inr h2 =>
        obtain ⟨hxl, hxe, hxal⟩ := hMmem x h2
        have hx1 := hinv.triedSolo x hxl hT
        unfold countAddr at hx1
        have hc : e.svc ≠ x.svc := by
          intro hq
          have hen : e ≠ x := by
            intro hz
            rw [hz] at he_new
            rw [he_new] at hT
            cases hT
          have h2c := countA_two hxl hm hen rfl hq
          omega
        rw [hcntM, if_neg hc, hx1]
    case refBound =>
      intro hb x hx
      unfold countAddr
      dsimp only at hx ⊢
      rw [countA_cons, hEsvc, hcntM]
      have hre := hinv.refBound hb e hm
      unfold countAddr ADDRMAN_NEW_BUCKETS_PER_ADDRESS at hre
      unfold ADDRMAN_NEW_BUCKETS_PER_ADDRESS
      cases List.mem_cons.mp hx with
      | inl h1 =>
        rw [h1, hEsvc, if_pos rfl]
        omega
      | inr h2 =>
        have hxb := hinv.refBound hb x (hMsub.subset h2)
        unfold countAddr ADDRMAN_NEW_BUCKETS_PER_ADDRESS at hxb
        by_cases hq : e.svc = x.svc
        · rw [if_pos hq, hq] at *
          omega
        · rw [if_neg hq]
          omega
    case countersOk =>
      obtain ⟨h1, h2⟩ := hinv.countersOk
      have hpos : 0 < newCnt st.entries := lenf_pos_of_mem hm (by simp [ha, he_new])
      unfold CountersOk
      dsimp only
      rw [newCnt_cons, triedCnt_cons, hM, newCnt_erase halerase, newCnt_erase hm,
        triedCnt_erase halerase, triedCnt_erase hm, ha, hfa2, he_new, hEfa, hEtried]
      simp only [Bool.not_true, Bool.not_false, Bool.true_and, Bool.false_and,
        Bool.and_true, Bool.and_false, if_true, if_false, Bool.false_eq_true, Nat.sub_zero]
      exact ⟨by omega, by omega⟩
    case vRandOk =>
      unfold VRandOk
      dsimp only
      rw [canonSvcs_cons, if_neg (by simp [hEfa]), hEsvc]
      have p1 := hinv.vRandOk
      have p2 := canonSvcs_erase_canon hm (by simp [ha])
      have p3 := (canonSvcs_erase_alias halerase hfa2).symm
      exact (p1.trans p2).trans (p3.cons e.svc)
    case collOk =>
      refine ⟨hinv.collOk.1, ?_⟩
      intro cl hcl
      dsimp only at hcl ⊢
      obtain ⟨p1, x, hxm, q1, q2, q3⟩ := hinv.collOk.2 cl hcl
      by_cases hq : x = e
      · exact ⟨p1, E', List.mem_cons_self _ _, by simp [hEfa], hEtried,
          by rw [hEsvc, ← hq, q3]⟩
      · have hxal : x ≠ al := fun hz => by rw [hz, hfa2] at q1; cases q1
        refine ⟨p1, x, List.mem_cons_of_mem _ ?_, q1, q2, q3⟩
        rw [hM]
        exact (List.mem_erase_of_ne hxal).mpr ((List.mem_erase_of_ne hq).mpr hxm)
  exact inv_congr hgoal rfl hperm (List.Perm.refl _) rfl rfl rfl

/-- `EraseInner` preserves the invariant. -/
theorem eraseInner_inv {c : Ctx} {st : AMState} {e : Entry}
    (hinv : InvB b c st) (hm : e ∈ st.entries) : InvB b c (eraseInner c st e) := by
  by_cases ha : e.fAlias
  · rw [eraseInner_alias_eq c st ha]
    exact inv_erase_alias hinv hm ha
  · have ha' : e.fAlias = false := by simpa using ha
    cases hal : findAlias st e.svc with
    | some al => exact inv_erase_redirect hinv hm ha' hal
    | none =>
      rw [eraseInner_noalias_eq c st ha' hal]
      exact inv_erase_noalias hinv hm ha' hal

/-- The observable effect of `EraseInner` needed by its callers: the key
and `nLastGood` are unchanged, the reference count of the erased
address drops by one, the erased entry's slot becomes free, no new
slots appear, and entries of other addresses are untouched. -/
theorem eraseInner_facts {c : Ctx} {st : AMState} {e : Entry}
    (hinv : InvB b c st) (hm : e ∈ st.entries) :
    (eraseInner c st e).key = st.key ∧
    (eraseInner c st e).nLastGood = st.nLastGood ∧
    (∀ a, countAddr (eraseInner c st e) a = countAddr st a - (if e.svc = a then 1 else 0)) ∧
    (∀ x ∈ (eraseInner c st e).entries, slotOf x ≠ slotOf e) ∧
    (∀ x ∈ (eraseInner c st e).entries, ∃ y ∈ st.entries, slotOf x = slotOf y) ∧
    (∀ x ∈ st.entries, x.svc ≠ e.svc → x ∈ (eraseInner c st e).entries) ∧
    (∀ x ∈ (eraseInner c st e).entries, x.svc ≠ e.svc → x ∈ st.entries) := by
  have hnd : st.entries.Nodup := slotU_nodup hinv.slotU
  by_cases ha : e.fAlias
  · rw [eraseInner_alias_eq c st ha]
    rw [eraseRaw_eq]
    refine ⟨rfl, rfl, fun a => countA_erase hm a, ?_, ?_, ?_, ?_⟩ <;> dsimp only
    · intro x hx
      have h1 := hnd.mem_erase_iff.mp hx
      exact slotU_ne hinv.slotU h1.2 hm h1.1
    · intro x hx
      exact ⟨x, (List.erase_sublist e st.entries).subset hx, rfl⟩
    · intro x hx hne
      exact (List.mem_erase_of_ne (fun hq => hne (by rw [hq]))).mpr hx
    · intro x hx _
      exact (List.erase_sublist e st.entries).subset hx
  · have ha' : e.fAlias = false := by simpa using ha
    cases hal : findAlias st e.svc with
    | none =>
      rw [eraseInner_noalias_eq c st ha' hal]
      rw [eraseRaw_eq]
      refine ⟨rfl, rfl, fun a => countA_erase hm a, ?_, ?_, ?_, ?_⟩ <;> dsimp only
      · intro x hx
        have h1 := hnd.mem_erase_iff.mp hx
        exact slotU_ne hinv.slotU h1.2 hm h1.1
      · intro x hx
        exact ⟨x, (List.erase_sublist e st.entries).subset hx, rfl⟩
      · intro x hx hne
        exact (List.mem_erase_of_ne (fun hq => hne (by rw [hq]))).mpr hx
      · intro x hx _
        exact (List.erase_sublist e st.entries).subset hx
    | some al =>
      obtain ⟨halm, hsvc2, hfa2⟩ := findAlias_some hal
      have hno : (e.svc, true) ∉ st.collisions := by
        intro hc
        have := (hinv.collOk.2 _ hc).1
        simp at this
      have hne : e ≠ al := by
        intro hq
        rw [hq] at ha'
        rw [ha'] at hfa2
        cases hfa2
      have he_new : e.fInTried = false := by
        by_contra hb
        have hb' : e.fInTried = true := by simpa using hb
        have h1 := hinv.triedSolo e hm hb'
        unfold countAddr at h1
        have h2 := countA_two halm hm hne hsvc2 rfl
        omega
      have hal_new : al.fInTried = false := hinv.aliasNew al halm hfa2
      set E' : Entry := rebucket c st.key { e with source := al.source } with hE'
      have hslotE' : slotOf E' = slotOf al := by
        rw [hE']
        exact slotOf_eq_of_fix c st.key (hinv.buckOk al halm)
          (by simp [hsvc2]) (by simp) (by simp [he_new, hal_new])
      have halerase : al ∈ st.entries.erase e := (List.mem_erase_of_ne hne.symm).mpr halm
      have hEfa : E'.fAlias = false := by rw [hE']; simp [ha']
      have hEsvc : E'.svc = e.svc := by rw [hE']; simp
      have hcnt2 : 2 ≤ countA st.entries e.svc := countA_two halm hm hne hsvc2 rfl
      have hperm : ((replaceFirst st.entries e E').erase al).Perm
          (E' :: (st.entries.erase e).erase al) := by
        have h1 := (replaceFirst_perm hm E').erase al
        have h2 : (E' :: st.entries.erase e).erase al =
            E' :: (st.entries.erase e).erase al := by
          apply List.erase_cons_tail
          intro hq
          have hq2 : E' = al := by simpa using hq
          rw [hq2, hfa2] at hEfa
          cases hEfa
        rw [h2] at h1
        exact h1
      have hMmem : ∀ x ∈ (st.entries.erase e).erase al,
          x ∈ st.entries ∧ x ≠ e ∧ x ≠ al := by
        intro x hx
        have h1 := (hnd.erase e).mem_erase_iff.mp hx
        have h2 := hnd.mem_erase_iff.mp h1.2
        exact ⟨h2.2, h2.1, h1.1⟩
      rw [eraseInner_redirect_state c st ha' hal hno]
      refine ⟨rfl, rfl, ?_, ?_, ?_, ?_, ?_⟩ <;> dsimp only
      · intro a
        unfold countAddr
        dsimp only
        rw [countA_perm hperm a, countA_cons, hEsvc, countA_erase halerase,
          countA_erase hm, hsvc2]
        by_cases hq : e.svc = a
        · rw [if_pos hq]
          rw [hq] at hcnt2
          omega
        · rw [if_neg hq]
          omega
      · intro x hx
        rw [hperm.mem_iff] at hx
        cases List.mem_cons.mp hx with
        | inl h1 =>
          rw [h1, hslotE']
          exact slotU_ne hinv.slotU halm hm hne.symm
        | inr h2 =>
          obtain ⟨hxl, hxe, _⟩ := hMmem x h2
          exact slotU_ne hinv.slotU hxl hm hxe
      · intro x hx
        rw [hperm.mem_iff] at hx
        cases List.mem_cons.mp hx with
        | inl h1 => exact ⟨al, halm, h1 ▸ hslotE'⟩
        | inr h2 => exact ⟨x, (hMmem x h2).1, rfl⟩
      · intro x hx hxsvc
        rw [hperm.mem_iff]
        refine List.mem_cons_of_mem _ ?_
        have hx1 : x ≠ e := fun hq => hxsvc (hq ▸ rfl)
        have hx2 : x ≠ al := fun hq => hxsvc (by rw [hq, hsvc2])
        exact (List.mem_erase_of_ne hx2).mpr ((List.mem_erase_of_ne hx1).mpr hx)
      · intro x hx hxsvc
        rw [hperm.mem_iff] at hx
        cases List.mem_cons.mp hx with
        | inl h1 => exact absurd (h1 ▸ hEsvc) hxsvc
        | inr h2 => exact (hMmem x h2).1

theorem countA_le_length (l : List Entry) (a : Nat) : countA l a ≤ l.length := by
  unfold countA
  exact List.length_filter_le _ l

/-- The erase-everything loop: with enough fuel it reaches a state with
no entry for the address, preserving the invariant; entries of other
addresses, the key, `nLastGood` and the occupied slots of other
addresses are untouched. -/
theorem eraseAllAddr_spec {c : Ctx} :
    ∀ (fuel : Nat) (st : AMState) (a : Nat), InvB b c st → countAddr st a ≤ fuel →
    InvB b c (eraseAllAddr c fuel st a) ∧
    countAddr (eraseAllAddr c fuel st a) a = 0 ∧
    (eraseAllAddr c fuel st a).key = st.key ∧
    (eraseAllAddr c fuel st a).nLastGood = st.nLastGood ∧
    (∀ x ∈ st.entries, x.svc ≠ a → x ∈ (eraseAllAddr c fuel st a).entries) ∧
    (∀ x ∈ (eraseAllAddr c fuel st a).entries, x.svc ≠ a → x ∈ st.entries) ∧
    (∀ x ∈ (eraseAllAddr c fuel st a).entries, ∃ y ∈ st.entries, slotOf x = slotOf y) := by
  intro fuel
  induction fuel with
  | zero =>
    intro st a hinv hf
    cases hcan : findCanonical st a with
    | some x =>
      exfalso
      obtain ⟨hxm, hxs, _⟩ := findCanonical_some hcan
      have := countA_pos_of_mem hxm
      rw [hxs] at this
      unfold countAddr at hf
      omega
    | none =>
      cases hali : findAlias st a with
      | some x =>
        exfalso
        obtain ⟨hxm, hxs, _⟩ := findAlias_some hali
        have := countA_pos_of_mem hxm
        rw [hxs] at this
        unfold countAddr at hf
        omega
      | none =>
        have hnone : ∀ x ∈ st.entries, x.svc ≠ a := by
          intro x hx hq
          have h1 := findCanonical_none hcan x hx hq
          have h2 := findAlias_none hali x hx hq
          rw [h1] at h2
          cases h2
        have : countAddr st a = 0 := by
          unfold countAddr countA
          rw [List.length_eq_zero, List.filter_eq_nil_iff]
          intro x hx
          simpa using hnone x hx
        rw [show eraseAllAddr c 0 st a = st from by simp only [eraseAllAddr, hcan, hali]]
        exact ⟨hinv, this, rfl, rfl, fun x hx _ => hx, fun x hx _ => hx,
          fun x hx => ⟨x, hx, rfl⟩⟩
  | succ fuel ih =>
    intro st a hinv hf
    have hstep : ∀ e, e ∈ st.entries → e.svc = a →
        eraseAllAddr c (fuel + 1) st a = eraseAllAddr c fuel (eraseInner c st e) a →
        InvB b c (eraseAllAddr c (fuel + 1) st a) ∧
        countAddr (eraseAllAddr c (fuel + 1) st a) a = 0 ∧
        (eraseAllAddr c (fuel + 1) st a).key = st.key ∧
        (eraseAllAddr c (fuel + 1) st a).nLastGood = st.nLastGood ∧
        (∀ x ∈ st.entries, x.svc ≠ a → x ∈ (eraseAllAddr c (fuel + 1) st a).entries) ∧
        (∀ x ∈ (eraseAllAddr c (fuel + 1) st a).entries, x.svc ≠ a → x ∈ st.entries) ∧
        (∀ x ∈ (eraseAllAddr c (fuel + 1) st a).entries,
          ∃ y ∈ st.entries, slotOf x = slotOf y) := by
      intro e hm hsvc heq
      obtain ⟨f1, f2, f3, f4, f5, f6, f7⟩ := eraseInner_facts hinv hm
      have hinv1 : InvB b c (eraseInner c st e) := eraseInner_inv hinv hm
      have hcnt1 : countAddr (eraseInner c st e) a ≤ fuel := by
        have := f3 a
        rw [if_pos hsvc] at this
        have hpos : 0 < countAddr st a := by
          have := countA_pos_of_mem hm
          rw [hsvc] at this
          exact this
        unfold countAddr at *
        omega
      obtain ⟨g1, g2, g3, g4, g5, g6, g7⟩ := ih (eraseInner c st e) a hinv1 hcnt1
      rw [heq]
      refine ⟨g1, g2, by rw [g3, f1], by rw [g4, f2], ?_, ?_, ?_⟩
      · intro x hx hxs
        exact g5 x (f6 x hx (fun hq => hxs (hq.trans hsvc))) hxs
      · intro x hx hxs
        exact f7 x (g6 x hx hxs) (fun hq => hxs (hq.trans hsvc))
      · intro x hx
        obtain ⟨y, hy, hxy⟩ := g7 x hx
        obtain ⟨z, hz, hyz⟩ := f5 y hy
        exact ⟨z, hz, hxy.trans hyz⟩
    cases hcan : findCanonical st a with
    | some e =>
      obtain ⟨hm, hsvc, _⟩ := findCanonical_some hcan
      exact hstep e hm hsvc (by simp only [eraseAllAddr, hcan])
    | none =>
      cases hali : findAlias st a with
      | some e =>
        obtain ⟨hm, hsvc, _⟩ := findAlias_some hali
        exact hstep e hm hsvc (by simp only [eraseAllAddr, hcan, hali])
      | none =>
        have hnone : ∀ x ∈ st.entries, x.svc ≠ a := by
          intro x hx hq
          have h1 := findCanonical_none hcan x hx hq
          have h2 := findAlias_none hali x hx hq
          rw [h1] at h2
          cases h2
        have hz : countAddr st a = 0 := by
          unfold countAddr countA
          rw [List.length_eq_zero, List.filter_eq_nil_iff]
          intro x hx
          simpa using hnone x hx
        rw [show eraseAllAddr c (fuel + 1) st a = st from by
          simp only [eraseAllAddr, hcan, hali]]
        exact ⟨hinv, hz, rfl, rfl, fun x hx _ => hx, fun x hx _ => hx,
          fun x hx => ⟨x, hx, rfl⟩⟩

/-! ### `Modify` with a statistics-only function preserves the invariant -/

theorem modifyE_inv {c : Ctx} {st : AMState} {e : Entry} {f : Entry → Entry}
    (hinv : InvB b c st) (hm : e ∈ st.entries)
    (hsvc : (f e).svc = e.svc) (hsrc : (f e).source = e.source)
    (ht : (f e).fInTried = e.fInTried) (hfa : (f e).fAlias = e.fAlias) :
    InvB b c (modifyE c st e f).1 := by
  have hnd : st.entries.Nodup := slotU_nodup hinv.slotU
  set e' : Entry := rebucket c st.key (f e) with hE
  have hslotE : slotOf e' = slotOf e := by
    rw [hE]
    exact slotOf_eq_of_fix c st.key (hinv.buckOk e hm) hsvc hsrc ht
  have hEsvc : e'.svc = e.svc := by rw [hE]; simp [hsvc]
  have hEfa : e'.fAlias = e.fAlias := by rw [hE]; simp [hfa]
  have hEtried : e'.fInTried = e.fInTried := by rw [hE]; simp [ht]
  have hperm : (replaceFirst st.entries e e').Perm (e' :: st.entries.erase e) :=
    replaceFirst_perm hm e'
  have hcnt : ∀ a, countA (e' :: st.entries.erase e) a = countA st.entries a := by
    intro a
    rw [countA_cons, countA_erase hm, hEsvc]
    have := countA_pos_of_mem hm
    by_cases hq : e.svc = a
    · rw [if_pos hq]
      rw [hq] at this
      omega
    · rw [if_neg hq]
      omega
  rw [modifyE_eq]
  have hgoal : InvB b c
      { key := st.key, entries := e' :: st.entries.erase e, vRandom := st.vRandom,
        nNew := st.nNew + (if !e.fAlias && !e.fInTried then -1 else 0) +
          (if !(rebucket c st.key (f e)).fAlias && !(rebucket c st.key (f e)).fInTried
            then 1 else 0),
        nTried := st.nTried + (if !e.fAlias && e.fInTried then -1 else 0) +
          (if !(rebucket c st.key (f e)).fAlias && (rebucket c st.key (f e)).fInTried
            then 1 else 0),
        nLastGood := st.nLastGood, collisions := st.collisions } := by
    constructor
    case slotU =>
      unfold SlotU
      dsimp only
      rw [List.pairwise_cons]
      constructor
      · intro x hx
        rw [hslotE]
        have h1 := hnd.mem_erase_iff.mp hx
        exact (slotU_ne hinv.slotU h1.2 hm h1.1).symm
      · exact hinv.slotU.sublist (List.erase_sublist e st.entries)
    case buckOk =>
      intro x hx
      dsimp only at hx ⊢
      cases List.mem_cons.mp hx with
      | inl h1 => rw [h1, hE]; exact rebucket_idem c st.key _
      | inr h2 => exact hinv.buckOk x ((List.erase_sublist e st.entries).subset h2)
    case aliasNew =>
      intro x hx hxa
      dsimp only at hx
      cases List.mem_cons.mp hx with
      | inl h1 =>
        rw [h1, hEtried]
        rw [h1, hEfa] at hxa
        exact hinv.aliasNew e hm hxa
      | inr h2 => exact hinv.aliasNew x ((List.erase_sublist e st.entries).subset h2) hxa
    case canonU =>
      unfold CanonU
      dsimp only
      by_cases ha : e.fAlias
      · rw [List.filter_cons_of_neg (by simp [hEfa, ha])]
        exact hinv.canonU.sublist ((List.erase_sublist e st.entries).filter _)
      · have ha' : e.fAlias = false := by simpa using ha
        rw [List.filter_cons_of_pos (by simp [hEfa, ha'])]
        rw [List.pairwise_cons]
        constructor
        · intro y hy
          have hy1 := List.mem_filter.mp hy
          have hy2 := hnd.mem_erase_iff.mp hy1.1
          rw [hEsvc]
          exact canonU_ne hinv.canonU hm hy2.2 ha' (by simpa using hy1.2) (Ne.symm hy2.1)
        · exact hinv.canonU.sublist ((List.erase_sublist e st.entries).filter _)
    case aliasCanon =>
      intro x hx hxa
      dsimp only at hx ⊢
      cases List.mem_cons.mp hx with
      | inl h1 =>
        have hea : e.fAlias = true := by rw [← hEfa, ← h1]; exact hxa
        obtain ⟨cn, hcn, p1, p2, p3⟩ := hinv.aliasCanon e hm hea
        have hcne : cn ≠ e := by
          intro hq
          rw [hq, hea] at p1
          cases p1
        refine ⟨cn, List.mem_cons_of_mem _ ((List.mem_erase_of_ne hcne).mpr hcn), p1, ?_, p3⟩
        rw [p2, h1, hEsvc]
      | inr h2 =>
        have hxl := (List.erase_sublist e st.entries).subset h2
        obtain ⟨cn, hcn, p1, p2, p3⟩ := hinv.aliasCanon x hxl hxa
        by_cases hq : cn = e
        · refine ⟨e', List.mem_cons_self _ _, by simp [hEfa, ← hq, p1], ?_, ?_⟩
          · rw [hEsvc, ← hq, p2]
          · rw [hEtried, ← hq, p3]
        · exact ⟨cn, List.mem_cons_of_mem _ ((List.mem_erase_of_ne hq).mpr hcn), p1, p2, p3⟩
    case triedSolo =>
      intro x hx hT
      unfold countAddr
      dsimp only at hx ⊢
      rw [hcnt]
      cases List.mem_cons.mp hx with
      | inl h1 =>
        have hT2 : e.fInTried = true := by rw [← hEtried, ← h1]; exact hT
        have := hinv.triedSolo e hm hT2
        unfold countAddr at this
        rw [h1, hEsvc]
        exact this
      | inr h2 =>
        have := hinv.triedSolo x ((List.erase_sublist e st.entries).subset h2) hT
        unfold countAddr at this
        exact this
    case refBound =>
      intro hb x hx
      unfold countAddr
      dsimp only at hx ⊢
      rw [hcnt]
      cases List.mem_cons.mp hx with
      | inl h1 =>
        have := hinv.refBound hb e hm
        unfold countAddr at this
        rw [h1, hEsvc]
        exact this
      | inr h2 =>
        have := hinv.refBound hb x ((List.erase_sublist e st.entries).subset h2)
        unfold countAddr at this
        exact this
    case countersOk =>
      obtain ⟨h1, h2⟩ := hinv.countersOk
      unfold CountersOk
      dsimp only
      rw [newCnt_cons, triedCnt_cons, newCnt_erase hm, triedCnt_erase hm]
      rw [← hE, hEfa, hEtried]
      constructor
      · by_cases hb : (!e.fAlias && !e.fInTried) = true
        · have hpos : 0 < newCnt st.entries := lenf_pos_of_mem hm hb
          simp only [if_pos hb]
          omega
        · simp only [if_neg hb]
          omega
      · by_cases hb : (!e.fAlias && e.fInTried) = true
        · have hpos : 0 < triedCnt st.entries := lenf_pos_of_mem hm hb
          simp only [if_pos hb]
          omega
        · simp only [if_neg hb]
          omega
    case vRandOk =>
      unfold VRandOk
      dsimp only
      rw [canonSvcs_cons]
      by_cases ha : e.fAlias
      · rw [if_pos (by simpa [hEfa] using ha)]
        exact hinv.vRandOk.trans (canonSvcs_erase_alias hm (by simpa using ha)).symm
      · have ha' : e.fAlias = false := by simpa using ha
        rw [if_neg (by simp [hEfa, ha']), hEsvc]
        exact hinv.vRandOk.trans (canonSvcs_erase_canon hm (by simp [ha']))
    case collOk =>
      refine ⟨hinv.collOk.1, ?_⟩
      intro cl hcl
      dsimp only at hcl ⊢
      obtain ⟨p1, x, hxm, q1, q2, q3⟩ := hinv.collOk.2 cl hcl
      by_cases hq : x = e
      · refine ⟨p1, e', List.mem_cons_self _ _, ?_, ?_, ?_⟩
        · rw [hEfa, ← hq]
          exact q1
        · rw [hEtried, ← hq]
          exact q2
        · rw [hEsvc, ← hq]
          exact q3
      · exact ⟨p1, x, List.mem_cons_of_mem _ ((List.mem_erase_of_ne hq).mpr hxm), q1, q2, q3⟩
  refine inv_congr hgoal rfl ?_ (List.Perm.refl _) rfl rfl rfl
  exact hperm

/-! ### Small state-update invariance lemmas -/

theorem inv_lastGood {c : Ctx} {st : AMState} (hinv : InvB b c st) (t : Int) :
    InvB b c { st with nLastGood := t } := by
  obtain ⟨s1, s2, s3, s4, s5, s6, s7, s8, s9, s10⟩ := hinv
  exact ⟨s1, s2, s3, s4, s5, s6, s7, s8, s9, s10⟩

theorem inv_coll_insert {c : Ctx} {st : AMState} {a : Nat} (hinv : InvB b c st)
    (hex : ∃ e ∈ st.entries, e.fAlias = false ∧ e.fInTried = false ∧ e.svc = a) :
    InvB b c { st with collisions := insertColl st.collisions (a, false) } := by
  obtain ⟨s1, s2, s3, s4, s5, s6, s7, s8, s9, s10⟩ := hinv
  refine ⟨s1, s2, s3, s4, s5, s6, s7, s8, s9, ?_⟩
  unfold insertColl
  by_cases hmem : (a, false) ∈ st.collisions
  · rw [if_pos hmem]
    exact s10
  · rw [if_neg hmem]
    constructor
    · dsimp only
      rw [List.nodup_append]
      exact ⟨s10.1, List.nodup_singleton _, by simpa using hmem⟩
    · intro cl hcl
      dsimp only at hcl
      rw [List.mem_append] at hcl
      cases hcl with
      | inl h1 =>
        obtain ⟨p1, x, hxm, q1, q2, q3⟩ := s10.2 cl h1
        exact ⟨p1, x, hxm, q1, q2, q3⟩
      | inr h2 =>
        rw [List.mem_singleton] at h2
        obtain ⟨e, hem, q1, q2, q3⟩ := hex
        rw [h2]
        exact ⟨rfl, e, hem, by simp [q1], q2, q3⟩

theorem inv_coll_erase {c : Ctx} {st : AMState} (hinv : InvB b c st) (cl : Nat × Bool) :
    InvB b c { st with collisions := st.collisions.erase cl } := by
  obtain ⟨s1, s2, s3, s4, s5, s6, s7, s8, s9, s10⟩ := hinv
  refine ⟨s1, s2, s3, s4, s5, s6, s7, s8, s9, ?_⟩
  refine ⟨s10.1.erase cl, ?_⟩
  intro x hx
  exact s10.2 x ((List.erase_sublist cl st.collisions).subset hx)

/-- The modified entry is a member of the container after `Modify`. -/
theorem modifyE_mem {c : Ctx} {st : AMState} {e : Entry} (f : Entry → Entry)
    (hm : e ∈ st.entries) :
    (modifyE c st e f).2 ∈ (modifyE c st e f).1.entries := by
  rw [modifyE_eq]
  dsimp only
  rw [modifyE_snd]
  exact (replaceFirst_perm hm _).mem_iff.mpr (List.mem_cons_self _ _)

/-- `Modify` with an address-preserving function keeps all reference
counts. -/
theorem modifyE_count {c : Ctx} {st : AMState} {e : Entry} {f : Entry → Entry}
    (hm : e ∈ st.entries) (hsvc : (f e).svc = e.svc) :
    ∀ a, countAddr (modifyE c st e f).1 a = countAddr st a := by
  intro a
  unfold countAddr
  rw [modifyE_eq]
  dsimp only
  rw [countA_perm (replaceFirst_perm hm _) a, countA_cons]
  rw [countA_erase hm]
  have hEsvc : (rebucket c st.key (f e)).svc = e.svc := by simp [hsvc]
  rw [hEsvc]
  have hpos := countA_pos_of_mem hm
  by_cases hq : e.svc = a
  · rw [if_pos hq]
    rw [hq] at hpos
    omega
  · rw [if_neg hq]
    omega

/-- If an address has no canonical entry, it has no entries at all. -/
theorem count0_of_no_canonical {c : Ctx} {st : AMState} {a : Nat} (hinv : InvB b c st)
    (hc : findCanonical st a = none) : countAddr st a = 0 := by
  unfold countAddr countA
  rw [List.length_eq_zero, List.filter_eq_nil_iff]
  intro x hx hxa
  rw [beq_iff_eq] at hxa
  have h1 := findCanonical_none hc x hx hxa
  obtain ⟨cn, hcn, p1, p2, p3⟩ := hinv.aliasCanon x hx h1
  have h2 := findCanonical_none hc cn hcn (p2.trans hxa)
  rw [h2] at p1
  cases p1

/-! ### `AddSingle` preserves the invariant -/

theorem addFinish_inv {c : Ctx} {st : AMState} {info : Entry} {al : Bool} {now : Int}
    (hinv : InvB b c st) (hnew : info.fInTried = false)
    (halias : al = true → (b = true → countAddr st info.svc ≤ 7) ∧
      ∃ cn ∈ st.entries, cn.fAlias = false ∧ cn.svc = info.svc ∧ cn.fInTried = false)
    (hcanon : al = false → countAddr st info.svc = 0) :
    InvB b c (addFinish c st info al now).2 := by
  unfold addFinish
  dsimp only
  have hslot_eq : slotOf (rebucket c st.key info) =
      (false, (rebucket c st.key info).mBucket, (rebucket c st.key info).mBucketpos) := by
    unfold slotOf
    rw [rebucket_fInTried, hnew]
  cases hfs : findSlot st (false, (rebucket c st.key info).mBucket,
      (rebucket c st.key info).mBucketpos) with
  | none =>
    dsimp only
    have hslot : ∀ x ∈ st.entries,
        slotOf x ≠ slotOf (rebucket c st.key (rebucket c st.key info)) := by
      intro x hx
      rw [rebucket_idem, hslot_eq]
      exact findSlot_none hfs x hx
    cases al with
    | false =>
      refine insertEntry_inv_canon hinv hslot ?_
      rw [rebucket_svc]
      exact hcanon rfl
    | true =>
      obtain ⟨hb, hcn⟩ := halias rfl
      refine insertEntry_inv_alias hinv hslot ?_ ?_ ?_
      · rw [rebucket_svc]
        exact hcn
      · rw [rebucket_svc]
        exact hb
      · rw [rebucket_fInTried]
        exact hnew
  | some ex =>
    obtain ⟨hexm, hexs⟩ := findSlot_some hfs
    dsimp only
    simp only [rebucket_svc]
    by_cases hsvc : ex.svc ≠ info.svc
    · rw [if_pos hsvc]
      by_cases hev : isTerrible ex now = true ∨ (!al) = true ∧ countAddr st ex.svc > 1
      · rw [if_pos hev]
        dsimp only
        obtain ⟨f1, f2, f3, f4, f5, f6, f7⟩ := eraseInner_facts hinv hexm
        have hinv1 := eraseInner_inv hinv hexm
        have hcount1 : countAddr (eraseInner c st ex) info.svc = countAddr st info.svc := by
          rw [f3 info.svc, if_neg hsvc]
          omega
        have hslot : ∀ x ∈ (eraseInner c st ex).entries,
            slotOf x ≠ slotOf (rebucket c (eraseInner c st ex).key (rebucket c st.key info)) := by
          intro x hx
          rw [f1, rebucket_idem, hslot_eq, ← hexs]
          exact f4 x hx
        cases al with
        | false =>
          refine insertEntry_inv_canon hinv1 hslot ?_
          rw [rebucket_svc, hcount1]
          exact hcanon rfl
        | true =>
          obtain ⟨hb, cn, hcnm, q1, q2, q3⟩ := halias rfl
          refine insertEntry_inv_alias hinv1 hslot ?_ ?_ ?_
          · rw [rebucket_svc]
            refine ⟨cn, f6 cn hcnm ?_, q1, q2, q3⟩
            rw [q2]
            exact fun hq => hsvc hq.symm
          · rw [rebucket_svc, hcount1]
            exact hb
          · rw [rebucket_fInTried]
            exact hnew
      · rw [if_neg hev]
        exact hinv
    · rw [if_neg hsvc]
      exact hinv

/-! ### `MakeTried` preserves the invariant -/

@[simp] theorem withTried_svc (x : Entry) (b : Bool) :
    ({ x with fInTried := b } : Entry).svc = x.svc := rfl

@[simp] theorem withTried_source (x : Entry) (b : Bool) :
    ({ x with fInTried := b } : Entry).source = x.source := rfl

@[simp] theorem withTried_fAlias (x : Entry) (b : Bool) :
    ({ x with fInTried := b } : Entry).fAlias = x.fAlias := rfl

@[simp] theorem withTried_fInTried (x : Entry) (b : Bool) :
    ({ x with fInTried := b } : Entry).fInTried = b := rfl

theorem countAddr_def (st : AMState) (a : Nat) :
    countAddr st a = countA st.entries a := rfl

theorem findCanonical_none_of_count0 {st : AMState} {a : Nat}
    (h : countAddr st a = 0) : findCanonical st a = none := by
  cases hq : findCanonical st a with
  | none => rfl
  | some cn =>
    obtain ⟨hmem, hsvc, _⟩ := findCanonical_some hq
    have hpos := countA_pos_of_mem hmem
    rw [hsvc] at hpos
    rw [countAddr_def] at h
    omega

theorem makeTried_inv {c : Ctx} {st : AMState} {e : Entry}
    (hinv : InvB b c st) (hm : e ∈ st.entries) : InvB b c (makeTried c st e) := by
  unfold makeTried
  dsimp only
  obtain ⟨k1, g1, cnt1, fr1, sub1, keep1, keep1x⟩ := eraseInner_facts hinv hm
  have hinv1 := eraseInner_inv hinv hm
  set st1 := eraseInner c st e with hst1
  have hfuel : countAddr st1 e.svc ≤ st1.entries.length + 1 := by
    rw [countAddr_def]
    exact le_trans (countA_le_length _ _) (Nat.le_succ _)
  obtain ⟨hinv2, hcnt2, hk2, hg2, hkeep2, hkeep2x, hsub2⟩ :=
    eraseAllAddr_spec (st1.entries.length + 1) st1 e.svc hinv1 hfuel
  set st2 := eraseAllAddr c (st1.entries.length + 1) st1 e.svc with hst2
  set J : Entry := rebucket c st2.key { e with fInTried := true } with hJ
  have hJsvc : J.svc = e.svc := by rw [hJ]; simp
  have hJtried : J.fInTried = true := by rw [hJ]; simp
  have hJslot : slotOf J = (true, J.mBucket, J.mBucketpos) := by
    unfold slotOf
    rw [hJtried]
  cases hfs : findSlot st2 (true, J.mBucket, J.mBucketpos) with
  | none =>
    dsimp only
    refine insertEntry_inv_canon hinv2 ?_ ?_
    · intro x hx
      rw [hJ, rebucket_idem, ← hJ, hJslot]
      exact findSlot_none hfs x hx
    · rw [hJsvc]
      exact hcnt2
  | some victim =>
    dsimp only
    obtain ⟨hvm, hvslot⟩ := findSlot_some hfs
    have hvt : victim.fInTried = true := by
      have h1 := congrArg Prod.fst hvslot
      simpa [slotOf] using h1
    have hvsvc : victim.svc ≠ e.svc := by
      intro hq
      have hpos := countA_pos_of_mem hvm
      rw [hq, ← countAddr_def, hcnt2] at hpos
      omega
    obtain ⟨k3, g3, cnt3, fr3, sub3, keep3, keep3x⟩ := eraseInner_facts hinv2 hvm
    have hinv3 := eraseInner_inv hinv2 hvm
    set st3 := eraseInner c st2 victim with hst3
    have hsolo : countAddr st2 victim.svc = 1 := hinv2.triedSolo victim hvm hvt
    have hcnt3v : countAddr st3 victim.svc = 0 := by
      rw [cnt3 victim.svc, if_pos rfl, hsolo]
    have hcnt3e : countAddr st3 e.svc = 0 := by
      rw [cnt3 e.svc, hcnt2, if_neg hvsvc]
    set K : Entry := rebucket c st3.key { victim with fInTried := false } with hK
    have hKsvc : K.svc = victim.svc := by rw [hK]; simp
    have hKtried : K.fInTried = false := by rw [hK]; simp
    have hKslot : slotOf K = (false, K.mBucket, K.mBucketpos) := by
      unfold slotOf
      rw [hKtried]
    have hKfix3 : rebucket c st3.key K = K := by
      rw [hK, rebucket_idem]
    cases hocc : findSlot st3 (false, K.mBucket, K.mBucketpos) with
    | some occ =>
      dsimp only
      obtain ⟨hom, hoslot⟩ := findSlot_some hocc
      have hoccv : occ.svc ≠ victim.svc := by
        intro hq
        have hpos := countA_pos_of_mem hom
        rw [hq, ← countAddr_def, hcnt3v] at hpos
        omega
      have hocce : occ.svc ≠ e.svc := by
        intro hq
        have hpos := countA_pos_of_mem hom
        rw [hq, ← countAddr_def, hcnt3e] at hpos
        omega
      obtain ⟨k4, g4, cnt4, fr4, sub4, keep4, keep4x⟩ := eraseInner_facts hinv3 hom
      have hinv4 := eraseInner_inv hinv3 hom
      set st4 := eraseInner c st3 occ with hst4
      have hcnt4v : countAddr st4 victim.svc = 0 := by
        rw [cnt4 victim.svc, hcnt3v, if_neg hoccv]
      have hcnt4e : countAddr st4 e.svc = 0 := by
        rw [cnt4 e.svc, hcnt3e, if_neg hocce]
      have hal : findCanonical st4 K.svc = none := by
        refine findCanonical_none_of_count0 ?_
        rw [hKsvc]
        exact hcnt4v
      rw [hal]
      have hiso : (none : Option Entry).isSome = false := rfl
      rw [hiso]
      have hKfix4 : rebucket c st4.key K = K := by
        rw [k4, hKfix3]
      have hinv5 : InvB b c (insertEntry c st4 K false) := by
        refine insertEntry_inv_canon hinv4 ?_ ?_
        · intro x hx
          rw [hKfix4, hKslot, ← hoslot]
          exact fr4 x hx
        · rw [hKsvc]
          exact hcnt4v
      refine insertEntry_inv_canon hinv5 ?_ ?_
      · intro x hx
        have hk5 : (insertEntry c st4 K false).key = st4.key := insertEntry_key c st4 K false
        have hJfix : rebucket c (insertEntry c st4 K false).key J = J := by
          rw [hk5, k4, k3, hJ, rebucket_idem]
        rw [hJfix, hJslot]
        rw [insertEntry_entries] at hx
        cases List.mem_cons.mp hx with
        | inl h1 =>
          rw [h1, insertEntry_slot, hKfix4, hKslot]
          intro heq
          simp at heq
        | inr h2 =>
          obtain ⟨y, hy3, hxy⟩ := sub4 x h2
          rw [hxy, ← hvslot]
          exact fr3 y hy3
      · rw [hJsvc, countAddr_def, insertEntry_entries, countA_cons]
        have hhead : ({ rebucket c st4.key K with fAlias := false } : Entry).svc = victim.svc := by
          rw [withAlias_svc, rebucket_svc]
          exact hKsvc
        rw [hhead, if_neg hvsvc]
        have h4 := hcnt4e
        rw [countAddr_def] at h4
        omega
    | none =>
      dsimp only
      have hal : findCanonical st3 K.svc = none := by
        refine findCanonical_none_of_count0 ?_
        rw [hKsvc]
        exact hcnt3v
      rw [hal]
      have hiso : (none : Option Entry).isSome = false := rfl
      rw [hiso]
      have hinv5 : InvB b c (insertEntry c st3 K false) := by
        refine insertEntry_inv_canon hinv3 ?_ ?_
        · intro x hx
          rw [hKfix3, hKslot]
          exact findSlot_none hocc x hx
        · rw [hKsvc]
          exact hcnt3v
      refine insertEntry_inv_canon hinv5 ?_ ?_
      · intro x hx
        have hk5 : (insertEntry c st3 K false).key = st3.key := insertEntry_key c st3 K false
        have hJfix : rebucket c (insertEntry c st3 K false).key J = J := by
          rw [hk5, k3, hJ, rebucket_idem]
        rw [hJfix, hJslot]
        rw [insertEntry_entries] at hx
        cases List.mem_cons.mp hx with
        | inl h1 =>
          rw [h1, insertEntry_slot, hKfix3, hKslot]
          intro heq
          simp at heq
        | inr h2 =>
          rw [← hvslot]
          exact fr3 x h2
      · rw [hJsvc, countAddr_def, insertEntry_entries, countA_cons]
        have hhead : ({ rebucket c st3.key K with fAlias := false } : Entry).svc = victim.svc := by
          rw [withAlias_svc, hKfix3, hKsvc]
        rw [hhead, if_neg hvsvc]
        have h3 := hcnt3e
        rw [countAddr_def] at h3
        omega

/-! ### The remaining operations preserve the invariant -/

theorem good_inv {c : Ctx} {st : AMState} {a : Nat} {tbe : Bool} {nTime : Int}
    (hinv : InvB b c st) : InvB b c (good_ c st a tbe nTime).2 := by
  unfold good_
  dsimp only
  have hinv0 : InvB b c { st with nLastGood := nTime } := inv_lastGood hinv nTime
  cases hfc : findCanonical { st with nLastGood := nTime } a with
  | none => exact hinv0
  | some it =>
    dsimp only
    obtain ⟨hitm, hitsvc, hitca⟩ := findCanonical_some hfc
    have hinv1 := modifyE_inv (f := fun i =>
      { i with nLastSuccess := nTime, nLastTry := nTime, nAttempts := 0 })
      hinv0 hitm rfl rfl rfl rfl
    have hitm1 := modifyE_mem (c := c) (fun i =>
      { i with nLastSuccess := nTime, nLastTry := nTime, nAttempts := 0 }) hitm
    by_cases htr : (modifyE c { st with nLastGood := nTime } it fun i =>
        { i with nLastSuccess := nTime, nLastTry := nTime, nAttempts := 0 }).2.fInTried = true
    · rw [if_pos htr]
      exact hinv1
    · rw [if_neg htr]
      cases hfsl : findSlot (modifyE c { st with nLastGood := nTime } it fun i =>
          { i with nLastSuccess := nTime, nLastTry := nTime, nAttempts := 0 }).1
          (true,
           getTriedBucket c (modifyE c { st with nLastGood := nTime } it fun i =>
             { i with nLastSuccess := nTime, nLastTry := nTime, nAttempts := 0 }).1.key a,
           getBucketPosition c (modifyE c { st with nLastGood := nTime } it fun i =>
             { i with nLastSuccess := nTime, nLastTry := nTime, nAttempts := 0 }).1.key false
             (getTriedBucket c (modifyE c { st with nLastGood := nTime } it fun i =>
               { i with nLastSuccess := nTime, nLastTry := nTime, nAttempts := 0 }).1.key a) a) with
    | some w =>
      dsimp only
      cases tbe with
      | true =>
        rw [if_pos rfl]
        dsimp only
        by_cases hlen : (modifyE c { st with nLastGood := nTime } it fun i =>
            { i with nLastSuccess := nTime, nLastTry := nTime, nAttempts := 0 }).1.collisions.length <
            ADDRMAN_SET_TRIED_COLLISION_SIZE
        · rw [if_pos hlen]
          refine inv_coll_insert hinv1 ?_
          refine ⟨(modifyE c { st with nLastGood := nTime } it fun i =>
            { i with nLastSuccess := nTime, nLastTry := nTime, nAttempts := 0 }).2, hitm1, ?_, ?_, ?_⟩
          · rw [modifyE_snd, rebucket_fAlias]
            exact hitca
          · simpa using htr
          · rw [modifyE_snd, rebucket_svc]
            exact hitsvc
        · rw [if_neg hlen]
          exact hinv1
      | false =>
        rw [if_neg Bool.false_ne_true]
        exact makeTried_inv hinv1 hitm1
    | none =>
      dsimp only
      exact makeTried_inv hinv1 hitm1

theorem attempt_inv {c : Ctx} {st : AMState} {a : Nat} {cf : Bool} {nTime : Int}
    (hinv : InvB b c st) : InvB b c (attempt_ c st a cf nTime) := by
  unfold attempt_
  cases hfc : findCanonical st a with
  | none => exact hinv
  | some it =>
    dsimp only
    obtain ⟨hitm, _, _⟩ := findCanonical_some hfc
    refine modifyE_inv hinv hitm ?_ ?_ ?_ ?_ <;>
      (dsimp only; split <;> rfl)

theorem connected_inv {c : Ctx} {st : AMState} {a : Nat} {nTime : Int}
    (hinv : InvB b c st) : InvB b c (connected_ c st a nTime) := by
  unfold connected_
  cases hfc : findCanonical st a with
  | none => exact hinv
  | some it =>
    dsimp only
    obtain ⟨hitm, _, _⟩ := findCanonical_some hfc
    by_cases hq : nTime - (it.nTime : Int) > 20 * 60
    · rw [if_pos hq]
      exact modifyE_inv hinv hitm rfl rfl rfl rfl
    · rw [if_neg hq]
      exact hinv

theorem setServices_inv {c : Ctx} {st : AMState} {a s : Nat}
    (hinv : InvB b c st) : InvB b c (setServices_ c st a s) := by
  unfold setServices_
  cases hfc : findCanonical st a with
  | none => exact hinv
  | some it =>
    dsimp only
    obtain ⟨hitm, _, _⟩ := findCanonical_some hfc
    exact modifyE_inv hinv hitm rfl rfl rfl rfl

theorem resolveStep_inv {c : Ctx} {st : AMState} {now : Int} {cl : Nat × Bool}
    (hinv : InvB b c st) : InvB b c (resolveStep c st now cl) := by
  unfold resolveStep
  by_cases hmem : cl ∉ st.collisions
  · rw [if_pos hmem]
    exact hinv
  · rw [if_neg hmem]
    cases hfc : findCanonical st cl.1 with
    | none => exact hinv
    | some infoNew =>
      dsimp only
      cases hfsl : findSlot st (true, getTriedBucket c st.key infoNew.svc,
          getBucketPosition c st.key false (getTriedBucket c st.key infoNew.svc) infoNew.svc) with
      | some infoOld =>
        dsimp only
        by_cases h1 : now - infoOld.nLastSuccess < ADDRMAN_REPLACEMENT_HOURS * (60 * 60)
        · rw [if_pos h1]
          exact inv_coll_erase hinv cl
        · rw [if_neg h1]
          by_cases h2 : now - infoOld.nLastTry < ADDRMAN_REPLACEMENT_HOURS * (60 * 60)
          · rw [if_pos h2]
            by_cases h3 : now - infoOld.nLastTry > 60
            · rw [if_pos h3]
              exact inv_coll_erase (good_inv hinv) cl
            · rw [if_neg h3]
              exact hinv
          · rw [if_neg h2]
            by_cases h4 : now - infoNew.nLastSuccess > ADDRMAN_TEST_WINDOW
            · rw [if_pos h4]
              exact inv_coll_erase (good_inv hinv) cl
            · rw [if_neg h4]
              exact hinv
      | none =>
        dsimp only
        exact inv_coll_erase (good_inv hinv) cl

theorem resolveFold_inv {c : Ctx} {now : Int} :
    ∀ (l : List (Nat × Bool)) (st : AMState), InvB b c st →
    InvB b c (l.foldl (fun s cl => resolveStep c s now cl) st)
  | [], _, hinv => hinv
  | cl :: rest, st, hinv =>
    resolveFold_inv rest (resolveStep c st now cl) (resolveStep_inv hinv)

theorem resolveCollisions_inv {c : Ctx} {st : AMState} {now : Int}
    (hinv : InvB b c st) : InvB b c (resolveCollisions_ c st now) :=
  resolveFold_inv st.collisions st hinv

theorem getAddrGo_inv {c : Ctx} {now : Int} {network : Option Nat} {nNodes : Nat}
    {rng : Nat → Nat} :
    ∀ (fuel n : Nat) (st : AMState) (acc : List CAddr), InvB b c st →
    InvB b c (getAddrGo c now network nNodes rng fuel n st acc).2 := by
  intro fuel
  induction fuel with
  | zero => intro n st acc hinv; exact hinv
  | succ f ih =>
    intro n st acc hinv
    unfold getAddrGo
    dsimp only
    by_cases h1 : n < st.vRandom.length
    · rw [if_pos h1]
      by_cases h2 : nNodes ≤ acc.length
      · rw [if_pos h2]
        exact hinv
      · rw [if_neg h2]
        refine ih (n + 1) _ _ ?_
        exact inv_congr hinv rfl (List.Perm.refl _)
          (swapRandomV_perm st.vRandom n (n + rng n % (st.vRandom.length - n))) rfl rfl rfl
    · rw [if_neg h1]
      exact hinv

theorem getAddr_inv {c : Ctx} {st : AMState} {maxA maxP : Nat} {network : Option Nat}
    {now : Int} {rng : Nat → Nat} (hinv : InvB b c st) :
    InvB b c (getAddr_ c st maxA maxP network now rng).2 := by
  unfold getAddr_
  exact getAddrGo_inv _ _ _ _ hinv

@[simp] theorem mkInfo_svc (a : CAddr) (src : Nat) : (mkInfo a src).svc = a.svc := rfl

theorem addSingle_inv {c : Ctx} {st : AMState} {a : CAddr} {src : Nat} {pen now : Int}
    {rnd : Nat} (hinv : InvB b c st) : InvB b c (addSingle c st a src pen now rnd).2 := by
  unfold addSingle
  dsimp only
  split
  · exact hinv
  split
  next it hfc =>
    obtain ⟨hitm, hitsvc, hitca⟩ := findCanonical_some hfc
    set X : AMState × Entry := (if a.time ≠ 0 ∧ (it.nTime = 0 ∨ (it.nTime : Int) < (a.time : Int) -
        (if now - (a.time : Int) < 24 * 60 * 60 then (60 * 60 : Int) else 24 * 60 * 60) -
        (if c.sameAddr a.svc src then (0 : Int) else pen))
      then modifyE c st it fun i => { i with nTime := toU32 (max 0 ((a.time : Int) -
        (if c.sameAddr a.svc src then (0 : Int) else pen))) }
      else (st, it)) with hXdef
    have hX1 : InvB b c X.1 ∧ X.2 ∈ X.1.entries ∧ X.2.svc = a.svc ∧ X.2.fAlias = false := by
      rw [hXdef]
      by_cases hq : a.time ≠ 0 ∧ (it.nTime = 0 ∨ (it.nTime : Int) < (a.time : Int) -
          (if now - (a.time : Int) < 24 * 60 * 60 then (60 * 60 : Int) else 24 * 60 * 60) -
          (if c.sameAddr a.svc src then (0 : Int) else pen))
      · rw [if_pos hq]
        exact ⟨modifyE_inv hinv hitm rfl rfl rfl rfl, modifyE_mem (c := c) _ hitm,
          by rw [modifyE_snd, rebucket_svc]; exact hitsvc,
          by rw [modifyE_snd, rebucket_fAlias]; exact hitca⟩
      · rw [if_neg hq]
        exact ⟨hinv, hitm, hitsvc, hitca⟩
    obtain ⟨hinv1, hm1, hsvc1, hfa1⟩ := hX1
    have hinv2 : InvB b c (modifyE c X.1 X.2 fun i =>
        { i with nServices := i.nServices ||| a.services }).1 :=
      modifyE_inv hinv1 hm1 rfl rfl rfl rfl
    have hm2 := modifyE_mem (c := c) (fun i =>
      { i with nServices := i.nServices ||| a.services }) hm1
    have hsvc2 : (modifyE c X.1 X.2 fun i =>
        { i with nServices := i.nServices ||| a.services }).2.svc = a.svc := by
      rw [modifyE_snd, rebucket_svc]
      exact hsvc1
    have hfa2 : (modifyE c X.1 X.2 fun i =>
        { i with nServices := i.nServices ||| a.services }).2.fAlias = false := by
      rw [modifyE_snd, rebucket_fAlias]
      exact hfa1
    split
    · exact hinv2
    split
    · exact hinv2
    next htr2 =>
      split
      · exact hinv2
      next h8 =>
        split
        · exact hinv2
        next hrnd =>
          refine addFinish_inv hinv2 rfl ?_ ?_
          · intro _
            refine ⟨?_, _, hm2, hfa2, by rw [mkInfo_svc]; exact hsvc2, by simpa using htr2⟩
            intro hb
            have hle := hinv2.refBound hb _ hm2
            rw [hsvc2] at hle
            have hle' : countAddr (modifyE c X.1 X.2 fun i =>
                { i with nServices := i.nServices ||| a.services }).1 a.svc ≤ 8 := by
              simpa [ADDRMAN_NEW_BUCKETS_PER_ADDRESS] using hle
            have h8' : countAddr (modifyE c X.1 X.2 fun i =>
                { i with nServices := i.nServices ||| a.services }).1 a.svc ≠ 8 := by
              simpa [ADDRMAN_NEW_BUCKETS_PER_ADDRESS] using h8
            rw [mkInfo_svc]
            omega
          · intro h
            exact nomatch h
  next hfc =>
    refine addFinish_inv hinv rfl ?_ ?_
    · intro h
      exact nomatch h
    · intro _
      exact count0_of_no_canonical hinv hfc

theorem addLoop_inv {c : Ctx} {src : Nat} {pen now : Int} {rng : Nat → Nat} :
    ∀ (l : List CAddr) (st : AMState) (i : Nat), InvB b c st →
    InvB b c (addLoop c src pen now rng st l i).2
  | [], _, _, hinv => hinv
  | a :: rest, st, i, hinv => by
    unfold addLoop
    dsimp only
    exact addLoop_inv rest _ (i + 1) (addSingle_inv hinv)

theorem add_inv {c : Ctx} {st : AMState} {addrs : List CAddr} {src : Nat}
    {pen now : Int} {rng : Nat → Nat} (hinv : InvB b c st) :
    InvB b c (add_ c st addrs src pen now rng).2 := by
  unfold add_
  dsimp only
  exact addLoop_inv addrs st 0 hinv

/-! ### The invariant holds in every reachable state -/

theorem inv_empty (c : Ctx) (key : Nat) : InvB b c (AMState.empty key) := by
  constructor
  · exact List.Pairwise.nil
  · intro e hm
    cases hm
  · intro e hm
    cases hm
  · exact List.Pairwise.nil
  · intro e hm
    cases hm
  · intro e hm
    cases hm
  · intro hb e hm
    cases hm
  · exact ⟨rfl, rfl⟩
  · exact List.Perm.refl []
  · exact ⟨List.nodup_nil, fun cl hcl => absurd hcl (List.not_mem_nil cl)⟩

theorem stepM_inv {c : Ctx} {st st' : AMState} (hinv : InvB b c st)
    (hs : StepM c st st') : InvB b c st' := by
  cases hs with
  | add addrs src pen now rng => exact add_inv hinv
  | good a now => exact good_inv hinv
  | attempt a cf now => exact attempt_inv hinv
  | connected a now => exact connected_inv hinv
  | setServices a sv => exact setServices_inv hinv
  | resolve now => exact resolveCollisions_inv hinv
  | select newOnly now fuel rng => exact hinv
  | getAddr maxA maxPct nw now rng => exact getAddr_inv hinv

theorem reach_inv {c : Ctx} {key : Nat} {st : AMState} (h : Reach c key st) :
    InvB b c st := by
  induction h with
  | refl => exact inv_empty c key
  | tail _ hstep ih => exact stepM_inv ih hstep

/-! ### Lookup-miss behaviour of the four per-address operations -/

theorem good_miss_eq {c : Ctx} {st : AMState} {a : Nat} {tbe : Bool} {t : Int}
    (h : findCanonical st a = none) :
    good_ c st a tbe t = (false, { st with nLastGood := t }) := by
  unfold good_
  dsimp only
  rw [show findCanonical { st with nLastGood := t } a = findCanonical st a from rfl, h]

theorem attempt_miss_eq {c : Ctx} {st : AMState} {a : Nat} {cf : Bool} {t : Int}
    (h : findCanonical st a = none) : attempt_ c st a cf t = st := by
  unfold attempt_
  rw [h]

theorem connected_miss_eq {c : Ctx} {st : AMState} {a : Nat} {t : Int}
    (h : findCanonical st a = none) : connected_ c st a t = st := by
  unfold connected_
  rw [h]

theorem setServices_miss_eq {c : Ctx} {st : AMState} {a s : Nat}
    (h : findCanonical st a = none) : setServices_ c st a s = st := by
  unfold setServices_
  rw [h]

/-- The recent-try exemption of `IsTerrible` requires a nonzero
`nLastTry`. -/
theorem isTerrible_recent {e : Entry} {now : Int}
    (h0 : e.nLastTry ≠ 0) (h60 : e.nLastTry ≥ now - 60) :
    isTerrible e now = false := by
  unfold isTerrible
  rw [if_pos ⟨h0, h60⟩]

/-- The `GetAddr_` loop never returns more than `nNodes` addresses. -/
theorem getAddrGo_length {c : Ctx} {now : Int} {network : Option Nat} {nNodes : Nat}
    {rng : Nat → Nat} :
    ∀ (fuel n : Nat) (st : AMState) (acc : List CAddr), acc.length ≤ nNodes →
    (getAddrGo c now network nNodes rng fuel n st acc).1.length ≤ nNodes := by
  intro fuel
  induction fuel with
  | zero =>
    intro n st acc hacc
    unfold getAddrGo
    simpa using hacc
  | succ f ih =>
    intro n st acc hacc
    unfold getAddrGo
    dsimp only
    by_cases h1 : n < st.vRandom.length
    · rw [if_pos h1]
      by_cases h2 : nNodes ≤ acc.length
      · rw [if_pos h2]
        simpa using hacc
      · rw [if_neg h2]
        refine ih (n + 1) _ _ ?_
        split
        · omega
        next ai _ =>
          split
          · omega
          split
          · omega
          · simp only [List.length_cons]
            omega
    · rw [if_neg h1]
      simpa using hacc

/-- `GetAddr_` returns at most the limit the source computes: the whole
vector when both arguments are zero, otherwise cut by `max_pct` percent
and by `max_addresses` only when they are nonzero. -/
theorem getAddr_length {c : Ctx} {st : AMState} {maxA maxP : Nat}
    {network : Option Nat} {now : Int} {rng : Nat → Nat} :
    (getAddr_ c st maxA maxP network now rng).1.length ≤
      (fun n1 => if maxA ≠ 0 then min n1 maxA else n1)
        (if maxP ≠ 0 then maxP * st.vRandom.length / 100 else st.vRandom.length) := by
  unfold getAddr_
  exact getAddrGo_length st.vRandom.length 0 st [] (Nat.zero_le _)

/-- The alias-redirect branch of `EraseInner`: the canonical entry
survives with all statistics intact and the erased alias's source, and
the address loses exactly one reference. -/
theorem eraseInner_redirect_facts {c : Ctx} {st : AMState} {e al : Entry}
    (hinv : InvB b c st) (hm : e ∈ st.entries) (ha : e.fAlias = false)
    (hal : findAlias st e.svc = some al) :
    ∃ e' ∈ (eraseInner c st e).entries,
      e'.fAlias = false ∧ e'.fInTried = e.fInTried ∧ e'.svc = e.svc ∧
      e'.source = al.source ∧
      e'.nTime = e.nTime ∧ e'.nServices = e.nServices ∧ e'.nLastTry = e.nLastTry ∧
      e'.nLastCountAttempt = e.nLastCountAttempt ∧ e'.nLastSuccess = e.nLastSuccess ∧
      e'.nAttempts = e.nAttempts ∧
      countAddr (eraseInner c st e) e.svc + 1 = countAddr st e.svc := by
  obtain ⟨halm, hsvc2, hfa2⟩ := findAlias_some hal
  have hno : (e.svc, true) ∉ st.collisions := by
    intro hc
    have := (hinv.collOk.2 _ hc).1
    simp at this
  have hne : e ≠ al := by
    intro hq
    rw [hq] at ha
    rw [ha] at hfa2
    cases hfa2
  have hcnt2 : 2 ≤ countA st.entries e.svc := countA_two halm hm hne hsvc2 rfl
  obtain ⟨_, _, f3, _, _, _, _⟩ := eraseInner_facts hinv hm
  set E' : Entry := rebucket c st.key { e with source := al.source } with hE'
  have hEfa : E'.fAlias = false := by rw [hE']; simp [ha]
  have hmem : E' ∈ (eraseInner c st e).entries := by
    rw [eraseInner_redirect_state c st ha hal hno]
    dsimp only
    have h1 := (replaceFirst_perm hm E').erase al
    have h2 : (E' :: st.entries.erase e).erase al = E' :: (st.entries.erase e).erase al := by
      apply List.erase_cons_tail
      intro hq
      have hq2 : E' = al := by simpa using hq
      rw [hq2, hfa2] at hEfa
      cases hEfa
    rw [h2] at h1
    exact h1.mem_iff.mpr (List.mem_cons_self _ _)
  refine ⟨E', hmem, hEfa, by rw [hE']; simp, by rw [hE']; simp, by rw [hE']; simp,
    by rw [hE']; simp, by rw [hE']; simp, by rw [hE']; simp, by rw [hE']; simp,
    by rw [hE']; simp, by rw [hE']; simp, ?_⟩
  have h3 := f3 e.svc
  rw [if_pos rfl] at h3
  rw [← countAddr_def] at hcnt2
  omega

/-! ### Slot uniqueness out of a passed consistency check -/

theorem insertOrd_perm {A : Type _} (le : A → A → Bool) (a : A) :
    ∀ l : List A, (insertOrd le a l).Perm (a :: l)
  | [] => List.Perm.refl _
  | b :: l => by
    unfold insertOrd
    by_cases h : le a b = true
    · rw [if_pos h]
    · rw [if_neg h]
      exact ((insertOrd_perm le a l).cons b).trans (List.Perm.swap a b l)

theorem isort_perm {A : Type _} (le : A → A → Bool) :
    ∀ l : List A, (isort le l).Perm l
  | [] => List.Perm.refl _
  | a :: l => (insertOrd_perm le a (isort le l)).trans ((isort_perm le l).cons a)

theorem pairwise_insertOrd {A : Type _} {le : A → A → Bool}
    (htrans : ∀ a b d, le a b = true → le b d = true → le a d = true)
    (htot : ∀ a b, (le a b || le b a) = true) (a : A) :
    ∀ l : List A, l.Pairwise (fun x y => le x y = true) →
      (insertOrd le a l).Pairwise fun x y => le x y = true
  | [], _ => by simp [insertOrd]
  | b :: l, hl => by
    unfold insertOrd
    rw [List.pairwise_cons] at hl
    by_cases h : le a b = true
    · rw [if_pos h]
      refine List.pairwise_cons.mpr ⟨?_, List.pairwise_cons.mpr hl⟩
      intro x hx
      rcases List.mem_cons.mp hx with rfl | hx
      · exact h
      · exact htrans a b x h (hl.1 x hx)
    · rw [if_neg h]
      have hba : le b a = true := by
        have h2 := htot a b
        rw [Bool.or_eq_true] at h2
        rcases h2 with h1 | h1
        · exact absurd h1 h
        · exact h1
      refine List.pairwise_cons.mpr ⟨?_, pairwise_insertOrd htrans htot a l hl.2⟩
      intro x hx
      rcases List.mem_cons.mp ((insertOrd_perm le a l).subset hx) with rfl | hx
      · exact hba
      · exact hl.1 x hx

theorem pairwise_isort {A : Type _} {le : A → A → Bool}
    (htrans : ∀ a b d, le a b = true → le b d = true → le a d = true)
    (htot : ∀ a b, (le a b || le b a) = true) :
    ∀ l : List A, (isort le l).Pairwise fun x y => le x y = true
  | [] => List.Pairwise.nil
  | a :: l => pairwise_insertOrd htrans htot a _ (pairwise_isort htrans htot l)

theorem bucketLe_trans (a b d : Entry) (h1 : bucketLe a b = true)
    (h2 : bucketLe b d = true) : bucketLe a d = true := by
  unfold bucketLe at h1 h2 ⊢
  cases ha : a.fInTried <;> cases hb : b.fInTried <;> cases hd : d.fInTried <;>
    simp_all <;> omega

theorem bucketLe_total (a b : Entry) : (bucketLe a b || bucketLe b a) = true := by
  unfold bucketLe
  cases ha : a.fInTried <;> cases hb : b.fInTried <;> simp_all <;> omega

theorem bucketLe_of_slotOf_eq {a b : Entry} (h : slotOf a = slotOf b) :
    bucketLe a b = true := by
  unfold slotOf at h
  rw [Prod.mk.injEq, Prod.mk.injEq] at h
  unfold bucketLe
  rw [h.1, h.2.1, h.2.2]
  simp

theorem bucketLe_antisymm_slot {a b : Entry} (h1 : bucketLe a b = true)
    (h2 : bucketLe b a = true) : slotOf a = slotOf b := by
  unfold bucketLe at h1 h2
  unfold slotOf
  cases ha : a.fInTried <;> cases hb : b.fInTried <;> simp_all <;> omega

theorem chainDup_cons_false {a b : Entry} {rest : List Entry}
    (h : chainDup (a :: b :: rest) = false) :
    slotOf a ≠ slotOf b ∧ chainDup (b :: rest) = false := by
  unfold chainDup at h
  simp only [Bool.or_eq_false_iff, beq_eq_false_iff_ne, ne_eq] at h
  exact h

theorem pairwise_slot_of_sorted_chain :
    ∀ {l : List Entry}, l.Pairwise (fun a b => bucketLe a b = true) →
      chainDup l = false → l.Pairwise fun a b => slotOf a ≠ slotOf b
  | [], _, _ => List.Pairwise.nil
  | [a], _, _ => by simp
  | a :: b :: rest, hs, hc => by
    obtain ⟨hab, hcrest⟩ := chainDup_cons_false hc
    rw [List.pairwise_cons] at hs
    have ih := pairwise_slot_of_sorted_chain hs.2 hcrest
    rw [List.pairwise_cons]
    refine ⟨?_, ih⟩
    intro x hx
    cases List.mem_cons.mp hx with
    | inl h1 =>
      rw [h1]
      exact hab
    | inr h2 =>
      intro heq
      have hbx : bucketLe b x = true := (List.pairwise_cons.mp hs.2).1 x h2
      have hab' : bucketLe a b = true := hs.1 b (List.mem_cons_self _ _)
      have hxa : bucketLe x a = true := bucketLe_of_slotOf_eq heq.symm
      have hxb : bucketLe x b = true := bucketLe_trans x a b hxa hab'
      exact hab (heq.trans (bucketLe_antisymm_slot hxb hbx))

theorem checkAddrPass_ne_zero {c : Ctx} {st : AMState} :
    ∀ (l : List Entry) (p : Option Entry) (k : Int),
      checkAddrPass c st p l = some k → k ≠ 0
  | [], _, k, h => by simp [checkAddrPass] at h
  | e :: rest, p, k, h => by
    unfold checkAddrPass at h
    split at h
    · split at h
      · simp at h
        omega
      · split at h
        · simp at h
          omega
        · split at h
          · simp at h
            omega
          · split at h
            · simp at h
              omega
            · exact checkAddrPass_ne_zero rest _ k h
    · split at h
      · simp at h
        omega
      · dsimp only at h
        split at h
        · simp at h
          omega
        · split at h
          · simp at h
            omega
          · exact checkAddrPass_ne_zero rest _ k h

/-- A state that passes `CheckAddrman` has pairwise-distinct occupied
slots (the `-10` adjacent-duplicate scan of the ByBucket pass, which is
sorted by the slot triple). -/
theorem slotU_of_check_zero {c : Ctx} {st : AMState} (h : checkAddrman c st = 0) :
    SlotU st := by
  unfold checkAddrman at h
  split at h
  next code heq =>
    exact absurd h (checkAddrPass_ne_zero _ _ _ heq)
  · dsimp only at h
    split at h
    · omega
    split at h
    · omega
    split at h
    · omega
    split at h
    · omega
    next hchain =>
      have hchain' : chainDup (byBucketSorted st.entries) = false := by
        simpa using hchain
      have hsorted := pairwise_isort bucketLe_trans bucketLe_total st.entries
      have hpw := pairwise_slot_of_sorted_chain hsorted hchain'
      unfold SlotU
      exact ((isort_perm bucketLe st.entries).pairwise_iff
        (fun hr => hr.symm)).mp hpw

/-- A successful `Unserialize` ends in a state that passed
`CheckAddrman`. -/
theorem unserialize_check {c : Ctx} {f : SerFile} {st : AMState}
    (h : unserialize c f = .ok st) : checkAddrman c st = 0 := by
  unfold unserialize at h
  dsimp only at h
  split at h
  · cases h
  · split at h
    · cases h
    next hcode =>
      cases h
      simpa using hcode

/-! ### The rate-limited time update of `AddSingle` -/

/-- The final insert of `AddSingle` never loses an entry of the address
being added (the only eviction is of an entry of a different address). -/
theorem addFinish_keeps {c : Ctx} {st : AMState} {info : Entry} {al : Bool} {now : Int}
    (hinv : InvB b c st) {x : Entry} (hx : x ∈ st.entries) (hsvc : x.svc = info.svc) :
    x ∈ (addFinish c st info al now).2.entries := by
  unfold addFinish
  dsimp only
  cases hfs : findSlot st (false, (rebucket c st.key info).mBucket,
      (rebucket c st.key info).mBucketpos) with
  | none =>
    dsimp only
    rw [insertEntry_entries]
    exact List.mem_cons_of_mem _ hx
  | some ex =>
    obtain ⟨hexm, _⟩ := findSlot_some hfs
    dsimp only
    simp only [rebucket_svc]
    by_cases hq : ex.svc ≠ info.svc
    · rw [if_pos hq]
      by_cases hev : isTerrible ex now = true ∨ (!al) = true ∧ countAddr st ex.svc > 1
      · rw [if_pos hev]
        dsimp only
        obtain ⟨_, _, _, _, _, f6, _⟩ := eraseInner_facts hinv hexm
        rw [insertEntry_entries]
        refine List.mem_cons_of_mem _ (f6 x hx ?_)
        rw [hsvc]
        exact fun hc => hq hc.symm
      · rw [if_neg hev]
        exact hx
    · rw [if_neg hq]
      exact hx

/-- The canonical entry's `nTime` after `AddSingle` on a present address:
updated to the (penalised) announced time exactly when the announced time
is nonzero and the stored time is older than it by more than the update
interval plus penalty, the interval being **one hour** when the peer is
currently online and 24 hours otherwise. -/
theorem addSingle_time_update {c : Ctx} {st : AMState} {a : CAddr} {src : Nat}
    {pen now : Int} {rnd : Nat} {it : Entry}
    (hinv : InvB b c st) (hr : c.routable a.svc = true)
    (hfc : findCanonical st a.svc = some it) :
    ∃ it' ∈ (addSingle c st a src pen now rnd).2.entries,
      it'.fAlias = false ∧ it'.svc = a.svc ∧
      it'.nTime =
        (if a.time ≠ 0 ∧ (it.nTime = 0 ∨ (it.nTime : Int) < (a.time : Int) -
            (if now - (a.time : Int) < 24 * 60 * 60 then (60 * 60 : Int) else 24 * 60 * 60) -
            (if c.sameAddr a.svc src then (0 : Int) else pen))
        then toU32 (max 0 ((a.time : Int) - (if c.sameAddr a.svc src then (0 : Int) else pen)))
        else it.nTime) := by
  obtain ⟨hitm, hitsvc, hitca⟩ := findCanonical_some hfc
  unfold addSingle
  dsimp only
  rw [if_neg (by rw [hr]; exact Bool.false_ne_true), hfc]
  dsimp only
  set X : AMState × Entry := (if a.time ≠ 0 ∧ (it.nTime = 0 ∨ (it.nTime : Int) < (a.time : Int) -
      (if now - (a.time : Int) < 24 * 60 * 60 then (60 * 60 : Int) else 24 * 60 * 60) -
      (if c.sameAddr a.svc src then (0 : Int) else pen))
    then modifyE c st it fun i => { i with nTime := toU32 (max 0 ((a.time : Int) -
      (if c.sameAddr a.svc src then (0 : Int) else pen))) }
    else (st, it)) with hXdef
  have hX : InvB b c X.1 ∧ X.2 ∈ X.1.entries ∧ X.2.svc = a.svc ∧ X.2.fAlias = false ∧
      X.2.nTime = (if a.time ≠ 0 ∧ (it.nTime = 0 ∨ (it.nTime : Int) < (a.time : Int) -
          (if now - (a.time : Int) < 24 * 60 * 60 then (60 * 60 : Int) else 24 * 60 * 60) -
          (if c.sameAddr a.svc src then (0 : Int) else pen))
        then toU32 (max 0 ((a.time : Int) - (if c.sameAddr a.svc src then (0 : Int) else pen)))
        else it.nTime) := by
    rw [hXdef]
    by_cases hq : a.time ≠ 0 ∧ (it.nTime = 0 ∨ (it.nTime : Int) < (a.time : Int) -
        (if now - (a.time : Int) < 24 * 60 * 60 then (60 * 60 : Int) else 24 * 60 * 60) -
        (if c.sameAddr a.svc src then (0 : Int) else pen))
    · simp only [if_pos hq]
      exact ⟨modifyE_inv hinv hitm rfl rfl rfl rfl, modifyE_mem (c := c) _ hitm,
        by rw [modifyE_snd, rebucket_svc]; exact hitsvc,
        by rw [modifyE_snd, rebucket_fAlias]; exact hitca,
        by rw [modifyE_snd, rebucket_nTime]⟩
    · simp only [if_neg hq]
      exact ⟨hinv, hitm, hitsvc, hitca, by trivial⟩
  obtain ⟨hinv1, hm1, hsvc1, hfa1, hT1⟩ := hX
  set T : Nat := (if a.time ≠ 0 ∧ (it.nTime = 0 ∨ (it.nTime : Int) < (a.time : Int) -
      (if now - (a.time : Int) < 24 * 60 * 60 then (60 * 60 : Int) else 24 * 60 * 60) -
      (if c.sameAddr a.svc src then (0 : Int) else pen))
    then toU32 (max 0 ((a.time : Int) - (if c.sameAddr a.svc src then (0 : Int) else pen)))
    else it.nTime) with hTdef
  have hinv2 : InvB b c (modifyE c X.1 X.2 fun i =>
      { i with nServices := i.nServices ||| a.services }).1 :=
    modifyE_inv hinv1 hm1 rfl rfl rfl rfl
  have hm2 := modifyE_mem (c := c) (fun i =>
    { i with nServices := i.nServices ||| a.services }) hm1
  have hsvc2 : (modifyE c X.1 X.2 fun i =>
      { i with nServices := i.nServices ||| a.services }).2.svc = a.svc := by
    rw [modifyE_snd, rebucket_svc]
    exact hsvc1
  have hfa2 : (modifyE c X.1 X.2 fun i =>
      { i with nServices := i.nServices ||| a.services }).2.fAlias = false := by
    rw [modifyE_snd, rebucket_fAlias]
    exact hfa1
  have hT2 : (modifyE c X.1 X.2 fun i =>
      { i with nServices := i.nServices ||| a.services }).2.nTime = T := by
    rw [modifyE_snd, rebucket_nTime]
    exact hT1
  split
  · exact ⟨_, hm2, hfa2, hsvc2, hT2⟩
  split
  · exact ⟨_, hm2, hfa2, hsvc2, hT2⟩
  split
  · exact ⟨_, hm2, hfa2, hsvc2, hT2⟩
  split
  · exact ⟨_, hm2, hfa2, hsvc2, hT2⟩
  · refine ⟨_, addFinish_keeps hinv2 hm2 ?_, hfa2, hsvc2, hT2⟩
    rw [mkInfo_svc]
    exact hsvc2

/-! ### `Good` with a full collision set -/

/-- When the target tried slot is occupied, `test_before_evict` is set and
the collision set is full, `Good_` neither records the collision nor
promotes: it returns `false` with the state as left by the statistics
update. -/
theorem good_full_collision {c : Ctx} {st : AMState} {a : Nat} {nTime : Int} {it w : Entry}
    (hfc : findCanonical st a = some it)
    (htr : (modifyE c { st with nLastGood := nTime } it fun i =>
      { i with nLastSuccess := nTime, nLastTry := nTime, nAttempts := 0 }).2.fInTried = false)
    (hsl : findSlot (modifyE c { st with nLastGood := nTime } it fun i =>
        { i with nLastSuccess := nTime, nLastTry := nTime, nAttempts := 0 }).1
      (true,
       getTriedBucket c (modifyE c { st with nLastGood := nTime } it fun i =>
         { i with nLastSuccess := nTime, nLastTry := nTime, nAttempts := 0 }).1.key a,
       getBucketPosition c (modifyE c { st with nLastGood := nTime } it fun i =>
         { i with nLastSuccess := nTime, nLastTry := nTime, nAttempts := 0 }).1.key false
         (getTriedBucket c (modifyE c { st with nLastGood := nTime } it fun i =>
           { i with nLastSuccess := nTime, nLastTry := nTime, nAttempts := 0 }).1.key a) a)
      = some w)
    (hfull : ¬ (modifyE c { st with nLastGood := nTime } it fun i =>
      { i with nLastSuccess := nTime, nLastTry := nTime, nAttempts := 0 }).1.collisions.length <
      ADDRMAN_SET_TRIED_COLLISION_SIZE) :
    good_ c st a true nTime =
      (false, (modifyE c { st with nLastGood := nTime } it fun i =>
        { i with nLastSuccess := nTime, nLastTry := nTime, nAttempts := 0 }).1) := by
  unfold good_
  dsimp only
  rw [show findCanonical { st with nLastGood := nTime } a = findCanonical st a from rfl, hfc]
  dsimp only
  rw [if_neg (by rw [htr]; exact Bool.false_ne_true), hsl]
  dsimp only
  rw [if_pos rfl, if_neg hfull]

/-! ### A consistent state passes `CheckAddrman` -/

theorem addrLe_trans (a b d : Entry) (h1 : addrLe a b = true) (h2 : addrLe b d = true) :
    addrLe a d = true := by
  unfold addrLe at h1 h2 ⊢
  cases ha : a.fAlias <;> cases hb : b.fAlias <;> cases hd : d.fAlias <;>
    simp_all <;> omega

theorem addrLe_total (a b : Entry) : (addrLe a b || addrLe b a) = true := by
  unfold addrLe
  cases ha : a.fAlias <;> cases hb : b.fAlias <;> simp_all <;> omega

theorem addrLe_svc_le {a b : Entry} (h : addrLe a b = true) : a.svc ≤ b.svc := by
  unfold addrLe at h
  simp at h
  rcases h with h | ⟨h, _⟩
  · omega
  · omega

theorem addrLe_alias_canon {a b : Entry} (h : addrLe a b = true)
    (ha : a.fAlias = true) (hb : b.fAlias = false) : a.svc < b.svc := by
  unfold addrLe at h
  simp at h
  rcases h with h | ⟨_, h2 | h2⟩
  · exact h
  · rw [ha] at h2
    cases h2
  · rw [hb] at h2
    cases h2

theorem count_map_svc : ∀ (l : List Entry) (a : Nat),
    (l.map (·.svc)).count a = (l.filter fun x => x.svc == a).length
  | [], _ => rfl
  | x :: l, a => by
    rw [List.map_cons, List.count_cons, count_map_svc l a, List.filter_cons]
    by_cases h : x.svc = a <;> simp [h]

theorem filter_svc_len_le_one :
    ∀ {l : List Entry}, l.Pairwise (fun x y => x.svc ≠ y.svc) → ∀ (a : Nat),
      (l.filter fun x => x.svc == a).length ≤ 1
  | [], _, _ => by simp
  | x :: l, hp, a => by
    rw [List.pairwise_cons] at hp
    rw [List.filter_cons]
    by_cases h : x.svc = a
    · have hnil : (l.filter fun y => y.svc == a) = [] := by
        rw [List.filter_eq_nil_iff]
        intro y hy hya
        rw [beq_iff_eq] at hya
        exact hp.1 y hy (by rw [h, hya])
      simp [h, hnil]
    · simpa [h] using filter_svc_len_le_one hp.2 a

/-- In a consistent state, the address of a canonical entry occurs in
`vRandom` exactly once. -/
theorem vcount_one {c : Ctx} {st : AMState} (hinv : InvB b c st) {e : Entry}
    (hm : e ∈ st.entries) (ha : e.fAlias = false) : st.vRandom.count e.svc = 1 := by
  rw [hinv.vRandOk.count_eq]
  unfold canonSvcs
  rw [count_map_svc]
  have hle := filter_svc_len_le_one hinv.canonU e.svc
  have hmem : e ∈ (st.entries.filter fun x => !x.fAlias).filter fun x => x.svc == e.svc := by
    rw [List.mem_filter, List.mem_filter]
    exact ⟨⟨hm, by simp [ha]⟩, by simp⟩
  have hpos := List.length_pos.mpr (List.ne_nil_of_mem hmem)
  omega

theorem cnt_split : ∀ l : List Entry,
    newCnt l + triedCnt l = (l.filter fun e => !e.fAlias).length
  | [] => rfl
  | x :: l => by
    have ih := cnt_split l
    unfold newCnt triedCnt at ih ⊢
    rw [List.filter_cons, List.filter_cons, List.filter_cons]
    by_cases h1 : x.fAlias <;> by_cases h2 : x.fInTried <;> simp [h1, h2] <;> omega

theorem chainDup_eq_false :
    ∀ {l : List Entry}, l.Pairwise (fun a b => slotOf a ≠ slotOf b) → chainDup l = false
  | [], _ => rfl
  | [_], _ => rfl
  | a :: b :: rest, h => by
    rw [List.pairwise_cons] at h
    have h1 : slotOf a ≠ slotOf b := h.1 b (List.mem_cons_self _ _)
    have h2 := chainDup_eq_false h.2
    unfold chainDup
    rw [h2, Bool.or_false]
    exact beq_eq_false_iff_ne.mpr h1

theorem checkAddrPass_none {c : Ctx} {st : AMState} (hinv : InvB b c st) :
    ∀ (l : List Entry) (prev : Option Entry),
      (∀ x ∈ l, x ∈ st.entries) →
      l.Pairwise (fun a b => addrLe a b = true) →
      l.Nodup →
      (∀ f ∈ l, f.fAlias = true →
        (∃ p, prev = some p ∧ p.svc = f.svc) ∨
        ∃ cn ∈ l, cn.fAlias = false ∧ cn.svc = f.svc) →
      (∀ p, prev = some p → ∀ f ∈ l, p.svc ≤ f.svc ∧ (f.fAlias = false → p.svc ≠ f.svc)) →
      checkAddrPass c st prev l = none
  | [], prev, _, _, _, _, _ => rfl
  | e :: rest, prev, hsub, hsort, hnd, hPa, hPb => by
    have hem : e ∈ st.entries := hsub e (List.mem_cons_self _ _)
    have hrestsub : ∀ x ∈ rest, x ∈ st.entries := fun x hx => hsub x (List.mem_cons_of_mem _ hx)
    rw [List.pairwise_cons] at hsort
    rw [List.nodup_cons] at hnd
    have hfix : rebucket c st.key e = e := hinv.buckOk e hem
    unfold checkAddrPass
    dsimp only
    by_cases ha : e.fAlias = true
    · rw [if_pos ha]
      have htr : e.fInTried = false := hinv.aliasNew e hem ha
      rw [htr, if_neg Bool.false_ne_true]
      rcases hPa e (List.mem_cons_self _ _) ha with ⟨p, hp, hpsvc⟩ | ⟨cn, hcnm, hcnfa, hcnsvc⟩
      · rw [hp]
        dsimp only
        rw [if_neg (fun hq => hq hpsvc), if_neg (fun hq => hq hfix)]
        refine checkAddrPass_none hinv rest (some e) hrestsub hsort.2 hnd.2 ?_ ?_
        · intro f hf hfa
          rcases hPa f (List.mem_cons_of_mem _ hf) hfa with ⟨q, hq, hqsvc⟩ | ⟨cn, hcnm, hcf, hcs⟩
          · rw [hp] at hq
            injection hq with hq'
            subst hq'
            exact Or.inl ⟨e, rfl, by rw [← hpsvc]; exact hqsvc⟩
          · cases List.mem_cons.mp hcnm with
            | inl h1 =>
              rw [h1, ha] at hcf
              cases hcf
            | inr h2 => exact Or.inr ⟨cn, h2, hcf, hcs⟩
        · intro q hq f hf
          injection hq with hq'
          subst hq'
          refine ⟨addrLe_svc_le (hsort.1 f hf), ?_⟩
          intro hfc
          exact Nat.ne_of_lt (addrLe_alias_canon (hsort.1 f hf) ha hfc)
      · exfalso
        have hne : cn ≠ e := by
          intro hq
          rw [hq, ha] at hcnfa
          cases hcnfa
        have hcnrest : cn ∈ rest := by
          cases List.mem_cons.mp hcnm with
          | inl h1 => exact absurd h1 hne
          | inr h2 => exact h2
        have hlt := addrLe_alias_canon (hsort.1 cn hcnrest) ha hcnfa
        omega
    · have ha' : e.fAlias = false := by simpa using ha
      rw [if_neg ha]
      rw [if_neg (fun hq => hq (vcount_one hinv hem ha'))]
      have htail : checkAddrPass c st (some e) rest = none := by
        refine checkAddrPass_none hinv rest (some e) hrestsub hsort.2 hnd.2 ?_ ?_
        · intro f hf hfa
          rcases hPa f (List.mem_cons_of_mem _ hf) hfa with ⟨q, hq, hqsvc⟩ | ⟨cn, hcnm, hcf, hcs⟩
          · have h1 := (hPb q hq e (List.mem_cons_self _ _)).1
            have h2 := addrLe_svc_le (hsort.1 f hf)
            exact Or.inl ⟨e, rfl, by omega⟩
          · cases List.mem_cons.mp hcnm with
            | inl h1 => exact Or.inl ⟨e, rfl, by rw [← h1]; exact hcs⟩
            | inr h2 => exact Or.inr ⟨cn, h2, hcf, hcs⟩
        · intro q hq f hf
          injection hq with hq'
          subst hq'
          refine ⟨addrLe_svc_le (hsort.1 f hf), ?_⟩
          intro hfc
          have hnef : e ≠ f := by
            intro hq2
            exact hnd.1 (hq2 ▸ hf)
          exact canonU_ne hinv.canonU hem (hrestsub f hf) ha' hfc hnef
      cases prev with
      | none =>
        dsimp only
        rw [if_neg Bool.false_ne_true, if_neg (fun hq => hq hfix)]
        exact htail
      | some p =>
        dsimp only
        have h2 := (hPb p rfl e (List.mem_cons_self _ _)).2 ha'
        rw [if_neg (fun hq => h2 (by simpa using hq)), if_neg (fun hq => hq hfix)]
        exact htail

/-- `CheckAddrman` accepts every state satisfying the invariant. -/
theorem checkAddrman_zero_of_inv {c : Ctx} {st : AMState} (hinv : InvB b c st) :
    checkAddrman c st = 0 := by
  have hperm : (byAddressSorted st.entries).Perm st.entries :=
    isort_perm addrLe st.entries
  have hnd : st.entries.Nodup := slotU_nodup hinv.slotU
  have hpass : checkAddrPass c st none (byAddressSorted st.entries) = none := by
    refine checkAddrPass_none hinv _ none (fun x hx => hperm.subset hx)
      (pairwise_isort addrLe_trans addrLe_total st.entries)
      (hperm.nodup_iff.mpr hnd) ?_ (fun p hp => by cases hp)
    intro f hf hfa
    obtain ⟨cn, hcnm, q1, q2, _⟩ := hinv.aliasCanon f (hperm.subset hf) hfa
    exact Or.inr ⟨cn, hperm.symm.subset hcnm, by simpa using q1, q2⟩
  unfold checkAddrman
  rw [hpass]
  dsimp only
  have hsplit := cnt_split st.entries
  obtain ⟨hn, ht⟩ := hinv.countersOk
  rw [if_neg (fun hq => hq hn.symm), if_neg (fun hq => hq ht.symm)]
  have hlen : st.vRandom.length = (st.entries.filter fun e => !e.fAlias).length := by
    rw [hinv.vRandOk.length_eq]
    unfold canonSvcs
    rw [List.length_map]
  rw [if_neg ?hfin]
  case hfin =>
    intro hq
    unfold newCnt triedCnt at hsplit
    rw [hlen] at hq
    exact hq hsplit
  have hchain : chainDup (byBucketSorted st.entries) = false := by
    refine chainDup_eq_false ?_
    exact ((isort_perm bucketLe st.entries).pairwise_iff
      (fun hr => hr.symm)).mpr hinv.slotU
  rw [hchain, if_neg Bool.false_ne_true]

/-! ### The `Unserialize` replay of a serialized consistent state -/

theorem aliasSources_eq (st : AMState) (a : Nat) :
    aliasSources st a = (aliasEnts st a).map (·.source) := rfl

theorem entry_ext {x y : Entry} (h1 : x.svc = y.svc) (h2 : x.source = y.source)
    (h3 : x.fInTried = y.fInTried) (h4 : x.fAlias = y.fAlias)
    (h5 : x.mBucket = y.mBucket) (h6 : x.mBucketpos = y.mBucketpos)
    (h7 : x.nTime = y.nTime) (h8 : x.nServices = y.nServices)
    (h9 : x.nLastTry = y.nLastTry) (h10 : x.nLastCountAttempt = y.nLastCountAttempt)
    (h11 : x.nLastSuccess = y.nLastSuccess) (h12 : x.nAttempts = y.nAttempts) : x = y := by
  cases x
  cases y
  simp_all

@[simp] theorem withAlias_mBucket (x : Entry) (b : Bool) :
    ({ x with fAlias := b } : Entry).mBucket = x.mBucket := rfl

@[simp] theorem withAlias_mBucketpos (x : Entry) (b : Bool) :
    ({ x with fAlias := b } : Entry).mBucketpos = x.mBucketpos := rfl

@[simp] theorem withAlias_nTime (x : Entry) (b : Bool) :
    ({ x with fAlias := b } : Entry).nTime = x.nTime := rfl

@[simp] theorem entryOfSer_svc (r : SerEntry) (t : Bool) (src : Nat) :
    (entryOfSer r t src).svc = r.svc := rfl

@[simp] theorem entryOfSer_source (r : SerEntry) (t : Bool) (src : Nat) :
    (entryOfSer r t src).source = src := rfl

@[simp] theorem entryOfSer_fInTried (r : SerEntry) (t : Bool) (src : Nat) :
    (entryOfSer r t src).fInTried = t := rfl

@[simp] theorem entryOfSer_fAlias (r : SerEntry) (t : Bool) (src : Nat) :
    (entryOfSer r t src).fAlias = false := rfl

/-- Reading back a serialized canonical entry reproduces it exactly. -/
theorem reconstruct_canon {c : Ctx} {K : Nat} {e : Entry}
    (hfix : rebucket c K e = e) (ha : e.fAlias = false) :
    ({ rebucket c K (entryOfSer (serEntryOf e) e.fInTried e.source) with fAlias := false }
      : Entry) = e := by
  have hslot : slotOf (rebucket c K (entryOfSer (serEntryOf e) e.fInTried e.source)) =
      slotOf (rebucket c K e) :=
    slotOf_rebucket_congr c K rfl rfl rfl
  rw [hfix] at hslot
  unfold slotOf at hslot
  rw [Prod.mk.injEq, Prod.mk.injEq] at hslot
  refine entry_ext ?_ ?_ ?_ ?_ ?_ ?_ ?_ ?_ ?_ ?_ ?_ ?_
  · simp [entryOfSer, serEntryOf]
  · simp [entryOfSer, serEntryOf]
  · simp [entryOfSer, serEntryOf]
  · simp [ha]
  · rw [withAlias_mBucket]
    exact hslot.2.1
  · rw [withAlias_mBucketpos]
    exact hslot.2.2
  · simp [entryOfSer, serEntryOf]
  · simp [entryOfSer, serEntryOf]
  · simp [entryOfSer, serEntryOf]
  · simp [entryOfSer, serEntryOf]
  · simp [entryOfSer, serEntryOf]
  · simp [entryOfSer, serEntryOf]

theorem findSlot_none_of {t : AMState} {s : Bool × Nat × Nat}
    (h : ∀ x ∈ t.entries, slotOf x ≠ s) : findSlot t s = none := by
  unfold findSlot
  rw [List.find?_eq_none]
  intro x hx
  simpa using h x hx

theorem any_svc_false {t : AMState} {a : Nat} (h : countAddr t a = 0) :
    (t.entries.any fun e => e.svc == a) = false := by
  rw [List.any_eq_false]
  intro x hx
  rw [countAddr_def] at h
  unfold countA at h
  rw [List.length_eq_zero, List.filter_eq_nil_iff] at h
  exact h x hx

theorem any_svc_true {t : AMState} {a : Nat} {x : Entry}
    (hx : x ∈ t.entries) (hsvc : x.svc = a) :
    (t.entries.any fun e => e.svc == a) = true := by
  rw [List.any_eq_true]
  exact ⟨x, hx, by simpa using hsvc⟩

theorem replayAliases {c : Ctx} {s : AMState} (hs : InvB b c s) {a : Nat} {r : SerEntry}
    (hra : r.svc = a) :
    ∀ (ys : List Entry) (u : AMState),
      u.key = s.key → InvB b c u →
      (∀ y ∈ ys, y ∈ s.entries ∧ y.svc = a ∧ y.fAlias = true ∧ y.fInTried = false) →
      (∃ cn ∈ u.entries, cn.fAlias = false ∧ cn.svc = a ∧ cn.fInTried = false) →
      (b = true → countAddr u a + ys.length ≤ 8) →
      (∀ y ∈ ys, ∀ x ∈ u.entries, slotOf x ≠ slotOf y) →
      ys.Pairwise (fun y1 y2 => slotOf y1 ≠ slotOf y2) →
      ((ys.foldl (fun u1 y => insertRead c u1 (entryOfSer r false y.source)) u).key = s.key ∧
       InvB b c (ys.foldl (fun u1 y => insertRead c u1 (entryOfSer r false y.source)) u) ∧
       canonOf (ys.foldl (fun u1 y => insertRead c u1 (entryOfSer r false y.source)) u) =
         canonOf u ∧
       (aliasPairsOf (ys.foldl (fun u1 y => insertRead c u1 (entryOfSer r false y.source)) u)).Perm
         (aliasPairsOf u ++ ys.map fun y => (a, y.source)) ∧
       (ys.foldl (fun u1 y => insertRead c u1 (entryOfSer r false y.source)) u).nNew = u.nNew ∧
       (ys.foldl (fun u1 y => insertRead c u1 (entryOfSer r false y.source)) u).nTried =
         u.nTried ∧
       countAddr (ys.foldl (fun u1 y => insertRead c u1 (entryOfSer r false y.source)) u) a =
         countAddr u a + ys.length ∧
       (∀ x ∈ (ys.foldl (fun u1 y => insertRead c u1 (entryOfSer r false y.source)) u).entries,
         x ∈ u.entries ∨ ∃ y ∈ ys, slotOf x = slotOf y ∧ x.svc = a))
  | [], u, hk, hi, _, _, _, _, _ => by
    refine ⟨hk, hi, rfl, by simp, rfl, rfl, by simp, fun x hx => Or.inl hx⟩
  | y :: ys, u, hk, hi, hys, hcn, hcap, hfree, hdist => by
    obtain ⟨hym, hya, hyal, hyt⟩ := hys y (List.mem_cons_self _ _)
    have hyfix : rebucket c s.key y = y := hs.buckOk y hym
    -- the rebucketed read entry sits on the alias's slot
    have hslotR : slotOf (rebucket c u.key (entryOfSer r false y.source)) = slotOf y := by
      rw [hk]
      have h1 : slotOf (rebucket c s.key (entryOfSer r false y.source)) =
          slotOf (rebucket c s.key y) :=
        slotOf_rebucket_congr c s.key (by simp [hra, hya]) (by simp) (by simp [hyt])
      rw [h1, hyfix]
    obtain ⟨cn, hcnm, q1, q2, q3⟩ := hcn
    have hstep : insertRead c u (entryOfSer r false y.source) =
        insertEntry c u (rebucket c u.key (entryOfSer r false y.source)) true := by
      unfold insertRead
      dsimp only
      have hfsn : findSlot u ((rebucket c u.key (entryOfSer r false y.source)).fInTried,
          (rebucket c u.key (entryOfSer r false y.source)).mBucket,
          (rebucket c u.key (entryOfSer r false y.source)).mBucketpos) = none := by
        refine findSlot_none_of ?_
        intro x hx
        show slotOf x ≠ slotOf (rebucket c u.key (entryOfSer r false y.source))
        rw [hslotR]
        exact hfree y (List.mem_cons_self _ _) x hx
      rw [hfsn]
      have hany : (u.entries.any fun e =>
          e.svc == (rebucket c u.key (entryOfSer r false y.source)).svc) = true := by
        rw [show (rebucket c u.key (entryOfSer r false y.source)).svc = a from by simp [hra]]
        exact any_svc_true hcnm q2
      rw [if_pos hany]
      rw [show (rebucket c u.key (entryOfSer r false y.source)).fInTried = false from by simp]
      rw [if_neg Bool.false_ne_true]
    have hEfix : rebucket c u.key (rebucket c u.key (entryOfSer r false y.source)) =
        rebucket c u.key (entryOfSer r false y.source) := rebucket_idem c u.key _
    have hinv1 : InvB b c (insertEntry c u (rebucket c u.key (entryOfSer r false y.source)) true) := by
      refine insertEntry_inv_alias hi ?_ ?_ ?_ (by simp)
      · intro x hx
        rw [hEfix, hslotR]
        exact hfree y (List.mem_cons_self _ _) x hx
      · rw [show (rebucket c u.key (entryOfSer r false y.source)).svc = a from by simp [hra]]
        exact ⟨cn, hcnm, q1, q2, q3⟩
      · rw [show (rebucket c u.key (entryOfSer r false y.source)).svc = a from by simp [hra]]
        intro hb
        have hcap' := hcap hb
        simp only [List.length_cons] at hcap'
        omega
    have hu1e : (insertEntry c u (rebucket c u.key (entryOfSer r false y.source)) true).entries =
        { rebucket c u.key (entryOfSer r false y.source) with fAlias := true } :: u.entries := by
      rw [insertEntry_entries, hEfix]
    have hcnt1 : countAddr (insertEntry c u (rebucket c u.key (entryOfSer r false y.source)) true)
        a = countAddr u a + 1 := by
      rw [countAddr_def, hu1e, countA_cons, ← countAddr_def]
      rw [if_pos (by simp [hra])]
    have ih := replayAliases hs hra ys
      (insertEntry c u (rebucket c u.key (entryOfSer r false y.source)) true)
      (by rw [insertEntry_key, hk]) hinv1
      (fun y' hy' => hys y' (List.mem_cons_of_mem _ hy'))
      ⟨cn, by rw [hu1e]; exact List.mem_cons_of_mem _ hcnm, q1, q2, q3⟩
      (by
        intro hb
        have hcap' := hcap hb
        rw [hcnt1]
        simp only [List.length_cons] at hcap'
        omega)
      (by
        intro y' hy' x hx
        rw [hu1e] at hx
        cases List.mem_cons.mp hx with
        | inl h1 =>
          rw [h1]
          have hsl : slotOf ({ rebucket c u.key (entryOfSer r false y.source) with
              fAlias := true } : Entry) = slotOf y := by
            rw [← hslotR]
            unfold slotOf
            simp
          rw [hsl]
          exact (List.pairwise_cons.mp hdist).1 y' hy'
        | inr h2 => exact hfree y' (List.mem_cons_of_mem _ hy') x h2)
      (List.pairwise_cons.mp hdist).2
    obtain ⟨ik, ii, ic, ia, inew, itr, icnt, ifr⟩ := ih
    rw [List.foldl_cons, hstep]
    refine ⟨ik, ii, ?_, ?_, ?_, ?_, ?_, ?_⟩
    · rw [ic]
      unfold canonOf
      rw [hu1e, List.filter_cons_of_neg (by simp)]
    · refine ia.trans ?_
      have he1 : aliasPairsOf
          (insertEntry c u (rebucket c u.key (entryOfSer r false y.source)) true) =
          (a, y.source) :: aliasPairsOf u := by
        unfold aliasPairsOf
        rw [hu1e, List.filter_cons_of_pos (by simp), List.map_cons]
        rw [show ((({ rebucket c u.key (entryOfSer r false y.source) with
          fAlias := true } : Entry).svc,
          ({ rebucket c u.key (entryOfSer r false y.source) with
          fAlias := true } : Entry).source) : Nat × Nat) = (a, y.source) from by simp [hra]]
      rw [he1, List.map_cons, List.cons_append]
      exact List.perm_middle.symm
    · rw [inew, insertEntry_eq]
      simp
    · rw [itr, insertEntry_eq]
      simp
    · rw [icnt, hcnt1, List.length_cons]
      omega
    · intro x hx
      cases ifr x hx with
      | inl h1 =>
        rw [hu1e] at h1
        cases List.mem_cons.mp h1 with
        | inl h2 =>
          refine Or.inr ⟨y, List.mem_cons_self _ _, ?_, ?_⟩
          · rw [h2, ← hslotR]
            unfold slotOf
            simp
          · rw [h2]
            simp [hra]
        | inr h2 => exact Or.inl h2
      | inr h2 =>
        obtain ⟨y', hy', hsl, hsvc⟩ := h2
        exact Or.inr ⟨y', List.mem_cons_of_mem _ hy', hsl, hsvc⟩

theorem countA_eq_zero {l : List Entry} {a : Nat} :
    countA l a = 0 ↔ ∀ x ∈ l, x.svc ≠ a := by
  unfold countA
  rw [List.length_eq_zero, List.filter_eq_nil_iff]
  constructor
  · intro h x hx hq
    exact h x hx (by simpa using hq)
  · intro h x hx hq
    exact h x hx (by simpa using hq)

/-- Membership facts for the per-record plan `e :: aliasEnts s e.svc`. -/
theorem plan_mem {s : AMState} {e y : Entry} (hem : e ∈ s.entries)
    (hy : y ∈ e :: aliasEnts s e.svc) : y ∈ s.entries ∧ y.svc = e.svc := by
  cases List.mem_cons.mp hy with
  | inl h1 =>
    rw [h1]
    exact ⟨hem, rfl⟩
  | inr h2 =>
    unfold aliasEnts at h2
    rw [List.mem_filter] at h2
    refine ⟨(isort_perm addrLe s.entries).subset h2.1, ?_⟩
    have := h2.2
    simp at this
    exact this.1

theorem aliasEnts_mem {s : AMState} {a : Nat} {y : Entry} (hy : y ∈ aliasEnts s a) :
    y ∈ s.entries ∧ y.svc = a ∧ y.fAlias = true := by
  unfold aliasEnts at hy
  rw [List.mem_filter] at hy
  have h2 := hy.2
  simp at h2
  exact ⟨(isort_perm addrLe s.entries).subset hy.1, h2.1, h2.2⟩

theorem mem_aliasEnts {s : AMState} {a : Nat} {y : Entry} (hm : y ∈ s.entries)
    (hsvc : y.svc = a) (hfa : y.fAlias = true) : y ∈ aliasEnts s a := by
  unfold aliasEnts
  rw [List.mem_filter]
  exact ⟨(isort_perm addrLe s.entries).symm.subset hm, by simp [hsvc, hfa]⟩

theorem aliasEnts_pairwise {c : Ctx} {s : AMState} (hs : InvB b c s) (a : Nat) :
    (aliasEnts s a).Pairwise fun y1 y2 => slotOf y1 ≠ slotOf y2 := by
  unfold aliasEnts
  refine List.Pairwise.sublist (List.filter_sublist _) ?_
  exact ((isort_perm addrLe s.entries).pairwise_iff (fun hr => hr.symm)).mpr hs.slotU

theorem count_split_addr : ∀ (l : List Entry) (a : Nat),
    countA l a = (l.filter fun x => x.svc == a && x.fAlias).length +
      (l.filter fun x => x.svc == a && !x.fAlias).length
  | [], _ => rfl
  | x :: l, a => by
    have ih := count_split_addr l a
    rw [countA_cons, List.filter_cons, List.filter_cons]
    by_cases h1 : x.svc = a <;> by_cases h2 : x.fAlias <;> simp [h1, h2] <;> omega

theorem canonical_part_one {c : Ctx} {s : AMState} (hs : InvB b c s) {e : Entry}
    (hem : e ∈ s.entries) (hea : e.fAlias = false) :
    (s.entries.filter fun x => x.svc == e.svc && !x.fAlias).length = 1 := by
  have heq : (s.entries.filter fun x => x.svc == e.svc && !x.fAlias) =
      ((s.entries.filter fun x => !x.fAlias).filter fun x => x.svc == e.svc) := by
    rw [List.filter_filter]
  rw [heq]
  have hle := filter_svc_len_le_one hs.canonU e.svc
  have hmem : e ∈ (s.entries.filter fun x => !x.fAlias).filter fun x => x.svc == e.svc := by
    rw [List.mem_filter, List.mem_filter]
    exact ⟨⟨hem, by simp [hea]⟩, by simp⟩
  have hpos := List.length_pos.mpr (List.ne_nil_of_mem hmem)
  omega

/-- The number of serialized sources of a new canonical entry. -/
theorem aliasEnts_length {c : Ctx} {s : AMState} (hs : InvB b c s) {e : Entry}
    (hem : e ∈ s.entries) (hea : e.fAlias = false) :
    (aliasEnts s e.svc).length + 1 = countAddr s e.svc := by
  have h1 : (aliasEnts s e.svc).length =
      (s.entries.filter fun x => x.svc == e.svc && x.fAlias).length := by
    unfold aliasEnts
    exact lenf_perm _ (isort_perm addrLe s.entries)
  rw [countAddr_def, count_split_addr s.entries e.svc, h1,
    canonical_part_one hs hem hea]

/-- Replaying one serialized new record: the canonical entry is
reconstructed exactly, followed by its aliases. -/
theorem replayRecord {c : Ctx} {s : AMState} (hs : InvB b c s) {e : Entry}
    (hem : e ∈ s.entries) (hea : e.fAlias = false) (het : e.fInTried = false)
    (t : AMState) (hk : t.key = s.key) (hi : InvB b c t)
    (hcnt : countAddr t e.svc = 0)
    (hfree : ∀ y ∈ e :: aliasEnts s e.svc, ∀ x ∈ t.entries, slotOf x ≠ slotOf y) :
    ((e.source :: aliasSources s e.svc).foldl
        (fun u src => insertRead c u (entryOfSer (serEntryOf e) false src)) t).key = s.key ∧
    InvB b c ((e.source :: aliasSources s e.svc).foldl
        (fun u src => insertRead c u (entryOfSer (serEntryOf e) false src)) t) ∧
    canonOf ((e.source :: aliasSources s e.svc).foldl
        (fun u src => insertRead c u (entryOfSer (serEntryOf e) false src)) t) =
      e :: canonOf t ∧
    (aliasPairsOf ((e.source :: aliasSources s e.svc).foldl
        (fun u src => insertRead c u (entryOfSer (serEntryOf e) false src)) t)).Perm
      (aliasPairsOf t ++ (aliasEnts s e.svc).map fun y => (e.svc, y.source)) ∧
    ((e.source :: aliasSources s e.svc).foldl
        (fun u src => insertRead c u (entryOfSer (serEntryOf e) false src)) t).nNew =
      t.nNew + 1 ∧
    ((e.source :: aliasSources s e.svc).foldl
        (fun u src => insertRead c u (entryOfSer (serEntryOf e) false src)) t).nTried =
      t.nTried ∧
    (∀ x ∈ ((e.source :: aliasSources s e.svc).foldl
        (fun u src => insertRead c u (entryOfSer (serEntryOf e) false src)) t).entries,
      x ∈ t.entries ∨ ∃ y ∈ e :: aliasEnts s e.svc, slotOf x = slotOf y ∧ x.svc = e.svc) := by
  have hfix : rebucket c s.key e = e := hs.buckOk e hem
  -- the canonical read entry reproduces `e`
  have hrec : ({ rebucket c t.key (entryOfSer (serEntryOf e) false e.source) with
      fAlias := false } : Entry) = e := by
    have h0 := reconstruct_canon (c := c) hfix hea
    rw [het] at h0
    rw [hk]
    exact h0
  have hslotE : slotOf (rebucket c t.key (entryOfSer (serEntryOf e) false e.source)) =
      slotOf e := by
    have h1 : slotOf ({ rebucket c t.key (entryOfSer (serEntryOf e) false e.source) with
        fAlias := false } : Entry) =
        slotOf (rebucket c t.key (entryOfSer (serEntryOf e) false e.source)) := by
      unfold slotOf
      simp
    rw [← h1, hrec]
  have hEsvc : (rebucket c t.key (entryOfSer (serEntryOf e) false e.source)).svc = e.svc := by
    simp [serEntryOf]
  have hstep : insertRead c t (entryOfSer (serEntryOf e) false e.source) =
      insertEntry c t (rebucket c t.key (entryOfSer (serEntryOf e) false e.source)) false := by
    unfold insertRead
    dsimp only
    have hfsn : findSlot t
        ((rebucket c t.key (entryOfSer (serEntryOf e) false e.source)).fInTried,
         (rebucket c t.key (entryOfSer (serEntryOf e) false e.source)).mBucket,
         (rebucket c t.key (entryOfSer (serEntryOf e) false e.source)).mBucketpos) = none := by
      refine findSlot_none_of ?_
      intro x hx
      show slotOf x ≠ slotOf (rebucket c t.key (entryOfSer (serEntryOf e) false e.source))
      rw [hslotE]
      exact hfree e (List.mem_cons_self _ _) x hx
    rw [hfsn]
    have hany : (t.entries.any fun x =>
        x.svc == (rebucket c t.key (entryOfSer (serEntryOf e) false e.source)).svc) = false := by
      rw [hEsvc]
      exact any_svc_false hcnt
    rw [hany, if_neg Bool.false_ne_true]
  have hEfix : rebucket c t.key
      (rebucket c t.key (entryOfSer (serEntryOf e) false e.source)) =
      rebucket c t.key (entryOfSer (serEntryOf e) false e.source) := rebucket_idem c t.key _
  have hinv0 : InvB b c (insertEntry c t
      (rebucket c t.key (entryOfSer (serEntryOf e) false e.source)) false) := by
    refine insertEntry_inv_canon hi ?_ ?_
    · intro x hx
      rw [hEfix, hslotE]
      exact hfree e (List.mem_cons_self _ _) x hx
    · rw [hEsvc]
      exact hcnt
  have hu0e : (insertEntry c t
      (rebucket c t.key (entryOfSer (serEntryOf e) false e.source)) false).entries =
      e :: t.entries := by
    rw [insertEntry_entries, hEfix, hrec]
  have hcnt0 : countAddr (insertEntry c t
      (rebucket c t.key (entryOfSer (serEntryOf e) false e.source)) false) e.svc = 1 := by
    rw [countAddr_def, hu0e, countA_cons, ← countAddr_def, hcnt, if_pos rfl]
  have hcap : b = true → countAddr (insertEntry c t
      (rebucket c t.key (entryOfSer (serEntryOf e) false e.source)) false) e.svc +
      (aliasEnts s e.svc).length ≤ 8 := by
    intro hb
    rw [hcnt0]
    have h1 := aliasEnts_length hs hem hea
    have h2 := hs.refBound hb e hem
    have h3 : countAddr s e.svc ≤ 8 := by
      simpa [ADDRMAN_NEW_BUCKETS_PER_ADDRESS] using h2
    omega
  have hmain := replayAliases hs (rfl : (serEntryOf e).svc = e.svc) (aliasEnts s e.svc)
    (insertEntry c t (rebucket c t.key (entryOfSer (serEntryOf e) false e.source)) false)
    (by rw [insertEntry_key, hk])
    hinv0
    (by
      intro y hy
      obtain ⟨q1, q2, q3⟩ := aliasEnts_mem hy
      exact ⟨q1, q2, q3, hs.aliasNew y q1 q3⟩)
    ⟨e, by rw [hu0e]; exact List.mem_cons_self _ _, hea, rfl, het⟩
    hcap
    (by
      intro y hy x hx
      rw [hu0e] at hx
      obtain ⟨q1, q2, q3⟩ := aliasEnts_mem hy
      cases List.mem_cons.mp hx with
      | inl h1 =>
        rw [h1]
        refine slotU_ne hs.slotU hem q1 ?_
        intro hq
        rw [← hq, hea] at q3
        cases q3
      | inr h2 => exact hfree y (List.mem_cons_of_mem _ hy) x h2)
    (aliasEnts_pairwise hs e.svc)
  obtain ⟨ik, ii, ic, ia, inew, itr, icnt, ifr⟩ := hmain
  rw [List.foldl_cons, hstep, aliasSources_eq, List.foldl_map]
  refine ⟨ik, ii, ?_, ?_, ?_, ?_, ?_⟩
  · rw [ic]
    unfold canonOf
    rw [hu0e, List.filter_cons_of_pos (by simp [hea])]
  · refine ia.trans ?_
    have he1 : aliasPairsOf (insertEntry c t
        (rebucket c t.key (entryOfSer (serEntryOf e) false e.source)) false) =
        aliasPairsOf t := by
      unfold aliasPairsOf
      rw [hu0e, List.filter_cons_of_neg (by simp [hea])]
    rw [he1]
    exact List.Perm.refl _
  · rw [inew, insertEntry_eq]
    dsimp only
    rw [show (rebucket c t.key (entryOfSer (serEntryOf e) false e.source)).fInTried =
      false from by simp]
    simp
  · rw [itr, insertEntry_eq]
    dsimp only
    rw [show (rebucket c t.key (entryOfSer (serEntryOf e) false e.source)).fInTried =
      false from by simp]
    simp
  · intro x hx
    cases ifr x hx with
    | inl h1 =>
      rw [hu0e] at h1
      cases List.mem_cons.mp h1 with
      | inl h2 =>
        refine Or.inr ⟨e, List.mem_cons_self _ _, ?_, ?_⟩
        · rw [h2]
        · rw [h2]
      | inr h2 => exact Or.inl h2
    | inr h2 =>
      obtain ⟨y, hy, hsl, hsvc⟩ := h2
      exact Or.inr ⟨y, List.mem_cons_of_mem _ hy, hsl, hsvc⟩

/-- Replaying the whole list of serialized new records. -/
theorem replayNewRecs {c : Ctx} {s : AMState} (hs : InvB b c s) :
    ∀ (es : List Entry) (t : AMState),
      t.key = s.key → InvB b c t →
      (∀ e ∈ es, e ∈ s.entries ∧ e.fAlias = false ∧ e.fInTried = false) →
      es.Pairwise (fun a b => a.svc ≠ b.svc) →
      (∀ e ∈ es, countAddr t e.svc = 0) →
      (∀ e ∈ es, ∀ y ∈ e :: aliasEnts s e.svc, ∀ x ∈ t.entries, slotOf x ≠ slotOf y) →
      (let R := es.foldl (fun u e => (e.source :: aliasSources s e.svc).foldl
          (fun u2 src => insertRead c u2 (entryOfSer (serEntryOf e) false src)) u) t
       R.key = s.key ∧ InvB b c R ∧
       (canonOf R).Perm (canonOf t ++ es) ∧
       (aliasPairsOf R).Perm (aliasPairsOf t ++
         (es.map fun e => (aliasEnts s e.svc).map fun y => (e.svc, y.source)).flatten) ∧
       R.nNew = t.nNew + es.length ∧ R.nTried = t.nTried ∧
       (∀ x ∈ R.entries, x ∈ t.entries ∨
         ∃ e ∈ es, ∃ y ∈ e :: aliasEnts s e.svc, slotOf x = slotOf y ∧ x.svc = e.svc))
  | [], t, hk, hi, _, _, _, _ => by
    refine ⟨hk, hi, by simp, by simp, by simp, rfl, fun x hx => Or.inl hx⟩
  | e :: es, t, hk, hi, hes, hpw, hcnt, hfree => by
    obtain ⟨hem, hea, het⟩ := hes e (List.mem_cons_self _ _)
    obtain ⟨rk, ri, rc, ra, rnew, rtr, rfr⟩ :=
      replayRecord hs hem hea het t hk hi (hcnt e (List.mem_cons_self _ _))
        (hfree e (List.mem_cons_self _ _))
    rw [List.pairwise_cons] at hpw
    have ih := replayNewRecs hs es
      ((e.source :: aliasSources s e.svc).foldl
        (fun u src => insertRead c u (entryOfSer (serEntryOf e) false src)) t)
      rk ri (fun e' he' => hes e' (List.mem_cons_of_mem _ he')) hpw.2
      (by
        intro e' he'
        rw [countAddr_def, countA_eq_zero]
        intro x hx hq
        cases rfr x hx with
        | inl h1 =>
          have h2 := hcnt e' (List.mem_cons_of_mem _ he')
          rw [countAddr_def, countA_eq_zero] at h2
          exact h2 x h1 hq
        | inr h2 =>
          obtain ⟨y, _, _, hsvc⟩ := h2
          exact hpw.1 e' he' (by rw [← hsvc, hq])
      )
      (by
        intro e' he' y' hy' x hx
        obtain ⟨hem', _, _⟩ := hes e' (List.mem_cons_of_mem _ he')
        obtain ⟨hy'm, hy'svc⟩ := plan_mem hem' hy'
        cases rfr x hx with
        | inl h1 => exact hfree e' (List.mem_cons_of_mem _ he') y' hy' x h1
        | inr h2 =>
          obtain ⟨y, hy, hsl, hsvc⟩ := h2
          obtain ⟨hym, hysvc⟩ := plan_mem hem hy
          rw [hsl]
          refine slotU_ne hs.slotU hym hy'm ?_
          intro hq
          rw [hq] at hysvc
          rw [hy'svc] at hysvc
          exact hpw.1 e' he' hysvc.symm
      )
    dsimp only at ih ⊢
    obtain ⟨ik, ii, ic, ia, inew, itr, ifr⟩ := ih
    rw [List.foldl_cons]
    refine ⟨ik, ii, ?_, ?_, ?_, ?_, ?_⟩
    · refine ic.trans ?_
      rw [rc]
      rw [show (e :: canonOf t) ++ es = e :: (canonOf t ++ es) from rfl]
      exact (@List.perm_middle _ e (canonOf t) es).symm
    · refine ia.trans ?_
      rw [List.map_cons, List.flatten_cons]
      refine (ra.append_right _).trans ?_
      rw [List.append_assoc]
    · rw [inew, rnew, List.length_cons]
      push_cast
      ring
    · rw [itr, rtr]
    · intro x hx
      cases ifr x hx with
      | inl h1 =>
        cases rfr x h1 with
        | inl h2 => exact Or.inl h2
        | inr h2 =>
          obtain ⟨y, hy, hsl, hsvc⟩ := h2
          exact Or.inr ⟨e, List.mem_cons_self _ _, y, hy, hsl, hsvc⟩
      | inr h2 =>
        obtain ⟨e', he', y, hy, hsl, hsvc⟩ := h2
        exact Or.inr ⟨e', List.mem_cons_of_mem _ he', y, hy, hsl, hsvc⟩

/-- Replaying the serialized tried records. -/
theorem replayTried {c : Ctx} {s : AMState} (hs : InvB b c s) :
    ∀ (ts : List Entry) (t : AMState),
      t.key = s.key → InvB b c t →
      (∀ e ∈ ts, e ∈ s.entries ∧ e.fAlias = false ∧ e.fInTried = true) →
      ts.Pairwise (fun a b => a.svc ≠ b.svc) →
      (∀ e ∈ ts, countAddr t e.svc = 0) →
      (∀ e ∈ ts, ∀ x ∈ t.entries, slotOf x ≠ slotOf e) →
      (let R := ts.foldl (fun u e => insertRead c u (entryOfSer (serEntryOf e) true e.source)) t
       R.key = s.key ∧ InvB b c R ∧
       (canonOf R).Perm (canonOf t ++ ts) ∧
       aliasPairsOf R = aliasPairsOf t ∧
       R.nNew = t.nNew ∧ R.nTried = t.nTried + ts.length)
  | [], t, hk, hi, _, _, _, _ => by
    refine ⟨hk, hi, by simp, rfl, rfl, by simp⟩
  | e :: ts, t, hk, hi, hes, hpw, hcnt, hfree => by
    obtain ⟨hem, hea, het⟩ := hes e (List.mem_cons_self _ _)
    rw [List.pairwise_cons] at hpw
    have hfix : rebucket c s.key e = e := hs.buckOk e hem
    have hrec : ({ rebucket c t.key (entryOfSer (serEntryOf e) true e.source) with
        fAlias := false } : Entry) = e := by
      have h0 := reconstruct_canon (c := c) hfix hea
      rw [het] at h0
      rw [hk]
      exact h0
    have hslotE : slotOf (rebucket c t.key (entryOfSer (serEntryOf e) true e.source)) =
        slotOf e := by
      have h1 : slotOf ({ rebucket c t.key (entryOfSer (serEntryOf e) true e.source) with
          fAlias := false } : Entry) =
          slotOf (rebucket c t.key (entryOfSer (serEntryOf e) true e.source)) := by
        unfold slotOf
        simp
      rw [← h1, hrec]
    have hEsvc : (rebucket c t.key (entryOfSer (serEntryOf e) true e.source)).svc = e.svc := by
      simp [serEntryOf]
    have hstep : insertRead c t (entryOfSer (serEntryOf e) true e.source) =
        insertEntry c t (rebucket c t.key (entryOfSer (serEntryOf e) true e.source)) false := by
      unfold insertRead
      dsimp only
      have hfsn : findSlot t
          ((rebucket c t.key (entryOfSer (serEntryOf e) true e.source)).fInTried,
           (rebucket c t.key (entryOfSer (serEntryOf e) true e.source)).mBucket,
           (rebucket c t.key (entryOfSer (serEntryOf e) true e.source)).mBucketpos) = none := by
        refine findSlot_none_of ?_
        intro x hx
        show slotOf x ≠ slotOf (rebucket c t.key (entryOfSer (serEntryOf e) true e.source))
        rw [hslotE]
        exact hfree e (List.mem_cons_self _ _) x hx
      rw [hfsn]
      have hany : (t.entries.any fun x =>
          x.svc == (rebucket c t.key (entryOfSer (serEntryOf e) true e.source)).svc) = false := by
        rw [hEsvc]
        exact any_svc_false (hcnt e (List.mem_cons_self _ _))
      rw [hany, if_neg Bool.false_ne_true]
    have hEfix : rebucket c t.key
        (rebucket c t.key (entryOfSer (serEntryOf e) true e.source)) =
        rebucket c t.key (entryOfSer (serEntryOf e) true e.source) := rebucket_idem c t.key _
    have hinv0 : InvB b c (insertEntry c t
        (rebucket c t.key (entryOfSer (serEntryOf e) true e.source)) false) := by
      refine insertEntry_inv_canon hi ?_ ?_
      · intro x hx
        rw [hEfix, hslotE]
        exact hfree e (List.mem_cons_self _ _) x hx
      · rw [hEsvc]
        exact hcnt e (List.mem_cons_self _ _)
    have hu0e : (insertEntry c t
        (rebucket c t.key (entryOfSer (serEntryOf e) true e.source)) false).entries =
        e :: t.entries := by
      rw [insertEntry_entries, hEfix, hrec]
    have ih := replayTried hs ts
      (insertEntry c t (rebucket c t.key (entryOfSer (serEntryOf e) true e.source)) false)
      (by rw [insertEntry_key, hk]) hinv0
      (fun e' he' => hes e' (List.mem_cons_of_mem _ he'))
      hpw.2
      (by
        intro e' he'
        rw [countAddr_def, hu0e, countA_cons, ← countAddr_def,
          hcnt e' (List.mem_cons_of_mem _ he'), if_neg (hpw.1 e' he')]
      )
      (by
        intro e' he' x hx
        rw [hu0e] at hx
        obtain ⟨hem', _, _⟩ := hes e' (List.mem_cons_of_mem _ he')
        cases List.mem_cons.mp hx with
        | inl h1 =>
          rw [h1]
          refine slotU_ne hs.slotU hem hem' ?_
          intro hq
          exact hpw.1 e' he' (by rw [hq])
        | inr h2 => exact hfree e' (List.mem_cons_of_mem _ he') x h2
      )
    dsimp only at ih ⊢
    obtain ⟨ik, ii, ic, ia, inew, itr⟩ := ih
    rw [List.foldl_cons, hstep]
    refine ⟨ik, ii, ?_, ?_, ?_, ?_⟩
    · refine ic.trans ?_
      have hc0 : canonOf (insertEntry c t
          (rebucket c t.key (entryOfSer (serEntryOf e) true e.source)) false) =
          e :: canonOf t := by
        unfold canonOf
        rw [hu0e, List.filter_cons_of_pos (by simp [hea])]
      rw [hc0]
      rw [show (e :: canonOf t) ++ ts = e :: (canonOf t ++ ts) from rfl]
      exact (@List.perm_middle _ e (canonOf t) ts).symm
    · rw [ia]
      unfold aliasPairsOf
      rw [hu0e, List.filter_cons_of_neg (by simp [hea])]
    · rw [inew, insertEntry_eq]
      dsimp only
      rw [show (rebucket c t.key (entryOfSer (serEntryOf e) true e.source)).fInTried =
        true from by simp]
      simp
    · rw [itr, insertEntry_eq]
      dsimp only
      rw [show (rebucket c t.key (entryOfSer (serEntryOf e) true e.source)).fInTried =
        true from by simp, List.length_cons]
      simp
      omega

/-- The replayed alias pairs are exactly the alias pairs of the source
state. -/
theorem aliasFlatten_perm {c : Ctx} {s : AMState} (hs : InvB b c s) {es : List Entry}
    (hmem : ∀ e, e ∈ es ↔ e ∈ s.entries ∧ e.fAlias = false ∧ e.fInTried = false)
    (hpw : es.Pairwise fun a b => a.svc ≠ b.svc) :
    ((es.map fun e => (aliasEnts s e.svc).map fun y => (e.svc, y.source)).flatten).Perm
      (aliasPairsOf s) := by
  have hsnd : s.entries.Nodup := slotU_nodup hs.slotU
  have hinj : ∀ y1 ∈ s.entries, ∀ y2 ∈ s.entries, y1.svc = y2.svc → y1.source = y2.source →
      y1.fInTried = y2.fInTried → y1 = y2 := by
    intro y1 h1 y2 h2 hsvc hsrc htr
    by_contra hne
    refine slotU_ne hs.slotU h1 h2 hne ?_
    have e1 := hs.buckOk y1 h1
    have e2 := hs.buckOk y2 h2
    rw [← e1, ← e2]
    exact slotOf_rebucket_congr c s.key hsvc hsrc htr
  refine (List.perm_ext_iff_of_nodup ?_ ?_).mpr ?_
  · rw [List.nodup_flatten]
    constructor
    · intro l hl
      rw [List.mem_map] at hl
      obtain ⟨e, hes, rfl⟩ := hl
      refine List.Nodup.map_on ?_ ?_
      · intro x hx y hy hxy
        obtain ⟨hx1, hx2, hx3⟩ := aliasEnts_mem hx
        obtain ⟨hy1, hy2, hy3⟩ := aliasEnts_mem hy
        rw [Prod.mk.injEq] at hxy
        refine hinj x hx1 y hy1 (by rw [hx2, hy2]) hxy.2 ?_
        rw [hs.aliasNew x hx1 hx3, hs.aliasNew y hy1 hy3]
      · exact ((isort_perm addrLe s.entries).nodup_iff.mpr hsnd).filter _
    · rw [List.pairwise_map]
      refine hpw.imp ?_
      intro e1 e2 hne z hz1 hz2
      rw [List.mem_map] at hz1 hz2
      obtain ⟨y1, _, hz1e⟩ := hz1
      obtain ⟨y2, _, hz2e⟩ := hz2
      rw [← hz1e] at hz2e
      rw [Prod.mk.injEq] at hz2e
      exact hne hz2e.1.symm
  · unfold aliasPairsOf
    refine List.Nodup.map_on ?_ (hsnd.filter _)
    intro x hx y hy hxy
    rw [List.mem_filter] at hx hy
    rw [Prod.mk.injEq] at hxy
    refine hinj x hx.1 y hy.1 hxy.1 hxy.2 ?_
    rw [hs.aliasNew x hx.1 (by simpa using hx.2), hs.aliasNew y hy.1 (by simpa using hy.2)]
  · intro z
    rw [List.mem_flatten]
    constructor
    · rintro ⟨l, hl, hz⟩
      rw [List.mem_map] at hl
      obtain ⟨e, hes, rfl⟩ := hl
      rw [List.mem_map] at hz
      obtain ⟨y, hy, rfl⟩ := hz
      obtain ⟨hy1, hy2, hy3⟩ := aliasEnts_mem hy
      unfold aliasPairsOf
      rw [List.mem_map]
      exact ⟨y, List.mem_filter.mpr ⟨hy1, by simpa using hy3⟩, by rw [hy2]⟩
    · intro hz
      unfold aliasPairsOf at hz
      rw [List.mem_map] at hz
      obtain ⟨w, hw, rfl⟩ := hz
      rw [List.mem_filter] at hw
      have hwa : w.fAlias = true := by simpa using hw.2
      obtain ⟨cn, hcnm, q1, q2, q3⟩ := hs.aliasCanon w hw.1 hwa
      have hcn_es : cn ∈ es := (hmem cn).mpr ⟨hcnm, by simpa using q1, q3⟩
      refine ⟨(aliasEnts s cn.svc).map fun y => (cn.svc, y.source), ?_, ?_⟩
      · rw [List.mem_map]
        exact ⟨cn, hcn_es, rfl⟩
      · rw [List.mem_map]
        exact ⟨w, mem_aliasEnts hw.1 q2.symm hwa, by rw [q2]⟩

/-- The round trip: serializing a consistent state and reading the
stream back into a fresh manager succeeds and reproduces the state, up
to the order of the random vector. -/
theorem roundtrip_of_inv {c : Ctx} {s : AMState} (hs : InvB b c s) :
    ∃ t, unserialize c (serialize s) = Except.ok t ∧ equivState t s := by
  have hperm : (byBucketSorted s.entries).Perm s.entries :=
    isort_perm bucketLe s.entries
  have hsnd : s.entries.Nodup := slotU_nodup hs.slotU
  have hcanonperm : ((byBucketSorted s.entries).filter fun e => !e.fAlias).Perm
      (s.entries.filter fun e => !e.fAlias) := hperm.filter _
  have hcanonpw : ((byBucketSorted s.entries).filter fun e => !e.fAlias).Pairwise
      (fun a b => a.svc ≠ b.svc) :=
    (hcanonperm.pairwise_iff (fun hr => hr.symm)).mpr hs.canonU
  -- the serialized canonical lists
  have hesmem : ∀ e, e ∈ (((byBucketSorted s.entries).filter fun e => !e.fAlias).filter
      fun e => !e.fInTried) ↔ e ∈ s.entries ∧ e.fAlias = false ∧ e.fInTried = false := by
    intro e
    rw [List.mem_filter, List.mem_filter]
    constructor
    · rintro ⟨⟨h1, h2⟩, h3⟩
      exact ⟨hperm.subset h1, by simpa using h2, by simpa using h3⟩
    · rintro ⟨h1, h2, h3⟩
      exact ⟨⟨hperm.symm.subset h1, by simp [h2]⟩, by simp [h3]⟩
  have htsmem : ∀ e, e ∈ (((byBucketSorted s.entries).filter fun e => !e.fAlias).filter
      fun e => e.fInTried) ↔ e ∈ s.entries ∧ e.fAlias = false ∧ e.fInTried = true := by
    intro e
    rw [List.mem_filter, List.mem_filter]
    constructor
    · rintro ⟨⟨h1, h2⟩, h3⟩
      exact ⟨hperm.subset h1, by simpa using h2, h3⟩
    · rintro ⟨h1, h2, h3⟩
      exact ⟨⟨hperm.symm.subset h1, by simp [h2]⟩, h3⟩
  have hespw : (((byBucketSorted s.entries).filter fun e => !e.fAlias).filter
      fun e => !e.fInTried).Pairwise (fun a b => a.svc ≠ b.svc) :=
    hcanonpw.sublist (List.filter_sublist _)
  have htspw : (((byBucketSorted s.entries).filter fun e => !e.fAlias).filter
      fun e => e.fInTried).Pairwise (fun a b => a.svc ≠ b.svc) :=
    hcanonpw.sublist (List.filter_sublist _)
  -- phase 1: the new records
  have hnew := replayNewRecs hs
    (((byBucketSorted s.entries).filter fun e => !e.fAlias).filter fun e => !e.fInTried)
    (AMState.empty s.key) rfl (inv_empty c s.key)
    (fun e he => (hesmem e).mp he) hespw
    (fun e _ => rfl)
    (fun e _ y _ x hx => absurd hx (List.not_mem_nil x))
  dsimp only at hnew
  obtain ⟨nk, ni, nc, na, nnew, ntr, nfr⟩ := hnew
  -- phase 2: the tried records
  have htried := replayTried hs
    (((byBucketSorted s.entries).filter fun e => !e.fAlias).filter fun e => e.fInTried)
    _ nk ni
    (fun e he => (htsmem e).mp he) htspw
    (by
      intro tc htc
      obtain ⟨htc1, htc2, htc3⟩ := (htsmem tc).mp htc
      rw [countAddr_def, countA_eq_zero]
      intro x hx hq
      cases nfr x hx with
      | inl h1 => exact absurd h1 (List.not_mem_nil x)
      | inr h2 =>
        obtain ⟨e, he, y, hy, hsl, hsvc⟩ := h2
        obtain ⟨he1, he2, he3⟩ := (hesmem e).mp he
        have hne : e ≠ tc := by
          intro hq2
          rw [hq2, htc3] at he3
          cases he3
        exact canonU_ne hs.canonU he1 htc1 he2 htc2 hne (by rw [← hsvc, hq])
    )
    (by
      intro tc htc x hx
      obtain ⟨htc1, htc2, htc3⟩ := (htsmem tc).mp htc
      cases nfr x hx with
      | inl h1 => exact absurd h1 (List.not_mem_nil x)
      | inr h2 =>
        obtain ⟨e, he, y, hy, hsl, hsvc⟩ := h2
        obtain ⟨he1, he2, he3⟩ := (hesmem e).mp he
        obtain ⟨hy1, hy2⟩ := plan_mem he1 hy
        rw [hsl]
        refine slotU_ne hs.slotU hy1 htc1 ?_
        intro hq
        rw [hq] at hy2
        have hne : e ≠ tc := by
          intro hq2
          rw [hq2, htc3] at he3
          cases he3
        exact canonU_ne hs.canonU he1 htc1 he2 htc2 hne hy2.symm
    )
  dsimp only at htried
  obtain ⟨tk, ti, tc2, ta2, tnew, ttr⟩ := htried
  -- the byte-level gate and the replay folds
  have hok : unserialize c (serialize s) = Except.ok
      ((((byBucketSorted s.entries).filter fun e => !e.fAlias).filter
          fun e => e.fInTried).foldl
        (fun u e => insertRead c u (entryOfSer (serEntryOf e) true e.source))
        ((((byBucketSorted s.entries).filter fun e => !e.fAlias).filter
            fun e => !e.fInTried).foldl
          (fun u e => (e.source :: aliasSources s e.svc).foldl
            (fun u2 src => insertRead c u2 (entryOfSer (serEntryOf e) false src)) u)
          (AMState.empty s.key))) := by
    unfold unserialize serialize
    dsimp only
    rw [if_neg (by decide)]
    rw [List.foldl_map, List.foldl_map]
    dsimp only
    rw [if_neg (fun hq => hq (checkAddrman_zero_of_inv ti))]
  refine ⟨_, hok, ?_, ?_, ?_, ?_⟩
  -- canonOf
  · refine tc2.trans ?_
    refine (nc.append_right _).trans ?_
    have h0 : canonOf (AMState.empty s.key) = [] := rfl
    rw [h0, List.nil_append]
    have hsplit := List.filter_append_perm (fun e => !e.fInTried)
      ((byBucketSorted s.entries).filter fun e => !e.fAlias)
    have hcng : (((byBucketSorted s.entries).filter fun e => !e.fAlias).filter
        fun x => !!x.fInTried) = (((byBucketSorted s.entries).filter fun e => !e.fAlias).filter
        fun e => e.fInTried) := by
      refine List.filter_congr ?_
      intro x _
      simp
    rw [hcng] at hsplit
    refine hsplit.trans ?_
    exact hcanonperm
  -- aliasPairsOf
  · rw [ta2]
    refine na.trans ?_
    have h0 : aliasPairsOf (AMState.empty s.key) = [] := rfl
    rw [h0, List.nil_append]
    exact aliasFlatten_perm hs hesmem hespw
  -- nNew
  · rw [tnew, nnew]
    have hlen : (((byBucketSorted s.entries).filter fun e => !e.fAlias).filter
        fun e => !e.fInTried).length = newCnt s.entries := by
      rw [List.filter_filter]
      unfold newCnt
      rw [show (((byBucketSorted s.entries).filter
          fun a => (fun e => !e.fInTried) a && (fun e => !e.fAlias) a)) =
        ((byBucketSorted s.entries).filter fun e => !e.fAlias && !e.fInTried) from
        List.filter_congr (fun x _ => Bool.and_comm _ _)]
      exact lenf_perm _ hperm
    rw [hlen, hs.countersOk.1]
    show (0 : Int) + _ = _
    omega
  -- nTried
  · rw [ttr, ntr]
    have hlen : (((byBucketSorted s.entries).filter fun e => !e.fAlias).filter
        fun e => e.fInTried).length = triedCnt s.entries := by
      rw [List.filter_filter]
      unfold triedCnt
      rw [show (((byBucketSorted s.entries).filter
          fun a => (fun e => e.fInTried) a && (fun e => !e.fAlias) a)) =
        ((byBucketSorted s.entries).filter fun e => !e.fAlias && e.fInTried) from
        List.filter_congr (fun x _ => Bool.and_comm _ _)]
      exact lenf_perm _ hperm
    rw [hlen, hs.countersOk.2]
    show (0 : Int) + _ = _
    omega

/-! ### What a passed `CheckAddrman` guarantees -/

/-- Per-entry facts from a clean ByAddress pass: every entry is at its
recomputed bucket (-5), aliases are not tried (-1), and each canonical
address occurs exactly once in `vRandom` (-23). -/
theorem checkAddrPass_facts {c : Ctx} {st : AMState} :
    ∀ (l : List Entry) (prev : Option Entry), checkAddrPass c st prev l = none →
      ∀ x ∈ l, rebucket c st.key x = x ∧ (x.fAlias = true → x.fInTried = false) ∧
        (x.fAlias = false → st.vRandom.count x.svc = 1)
  | [], _, _, x, hx => absurd hx (List.not_mem_nil x)
  | e :: rest, prev, h, x, hx => by
    unfold checkAddrPass at h
    split at h
    next hfa =>
      split at h
      · cases h
      next htr =>
        split at h
        · cases h
        next p =>
          split at h
          · cases h
          next hps =>
            split at h
            · cases h
            next hrb =>
              cases List.mem_cons.mp hx with
              | inl h1 =>
                subst h1
                exact ⟨not_not.mp hrb, fun _ => Bool.eq_false_iff.mpr htr,
                  fun hq => nomatch hq.symm.trans hfa⟩
              | inr h2 => exact checkAddrPass_facts rest (some e) h x h2
    next hfa =>
      split at h
      · cases h
      next hcnt =>
        dsimp only at h
        split at h
        · cases h
        next hdup =>
          split at h
          · cases h
          next hrb =>
            cases List.mem_cons.mp hx with
            | inl h1 =>
              subst h1
              exact ⟨not_not.mp hrb, fun hq => absurd hq hfa, fun _ => not_not.mp hcnt⟩
            | inr h2 => exact checkAddrPass_facts rest (some e) h x h2

/-- A clean pass over a ByAddress-sorted list has pairwise-distinct
canonical addresses (the -3 duplicate check plus sortedness). -/
theorem checkAddrPass_canonU {c : Ctx} {st : AMState} :
    ∀ (l : List Entry) (prev : Option Entry),
      l.Pairwise (fun x y => addrLe x y = true) →
      checkAddrPass c st prev l = none →
      (∀ p, prev = some p → ∀ x ∈ l, p.svc ≤ x.svc) →
      ((l.filter fun e => !e.fAlias).Pairwise fun x y => x.svc ≠ y.svc) ∧
      (∀ p, prev = some p → ∀ x ∈ l, x.fAlias = false → p.svc ≠ x.svc)
  | [], _, _, _, _ =>
    ⟨List.Pairwise.nil, fun _ _ x hx => absurd hx (List.not_mem_nil x)⟩
  | e :: rest, prev, hsort, h, hple => by
    rw [List.pairwise_cons] at hsort
    have hrle : ∀ y ∈ rest, e.svc ≤ y.svc := fun y hy => addrLe_svc_le (hsort.1 y hy)
    unfold checkAddrPass at h
    split at h
    next hfa =>
      split at h
      · cases h
      next htr =>
        split at h
        · cases h
        next p =>
          split at h
          · cases h
          next hps =>
            split at h
            · cases h
            next hrb =>
              have hpe : p.svc = e.svc := not_not.mp hps
              have ih := checkAddrPass_canonU rest (some e) hsort.2 h
                (fun q hq x hx => by
                  injection hq with hq2
                  subst hq2
                  exact hrle x hx)
              refine ⟨?_, ?_⟩
              · rw [List.filter_cons_of_neg (by simp [hfa])]
                exact ih.1
              · intro q hq x hx hxfa
                injection hq with hq2
                subst hq2
                cases List.mem_cons.mp hx with
                | inl h1 =>
                  subst h1
                  exact absurd (hxfa.symm.trans hfa) (by simp)
                | inr h2 =>
                  rw [hpe]
                  exact ih.2 e rfl x h2 hxfa
    next hfa =>
      split at h
      · cases h
      next hcnt =>
        dsimp only at h
        split at h
        · cases h
        next hdup =>
          split at h
          · cases h
          next hrb =>
            have ih := checkAddrPass_canonU rest (some e) hsort.2 h
              (fun q hq x hx => by
                injection hq with hq2
                subst hq2
                exact hrle x hx)
            have hefa : e.fAlias = false := Bool.eq_false_iff.mpr hfa
            refine ⟨?_, ?_⟩
            · rw [List.filter_cons_of_pos (by simp [hefa])]
              rw [List.pairwise_cons]
              refine ⟨?_, ih.1⟩
              intro y hy
              have hy2 := List.mem_filter.mp hy
              exact ih.2 e rfl y hy2.1 (by simpa using hy2.2)
            · intro q hq x hx hxfa
              have hqe : q.svc ≠ e.svc := by
                rw [hq] at hdup
                simpa using hdup
              cases List.mem_cons.mp hx with
              | inl h1 =>
                subst h1
                exact hqe
              | inr h2 =>
                have hqle : q.svc ≤ e.svc := hple q hq e (List.mem_cons_self _ _)
                have hex : e.svc ≤ x.svc := hrle x h2
                omega

/-- A state accepted by the multi-index `CheckAddrman` satisfies every
invariant component that the check tests: correct buckets, aliases only
in the new table, unique canonical entries, correct counters, and a
random vector that enumerates the canonical addresses.  (The check does
**not** test the reference-count bound, nor that a tried entry is alone
for its address — those hold for deserialized states only by
construction of the read loop.) -/
theorem check_zero_parts {c : Ctx} {st : AMState} (h : checkAddrman c st = 0) :
    BuckOk c st ∧ AliasNew st ∧ CanonU st ∧ CountersOk st ∧ VRandOk st := by
  have hpass : checkAddrPass c st none (byAddressSorted st.entries) = none := by
    cases hq : checkAddrPass c st none (byAddressSorted st.entries) with
    | none => rfl
    | some k =>
      unfold checkAddrman at h
      rw [hq] at h
      exact absurd h (checkAddrPass_ne_zero _ _ _ hq)
  have hmem : ∀ e ∈ st.entries, e ∈ byAddressSorted st.entries := fun e he =>
    (isort_perm addrLe st.entries).mem_iff.mpr he
  have hfacts := checkAddrPass_facts (byAddressSorted st.entries) none hpass
  have hCU : CanonU st := by
    have h1 := (checkAddrPass_canonU (byAddressSorted st.entries) none
      (pairwise_isort addrLe_trans addrLe_total st.entries) hpass
      (fun p hp => nomatch hp)).1
    unfold CanonU
    exact (((isort_perm addrLe st.entries).filter _).pairwise_iff
      (fun hr => hr.symm)).mp h1
  unfold checkAddrman at h
  rw [hpass] at h
  dsimp only at h
  split at h
  · omega
  next h6 =>
    split at h
    · omega
    next h7 =>
      split at h
      · omega
      next h8 =>
        push_neg at h6 h7 h8
        refine ⟨?_, ?_, hCU, ⟨h6.symm, h7.symm⟩, ?_⟩
        · intro e he
          exact (hfacts e (hmem e he)).1
        · intro e he ha
          exact (hfacts e (hmem e he)).2.1 ha
        · have hnd : (canonSvcs st.entries).Nodup := List.pairwise_map.mpr hCU
          have hlen : st.vRandom.length = (canonSvcs st.entries).length := by
            unfold canonSvcs
            rw [List.length_map, ← cnt_split st.entries]
            exact h8.symm
          have hsub : (canonSvcs st.entries).Subperm st.vRandom := by
            rw [List.subperm_ext_iff]
            intro a ha
            have hone : st.vRandom.count a = 1 := by
              obtain ⟨e, hef, hesvc⟩ := List.mem_map.mp ha
              have hef2 := List.mem_filter.mp hef
              have h3 := (hfacts e (hmem e hef2.1)).2.2 (by simpa using hef2.2)
              rw [← hesvc]
              exact h3
            rw [hone]
            exact List.nodup_iff_count_le_one.mp hnd a
          exact (hsub.perm_of_length_le (le_of_eq hlen)).symm

/-! ### The read loop keeps the alias and tried structure -/

/-- The `EraseInner` call on an arbitrary member of a collision-free state keeps
the alias/canonical structure and the tried-solo property, and lowers
the reference count of the erased address by exactly one.  (Unlike the
full invariant-preservation lemma this needs no slot uniqueness: the
read loop of `Unserialize` calls `EraseInner` on states whose slot
structure is only validated afterwards.) -/
theorem eraseInner_weak {c : Ctx} {st : AMState} {occ : Entry}
    (hm : occ ∈ st.entries) (hcol : st.collisions = [])
    (hac : AliasCanon st) (hts : TriedSolo st) :
    AliasCanon (eraseInner c st occ) ∧ TriedSolo (eraseInner c st occ) ∧
    (eraseInner c st occ).collisions = [] ∧
    (∀ e ∈ (eraseInner c st occ).entries, ∃ e0 ∈ st.entries,
      e.fInTried = e0.fInTried ∧ e.fAlias = e0.fAlias ∧ e.svc = e0.svc) ∧
    (∀ a, countAddr (eraseInner c st occ) a =
      countAddr st a - (if occ.svc = a then 1 else 0)) := by
  by_cases hfa : occ.fAlias = true
  · rw [eraseInner_alias_eq c st hfa, eraseRaw_eq]
    refine ⟨?_, ?_, ?_, ?_, ?_⟩
    · intro e hme hea
      dsimp only at hme ⊢
      have hml := (List.erase_sublist occ st.entries).subset hme
      obtain ⟨cn, hcn, p1, p2, p3⟩ := hac e hml hea
      have hcne : cn ≠ occ := by
        intro hq
        rw [hq, hfa] at p1
        exact nomatch p1
      exact ⟨cn, (List.mem_erase_of_ne hcne).mpr hcn, p1, p2, p3⟩
    · intro e hme htr
      dsimp only at hme ⊢
      have hml := (List.erase_sublist occ st.entries).subset hme
      have h1 := hts e hml htr
      rw [countAddr_def] at h1
      have hpos : 0 < countA (st.entries.erase occ) e.svc := countA_pos_of_mem hme
      rw [countA_erase hm] at hpos
      show countA (st.entries.erase occ) e.svc = 1
      rw [countA_erase hm]
      by_cases hq : occ.svc = e.svc
      · rw [if_pos hq] at hpos ⊢
        omega
      · rw [if_neg hq] at hpos ⊢
        omega
    · dsimp only
      rw [hcol]
      exact List.erase_nil _
    · intro e hme
      dsimp only at hme
      exact ⟨e, (List.erase_sublist occ st.entries).subset hme, rfl, rfl, rfl⟩
    · intro a
      show countA (st.entries.erase occ) a = countAddr st a - _
      rw [countA_erase hm, countAddr_def]
  · have hfa' : occ.fAlias = false := Bool.eq_false_iff.mpr hfa
    cases hal : findAlias st occ.svc with
    | none =>
      rw [eraseInner_noalias_eq c st hfa' hal, eraseRaw_eq]
      refine ⟨?_, ?_, ?_, ?_, ?_⟩
      · intro e hme hea
        dsimp only at hme ⊢
        have hml := (List.erase_sublist occ st.entries).subset hme
        obtain ⟨cn, hcn, p1, p2, p3⟩ := hac e hml hea
        have hcne : cn ≠ occ := by
          intro hq
          have hesvc : e.svc = occ.svc := by rw [← p2, hq]
          have := findAlias_none hal e hml hesvc
          rw [this] at hea
          exact nomatch hea
        exact ⟨cn, (List.mem_erase_of_ne hcne).mpr hcn, p1, p2, p3⟩
      · intro e hme htr
        dsimp only at hme ⊢
        have hml := (List.erase_sublist occ st.entries).subset hme
        have h1 := hts e hml htr
        rw [countAddr_def] at h1
        have hpos : 0 < countA (st.entries.erase occ) e.svc := countA_pos_of_mem hme
        rw [countA_erase hm] at hpos
        show countA (st.entries.erase occ) e.svc = 1
        rw [countA_erase hm]
        by_cases hq : occ.svc = e.svc
        · rw [if_pos hq] at hpos ⊢
          omega
        · rw [if_neg hq] at hpos ⊢
          omega
      · dsimp only
        rw [hcol]
        exact List.erase_nil _
      · intro e hme
        dsimp only at hme
        exact ⟨e, (List.erase_sublist occ st.entries).subset hme, rfl, rfl, rfl⟩
      · intro a
        show countA (st.entries.erase occ) a = countAddr st a - _
        rw [countA_erase hm, countAddr_def]
    | some al =>
      obtain ⟨halm, halsvc, halfa⟩ := findAlias_some hal
      have hno : (occ.svc, true) ∉ st.collisions := by
        rw [hcol]
        exact List.not_mem_nil _
      rw [eraseInner_redirect_state c st hfa' hal hno]
      have halne : al ≠ occ := by
        intro hq
        rw [hq, hfa'] at halfa
        exact nomatch halfa
      have hoccT : occ.fInTried = false := by
        by_contra hT
        have hT2 : occ.fInTried = true := by
          revert hT
          cases occ.fInTried <;> simp
        have h2 := hts occ hm hT2
        rw [countAddr_def] at h2
        have h3 := countA_two hm halm halne rfl halsvc
        omega
      set E : Entry := rebucket c st.key { occ with source := al.source } with hE
      have hEsvc : E.svc = occ.svc := by rw [hE]; simp
      have hEfa : E.fAlias = false := by rw [hE]; simp [hfa']
      have hET : E.fInTried = false := by rw [hE]; simp [hoccT]
      have hperm : (replaceFirst st.entries occ E).Perm (E :: st.entries.erase occ) :=
        replaceFirst_perm hm E
      have halm2 : al ∈ st.entries.erase occ := (List.mem_erase_of_ne halne).mpr halm
      have halm3 : al ∈ replaceFirst st.entries occ E :=
        hperm.mem_iff.mpr (List.mem_cons_of_mem _ halm2)
      have hcount : ∀ a, countA ((replaceFirst st.entries occ E).erase al) a =
          countA st.entries a - (if occ.svc = a then 1 else 0) := by
        intro a
        rw [countA_erase halm3, countA_perm hperm a, countA_cons, countA_erase hm,
          hEsvc, halsvc]
        have hpos := countA_pos_of_mem hm
        by_cases hq : occ.svc = a
        · rw [if_pos hq]
          rw [hq] at hpos
          omega
        · rw [if_neg hq]
          omega
      have hmemc : ∀ e, e ∈ (replaceFirst st.entries occ E).erase al →
          e = E ∨ e ∈ st.entries.erase occ := by
        intro e he
        have h1 := (List.erase_sublist al _).subset he
        exact List.mem_cons.mp (hperm.mem_iff.mp h1)
      refine ⟨?_, ?_, ?_, ?_, ?_⟩
      · intro e hme hea
        dsimp only at hme ⊢
        cases hmemc e hme with
        | inl h1 =>
          rw [h1, hEfa] at hea
          exact nomatch hea
        | inr h2 =>
          have hml := (List.erase_sublist occ st.entries).subset h2
          obtain ⟨cn, hcn, p1, p2, p3⟩ := hac e hml hea
          by_cases hcq : cn = occ
          · refine ⟨E, ?_, by simp [hEfa], ?_, hET⟩
            · refine (List.mem_erase_of_ne ?_).mpr
                (hperm.mem_iff.mpr (List.mem_cons_self _ _))
              intro hq
              rw [← hq, hEfa] at halfa
              exact nomatch halfa
            · rw [hEsvc, ← hcq]
              exact p2
          · refine ⟨cn, ?_, p1, p2, p3⟩
            have hcn2 : cn ∈ st.entries.erase occ := (List.mem_erase_of_ne hcq).mpr hcn
            have hcnal : cn ≠ al := by
              intro hq
              rw [hq, halfa] at p1
              exact nomatch p1
            exact (List.mem_erase_of_ne hcnal).mpr
              (hperm.mem_iff.mpr (List.mem_cons_of_mem _ hcn2))
      · intro e hme htr
        dsimp only at hme ⊢
        cases hmemc e hme with
        | inl h1 =>
          rw [h1, hET] at htr
          exact nomatch htr
        | inr h2 =>
          have hml := (List.erase_sublist occ st.entries).subset h2
          have h1 := hts e hml htr
          rw [countAddr_def] at h1
          show countA ((replaceFirst st.entries occ E).erase al) e.svc = 1
          rw [hcount e.svc]
          have hq : occ.svc ≠ e.svc := by
            intro hq
            have h3 := countA_two hm halm halne rfl halsvc
            rw [hq] at h3
            omega
          rw [if_neg hq]
          omega
      · dsimp only
        exact hcol
      · intro e hme
        dsimp only at hme
        cases hmemc e hme with
        | inl h1 =>
          refine ⟨occ, hm, ?_, ?_, ?_⟩
          · rw [h1, hE]
            simp
          · rw [h1, hEfa, hfa']
          · rw [h1]
            exact hEsvc
        | inr h2 =>
          exact ⟨e, (List.erase_sublist occ st.entries).subset h2, rfl, rfl, rfl⟩
      · intro a
        show countA ((replaceFirst st.entries occ E).erase al) a = countAddr st a - _
        rw [hcount a, countAddr_def]

/-- The erase-everything loop of the tried-record branch, without slot
uniqueness: the address ends with no references, the structure is kept,
and no reference count grows. -/
theorem eraseAllAddr_weak {c : Ctx} :
    ∀ (fuel : Nat) (st : AMState) (a : Nat),
      st.collisions = [] → AliasCanon st → TriedSolo st → countAddr st a ≤ fuel →
      (eraseAllAddr c fuel st a).collisions = [] ∧
      AliasCanon (eraseAllAddr c fuel st a) ∧ TriedSolo (eraseAllAddr c fuel st a) ∧
      countAddr (eraseAllAddr c fuel st a) a = 0 ∧
      (∀ e ∈ (eraseAllAddr c fuel st a).entries, ∃ e0 ∈ st.entries,
        e.fInTried = e0.fInTried ∧ e.fAlias = e0.fAlias ∧ e.svc = e0.svc) ∧
      (∀ a2, countAddr (eraseAllAddr c fuel st a) a2 ≤ countAddr st a2)
  | 0, st, a, hcol, hac, hts, hfuel => by
    unfold eraseAllAddr
    exact ⟨hcol, hac, hts, Nat.le_zero.mp hfuel,
      fun e he => ⟨e, he, rfl, rfl, rfl⟩, fun a2 => Nat.le_refl _⟩
  | fuel + 1, st, a, hcol, hac, hts, hfuel => by
    unfold eraseAllAddr
    cases hfc : findCanonical st a with
    | some e =>
      obtain ⟨hem, hesvc, _⟩ := findCanonical_some hfc
      obtain ⟨w1, w2, w3, w4, w5⟩ := eraseInner_weak hem hcol hac hts
      have hcnt : countAddr (eraseInner c st e) a = countAddr st a - 1 := by
        rw [w5 a, hesvc, if_pos rfl]
      have hpos : 0 < countAddr st a := by
        have h1 := countA_pos_of_mem hem
        rw [hesvc] at h1
        exact h1
      obtain ⟨i1, i2, i3, i4, i5, i6⟩ := eraseAllAddr_weak fuel (eraseInner c st e) a
        w3 w1 w2 (by rw [hcnt]; omega)
      refine ⟨i1, i2, i3, i4, ?_, ?_⟩
      · intro x hx
        obtain ⟨y, hy, q1, q2, q3⟩ := i5 x hx
        obtain ⟨z, hz, r1, r2, r3⟩ := w4 y hy
        exact ⟨z, hz, q1.trans r1, q2.trans r2, q3.trans r3⟩
      · intro a2
        refine (i6 a2).trans ?_
        rw [w5 a2]
        omega
    | none =>
      cases hal : findAlias st a with
      | some e =>
        obtain ⟨hem, hesvc, _⟩ := findAlias_some hal
        obtain ⟨w1, w2, w3, w4, w5⟩ := eraseInner_weak hem hcol hac hts
        have hcnt : countAddr (eraseInner c st e) a = countAddr st a - 1 := by
          rw [w5 a, hesvc, if_pos rfl]
        have hpos : 0 < countAddr st a := by
          have h1 := countA_pos_of_mem hem
          rw [hesvc] at h1
          exact h1
        obtain ⟨i1, i2, i3, i4, i5, i6⟩ := eraseAllAddr_weak fuel (eraseInner c st e) a
          w3 w1 w2 (by rw [hcnt]; omega)
        refine ⟨i1, i2, i3, i4, ?_, ?_⟩
        · intro x hx
          obtain ⟨y, hy, q1, q2, q3⟩ := i5 x hx
          obtain ⟨z, hz, r1, r2, r3⟩ := w4 y hy
          exact ⟨z, hz, q1.trans r1, q2.trans r2, q3.trans r3⟩
        · intro a2
          refine (i6 a2).trans ?_
          rw [w5 a2]
          omega
      | none =>
        have h0 : countAddr st a = 0 := by
          rw [countAddr_def, countA_eq_zero]
          intro x hx hq
          by_cases hxa : x.fAlias = true
          · have h1 := findAlias_none hal x hx hq
            rw [h1] at hxa
            exact nomatch hxa
          · have h1 := findCanonical_none hfc x hx hq
            exact hxa h1
        exact ⟨hcol, hac, hts, h0,
          fun e he => ⟨e, he, rfl, rfl, rfl⟩, fun a2 => Nat.le_refl _⟩

/-- Inserting a canonical entry for an address with no references. -/
theorem insertEntry_weak_canon {c : Ctx} {u : AMState} {E : Entry}
    (hcol : u.collisions = []) (hac : AliasCanon u) (hts : TriedSolo u)
    (hcnt : countAddr u E.svc = 0) :
    AliasCanon (insertEntry c u E false) ∧ TriedSolo (insertEntry c u E false) ∧
    (insertEntry c u E false).collisions = [] ∧
    (∀ e ∈ (insertEntry c u E false).entries,
      e.fInTried = E.fInTried ∨ ∃ e0 ∈ u.entries, e.fInTried = e0.fInTried) := by
  have hent := insertEntry_entries c u E false
  refine ⟨?_, ?_, ?_, ?_⟩
  · intro e hme hea
    rw [hent] at hme
    cases List.mem_cons.mp hme with
    | inl h1 =>
      rw [h1] at hea
      simp at hea
    | inr h2 =>
      obtain ⟨cn, hcn, p1, p2, p3⟩ := hac e h2 hea
      exact ⟨cn, by rw [hent]; exact List.mem_cons_of_mem _ hcn, p1, p2, p3⟩
  · intro e hme htr
    rw [hent] at hme
    show countA (insertEntry c u E false).entries e.svc = 1
    rw [hent, countA_cons]
    rw [countAddr_def] at hcnt
    cases List.mem_cons.mp hme with
    | inl h1 =>
      rw [h1]
      simp only [withAlias_svc, rebucket_svc, if_true]
      omega
    | inr h2 =>
      have h1 := hts e h2 htr
      rw [countAddr_def] at h1
      have hq : ({ rebucket c u.key E with fAlias := false } : Entry).svc ≠ e.svc := by
        simp only [withAlias_svc, rebucket_svc]
        intro hq
        have h3 := countA_pos_of_mem h2
        rw [hq] at hcnt
        omega
      rw [if_neg hq]
      omega
  · rw [insertEntry_collisions]
    exact hcol
  · intro e hme
    rw [hent] at hme
    cases List.mem_cons.mp hme with
    | inl h1 =>
      refine Or.inl ?_
      rw [h1]
      simp
    | inr h2 => exact Or.inr ⟨e, h2, rfl⟩

/-- Inserting an alias for an address already present in an all-new
table. -/
theorem insertEntry_weak_alias {c : Ctx} {u : AMState} {E : Entry}
    (hcol : u.collisions = []) (hac : AliasCanon u)
    (hallnew : ∀ e ∈ u.entries, e.fInTried = false)
    (hET : E.fInTried = false)
    (hwit : ∃ x ∈ u.entries, x.svc = E.svc) :
    AliasCanon (insertEntry c u E true) ∧ TriedSolo (insertEntry c u E true) ∧
    (insertEntry c u E true).collisions = [] ∧
    (∀ e ∈ (insertEntry c u E true).entries,
      e.fInTried = E.fInTried ∨ ∃ e0 ∈ u.entries, e.fInTried = e0.fInTried) := by
  have hent := insertEntry_entries c u E true
  have hcn : ∃ cn ∈ u.entries, (!cn.fAlias) = true ∧ cn.svc = E.svc ∧ cn.fInTried = false := by
    obtain ⟨x, hx, hxsvc⟩ := hwit
    by_cases hxa : x.fAlias = true
    · obtain ⟨cn, hcn, p1, p2, p3⟩ := hac x hx hxa
      exact ⟨cn, hcn, p1, p2.trans hxsvc, p3⟩
    · exact ⟨x, hx, by simp [Bool.eq_false_iff.mpr hxa], hxsvc, hallnew x hx⟩
  obtain ⟨cn, hcnm, p1, p2, p3⟩ := hcn
  refine ⟨?_, ?_, ?_, ?_⟩
  · intro e hme hea
    rw [hent] at hme
    cases List.mem_cons.mp hme with
    | inl h1 =>
      refine ⟨cn, by rw [hent]; exact List.mem_cons_of_mem _ hcnm, p1, ?_, p3⟩
      rw [h1]
      simp only [withAlias_svc, rebucket_svc]
      exact p2
    | inr h2 =>
      obtain ⟨cn2, hcn2, q1, q2, q3⟩ := hac e h2 hea
      exact ⟨cn2, by rw [hent]; exact List.mem_cons_of_mem _ hcn2, q1, q2, q3⟩
  · intro e hme htr
    rw [hent] at hme
    cases List.mem_cons.mp hme with
    | inl h1 =>
      rw [h1] at htr
      simp [hET] at htr
    | inr h2 =>
      have h1 := hallnew e h2
      rw [h1] at htr
      exact nomatch htr
  · rw [insertEntry_collisions]
    exact hcol
  · intro e hme
    rw [hent] at hme
    cases List.mem_cons.mp hme with
    | inl h1 =>
      refine Or.inl ?_
      rw [h1]
      simp
    | inr h2 => exact Or.inr ⟨e, h2, rfl⟩

/-- One iteration of the `Unserialize` read loop keeps the structural
facts, for both new and tried records.  `hph` says that while new
records are read, the table holds no tried entry yet. -/
theorem insertRead_weak {c : Ctx} (st : AMState) (info0 : Entry)
    (hcol : st.collisions = []) (hac : AliasCanon st) (hts : TriedSolo st)
    (ha0 : info0.fAlias = false)
    (hph : info0.fInTried = false → ∀ e ∈ st.entries, e.fInTried = false) :
    AliasCanon (insertRead c st info0) ∧ TriedSolo (insertRead c st info0) ∧
    (insertRead c st info0).collisions = [] ∧
    (∀ e ∈ (insertRead c st info0).entries,
      e.fInTried = info0.fInTried ∨ ∃ e0 ∈ st.entries, e.fInTried = e0.fInTried) := by
  have hreT : (rebucket c st.key info0).fInTried = info0.fInTried := by simp
  have stage2 : ∀ u : AMState, u.collisions = [] → AliasCanon u → TriedSolo u →
      (∀ e ∈ u.entries, ∃ e0 ∈ st.entries, e.fInTried = e0.fInTried) →
      (info0.fInTried = false → ∀ e ∈ u.entries, e.fInTried = false) →
      (AliasCanon (if u.entries.any fun e => e.svc == (rebucket c st.key info0).svc then
          if (rebucket c st.key info0).fInTried then
            insertEntry c (eraseAllAddr c (u.entries.length + 1) u
              (rebucket c st.key info0).svc) (rebucket c st.key info0) false
          else insertEntry c u (rebucket c st.key info0) true
        else insertEntry c u (rebucket c st.key info0) false) ∧
       TriedSolo (if u.entries.any fun e => e.svc == (rebucket c st.key info0).svc then
          if (rebucket c st.key info0).fInTried then
            insertEntry c (eraseAllAddr c (u.entries.length + 1) u
              (rebucket c st.key info0).svc) (rebucket c st.key info0) false
          else insertEntry c u (rebucket c st.key info0) true
        else insertEntry c u (rebucket c st.key info0) false) ∧
       (if u.entries.any fun e => e.svc == (rebucket c st.key info0).svc then
          if (rebucket c st.key info0).fInTried then
            insertEntry c (eraseAllAddr c (u.entries.length + 1) u
              (rebucket c st.key info0).svc) (rebucket c st.key info0) false
          else insertEntry c u (rebucket c st.key info0) true
        else insertEntry c u (rebucket c st.key info0) false).collisions = [] ∧
       (∀ e ∈ (if u.entries.any fun e => e.svc == (rebucket c st.key info0).svc then
          if (rebucket c st.key info0).fInTried then
            insertEntry c (eraseAllAddr c (u.entries.length + 1) u
              (rebucket c st.key info0).svc) (rebucket c st.key info0) false
          else insertEntry c u (rebucket c st.key info0) true
        else insertEntry c u (rebucket c st.key info0) false).entries,
         e.fInTried = info0.fInTried ∨ ∃ e0 ∈ st.entries, e.fInTried = e0.fInTried)) := by
    intro u hu1 hu2 hu3 hu4 hu5
    by_cases hany : (u.entries.any fun e => e.svc == (rebucket c st.key info0).svc) = true
    · rw [if_pos hany]
      cases hET : (rebucket c st.key info0).fInTried with
      | true =>
        rw [if_pos rfl]
        have hfuel : countAddr u (rebucket c st.key info0).svc ≤ u.entries.length + 1 := by
          rw [countAddr_def]
          exact (countA_le_length _ _).trans (Nat.le_succ _)
        obtain ⟨t1, t2, t3, t4, t5, t6⟩ := eraseAllAddr_weak (u.entries.length + 1) u
          ((rebucket c st.key info0).svc) hu1 hu2 hu3 hfuel
        obtain ⟨z1, z2, z3, z4⟩ := insertEntry_weak_canon t1 t2 t3 t4
        refine ⟨z1, z2, z3, ?_⟩
        intro e he
        cases z4 e he with
        | inl h1 => exact Or.inl (h1.trans hreT)
        | inr h2 =>
          obtain ⟨y, hy, q⟩ := h2
          obtain ⟨y0, hy0, r1, r2, r3⟩ := t5 y hy
          obtain ⟨z0, hz0, s1⟩ := hu4 y0 hy0
          exact Or.inr ⟨z0, hz0, (q.trans r1).trans s1⟩
      | false =>
        rw [if_neg Bool.false_ne_true]
        have hETF : info0.fInTried = false := hreT.symm.trans hET
        have hallnew := hu5 hETF
        obtain ⟨x, hx, hxsvc⟩ := List.any_eq_true.mp hany
        rw [beq_iff_eq] at hxsvc
        obtain ⟨z1, z2, z3, z4⟩ := insertEntry_weak_alias hu1 hu2 hallnew hET ⟨x, hx, hxsvc⟩
        refine ⟨z1, z2, z3, ?_⟩
        intro e he
        cases z4 e he with
        | inl h1 => exact Or.inl (h1.trans hreT)
        | inr h2 =>
          obtain ⟨y, hy, q⟩ := h2
          obtain ⟨z0, hz0, s1⟩ := hu4 y hy
          exact Or.inr ⟨z0, hz0, q.trans s1⟩
    · rw [if_neg hany]
      have h0 : countAddr u (rebucket c st.key info0).svc = 0 := by
        rw [countAddr_def, countA_eq_zero]
        intro x hx hq
        have h1 := List.any_eq_false.mp (Bool.eq_false_iff.mpr hany) x hx
        exact h1 (by simpa using hq)
      obtain ⟨z1, z2, z3, z4⟩ := insertEntry_weak_canon hu1 hu2 hu3 h0
      refine ⟨z1, z2, z3, ?_⟩
      intro e he
      cases z4 e he with
      | inl h1 => exact Or.inl (h1.trans hreT)
      | inr h2 =>
        obtain ⟨y, hy, q⟩ := h2
        obtain ⟨z0, hz0, s1⟩ := hu4 y hy
        exact Or.inr ⟨z0, hz0, q.trans s1⟩
  unfold insertRead
  dsimp only
  cases hfs : findSlot st ((rebucket c st.key info0).fInTried,
      (rebucket c st.key info0).mBucket, (rebucket c st.key info0).mBucketpos) with
  | some occ =>
    obtain ⟨hoccm, _⟩ := findSlot_some hfs
    obtain ⟨w1, w2, w3, w4, _⟩ := eraseInner_weak hoccm hcol hac hts
    exact stage2 (eraseInner c st occ) w3 w1 w2
      (fun e he => (w4 e he).imp fun e0 q => ⟨q.1, q.2.1⟩)
      (fun hq e he => by
        obtain ⟨e0, he0, r1, _, _⟩ := w4 e he
        rw [r1]
        exact hph hq e0 he0)
  | none =>
    exact stage2 st hcol hac hts (fun e he => ⟨e, he, rfl⟩) hph

/-- The per-record source fold of the new-records phase keeps the table
all-new, alias-consistent and collision-free. -/
theorem srcsFold_weak {c : Ctx} (r : SerEntry) :
    ∀ (srcs : List Nat) (st : AMState),
      st.collisions = [] → AliasCanon st → (∀ e ∈ st.entries, e.fInTried = false) →
      ((srcs.foldl (fun s2 src => insertRead c s2 (entryOfSer r false src)) st).collisions
          = [] ∧
       AliasCanon (srcs.foldl (fun s2 src => insertRead c s2 (entryOfSer r false src)) st) ∧
       (∀ e ∈ (srcs.foldl (fun s2 src => insertRead c s2 (entryOfSer r false src)) st).entries,
         e.fInTried = false))
  | [], _, h1, h2, h3 => ⟨h1, h2, h3⟩
  | src :: srcs, st, h1, h2, h3 => by
    rw [List.foldl_cons]
    have hts : TriedSolo st := fun e he ht => absurd ht (by simp [h3 e he])
    obtain ⟨w1, w2, w3, w4⟩ := insertRead_weak st (entryOfSer r false src) h1 h2 hts rfl
      (fun _ => h3)
    refine srcsFold_weak r srcs _ w3 w1 ?_
    intro e he
    cases w4 e he with
    | inl hh => exact hh
    | inr hh =>
      obtain ⟨e0, he0, hq⟩ := hh
      rw [hq]
      exact h3 e0 he0

/-- The new-records phase of `Unserialize` from the empty table. -/
theorem newRecsFold_weak {c : Ctx} :
    ∀ (recs : List (SerEntry × List Nat)) (st : AMState),
      st.collisions = [] → AliasCanon st → (∀ e ∈ st.entries, e.fInTried = false) →
      ((recs.foldl (fun s rec => rec.2.foldl
          (fun s2 src => insertRead c s2 (entryOfSer rec.1 false src)) s) st).collisions
          = [] ∧
       AliasCanon (recs.foldl (fun s rec => rec.2.foldl
          (fun s2 src => insertRead c s2 (entryOfSer rec.1 false src)) s) st) ∧
       (∀ e ∈ (recs.foldl (fun s rec => rec.2.foldl
          (fun s2 src => insertRead c s2 (entryOfSer rec.1 false src)) s) st).entries,
         e.fInTried = false))
  | [], _, h1, h2, h3 => ⟨h1, h2, h3⟩
  | rec :: recs, st, h1, h2, h3 => by
    rw [List.foldl_cons]
    obtain ⟨q1, q2, q3⟩ := srcsFold_weak rec.1 rec.2 st h1 h2 h3
    exact newRecsFold_weak recs _ q1 q2 q3

/-- The tried-records phase of `Unserialize`. -/
theorem triedFold_weak {c : Ctx} :
    ∀ (recs : List (SerEntry × Nat)) (st : AMState),
      st.collisions = [] → AliasCanon st → TriedSolo st →
      ((recs.foldl (fun s rec => insertRead c s (entryOfSer rec.1 true rec.2)) st).collisions
          = [] ∧
       AliasCanon (recs.foldl (fun s rec => insertRead c s (entryOfSer rec.1 true rec.2)) st) ∧
       TriedSolo (recs.foldl (fun s rec => insertRead c s (entryOfSer rec.1 true rec.2)) st))
  | [], _, h1, h2, h3 => ⟨h1, h2, h3⟩
  | rec :: recs, st, h1, h2, h3 => by
    rw [List.foldl_cons]
    obtain ⟨w1, w2, w3, _⟩ := insertRead_weak st (entryOfSer rec.1 true rec.2) h1 h2 h3 rfl
      (fun hq => nomatch hq)
    exact triedFold_weak recs _ w3 w1 w2

/-- The state a successful `Unserialize` returns is the two-phase read
fold over the fresh manager. -/
theorem unserialize_ok_state {c : Ctx} {f : SerFile} {st : AMState}
    (h : unserialize c f = .ok st) :
    st = f.triedRecs.foldl (fun s rec => insertRead c s (entryOfSer rec.1 true rec.2))
      (f.newRecs.foldl (fun s rec => rec.2.foldl
        (fun s2 src => insertRead c s2 (entryOfSer rec.1 false src)) s)
        (AMState.empty f.key)) := by
  unfold unserialize at h
  dsimp only at h
  split at h
  · cases h
  · split at h
    · cases h
    · exact (Except.ok.inj h).symm

/-- A successful `Unserialize` establishes the whole invariant except
the reference-count bound (which the multi-index check does not test):
the slot, bucket, counter, random-vector, canonical and alias facts come
from the passed `CheckAddrman`, and the tried-solo / alias-canonical
facts from the structure of the read loop. -/
theorem unser_invW {c : Ctx} {f : SerFile} {st : AMState}
    (h : unserialize c f = .ok st) : InvB false c st := by
  have hck := unserialize_check h
  obtain ⟨bok, anew, cU, cok, vok⟩ := check_zero_parts hck
  have hsl := slotU_of_check_zero hck
  have hshape := unserialize_ok_state h
  have hen : ∀ e ∈ (AMState.empty f.key).entries, e.fInTried = false :=
    fun e he => absurd he (List.not_mem_nil e)
  have hae : AliasCanon (AMState.empty f.key) :=
    fun e he => absurd he (List.not_mem_nil e)
  obtain ⟨p1, p2, p3⟩ := newRecsFold_weak f.newRecs (AMState.empty f.key) rfl hae hen
  obtain ⟨q1, q2, q3⟩ := triedFold_weak f.triedRecs _ p1 p2
    (fun e he ht => absurd ht (by simp [p3 e he]))
  rw [← hshape] at q1 q2 q3
  exact {
    slotU := hsl
    buckOk := bok
    aliasNew := anew
    canonU := cU
    aliasCanon := q2
    triedSolo := q3
    refBound := fun hb => nomatch hb
    countersOk := cok
    vRandOk := vok
    collOk := by
      unfold CollOk
      rw [q1]
      exact ⟨List.nodup_nil, fun cl hcl => absurd hcl (List.not_mem_nil cl)⟩ }

/-- Every public operation — deserialization included — preserves the
unbounded invariant. -/
theorem step_invW {c : Ctx} {st st' : AMState} (hinv : InvB false c st)
    (hs : Step c st st') : InvB false c st' := by
  cases hs with
  | add addrs src pen now rng => exact add_inv hinv
  | good a now => exact good_inv hinv
  | attempt a cf now => exact attempt_inv hinv
  | connected a now => exact connected_inv hinv
  | setServices a sv => exact setServices_inv hinv
  | resolve now => exact resolveCollisions_inv hinv
  | select newOnly now fuel rng => exact hinv
  | getAddr maxA maxPct nw now rng => exact getAddr_inv hinv
  | unser f st' hok => exact unser_invW hok

/-- Every state reachable by the full public API satisfies the
unbounded invariant. -/
theorem reachF_invW {c : Ctx} {key : Nat} {st : AMState} (h : ReachF c key st) :
    InvB false c st := by
  induction h with
  | refl => exact inv_empty c key
  | tail _ hstep ih => exact step_invW ih hstep

/-! ### The claims -/

/-- C1: for every state of the address manager reachable by a sequence
of public API calls — the mutating operations and deserialization
alike — running Serialize and then Unserialize on the produced stream
into a fresh manager succeeds and yields a state equivalent to the
original: the same canonical entries with identical address, source,
in-tried flag and statistics, the same aliases with their sources, and
the same n_new / n_tried counters, up to the order of the random-sample
vector. -/
theorem c1_roundtrip {c : Ctx} {key : Nat} {s : AMState} (h : ReachF c key s) :
    ∃ t, unserialize c (serialize s) = Except.ok t ∧ equivState t s :=
  roundtrip_of_inv (reachF_invW h)

/-- C1 witness: the round trip at a state reached by one `Add` step of
the full-API step relation. -/
theorem c1_roundtrip_w :
    ∃ t, unserialize ctxT (serialize stA) = Except.ok t ∧ equivState t stA :=
  c1_roundtrip (Relation.ReflTransGen.single
    (Step.add (AMState.empty 0) [⟨100, 500000, 1⟩] 1000 0 500000 (fun _ => 0)))

/-- C2: after every public operation — each mutating call applied to a
consistent state, and every successful deserialize — any two distinct
entries of the index have different (in_tried, bucket, bucket_pos)
triples: each occupied slot holds at most one entry. -/
theorem c2_slot_unique {c : Ctx} {st st' : AMState} (hinv : Inv c st)
    (hstep : Step c st st') : SlotU st' := by
  cases hstep with
  | add addrs src pen now rng => exact (add_inv hinv).slotU
  | good a now => exact (good_inv hinv).slotU
  | attempt a cf now => exact (attempt_inv hinv).slotU
  | connected a now => exact (connected_inv hinv).slotU
  | setServices a sv => exact (setServices_inv hinv).slotU
  | resolve now => exact (resolveCollisions_inv hinv).slotU
  | select newOnly now fuel rng => exact hinv.slotU
  | getAddr maxA maxPct nw now rng => exact (getAddr_inv hinv).slotU
  | unser f st' hok => exact slotU_of_check_zero (unserialize_check hok)

/-- C2 witness: slot uniqueness after a concrete `Add` step. -/
theorem c2_slot_unique_w : SlotU stA :=
  c2_slot_unique (inv_empty ctxT 0)
    (Step.add (AMState.empty 0) [⟨100, 500000, 1⟩] 1000 0 500000 (fun _ => 0))

/-- C3 (amended): in every state reachable by the mutating public API,
every address has at most MAX_NEW_REFS = 8 entries and a tried entry is
the only entry of its address; the multi-index deserializer, however,
does not enforce the cap (its CheckAddrman lacks the classic -9 check),
so a deserialized state can violate it. -/
theorem c3_refcount_bound {c : Ctx} {key : Nat} {st : AMState} (h : Reach c key st)
    (a : Nat) :
    countAddr st a ≤ 8 ∧
      (∀ e ∈ st.entries, e.svc = a → e.fInTried = true → countAddr st a = 1) := by
  have hinv : Inv c st := reach_inv h
  constructor
  · by_cases hex : ∃ e ∈ st.entries, e.svc = a
    · obtain ⟨e, hm, hsvc⟩ := hex
      have h1 := hinv.refBound rfl e hm
      rw [hsvc] at h1
      simpa [ADDRMAN_NEW_BUCKETS_PER_ADDRESS] using h1
    · push_neg at hex
      rw [countAddr_def]
      have h0 := countA_eq_zero.mpr hex
      omega
  · intro e hm hsvc htr
    rw [← hsvc]
    exact hinv.triedSolo e hm htr

/-- C3 witness: the bound at a state reached by one `Add`. -/
theorem c3_refcount_bound_w :
    countAddr stA 100 ≤ 8 ∧
      (∀ e ∈ stA.entries, e.svc = 100 → e.fInTried = true → countAddr stA 100 = 1) :=
  c3_refcount_bound (Relation.ReflTransGen.single
    (StepM.add (AMState.empty 0) [⟨100, 500000, 1⟩] 1000 0 500000 (fun _ => 0))) 100

/-- C3 counterexample: `Unserialize` accepts a stream carrying nine
references for one address, exceeding the claimed cap of 8. -/
theorem c3_refcount_cx :
    (match unserialize ctxT badFile with
     | Except.ok st => countAddr st 1
     | Except.error _ => 0) = 9 := by decide

/-- C4: the tried bucket is `H(K ‖ addr_key) mod 8` fed into
`H(K ‖ group(addr) ‖ b1) mod 256`; the new bucket is
`H(K ‖ group(addr) ‖ group(source)) mod 64` fed into
`H(K ‖ group(source) ‖ b1) mod 1024`; the position is
`H(K ‖ tag ‖ bucket ‖ addr_key) mod 64` with tag byte 'N' for the new
table and 'K' for the tried table. -/
theorem c4_bucket_formulas (c : Ctx) (K a src bucket : Nat) (isNew : Bool) :
    getTriedBucket c K a = triedBucketSpec c K a ∧
    getNewBucket c K a src = newBucketSpec c K a src ∧
    getBucketPosition c K isNew bucket a = bucketPosSpec c K isNew bucket a :=
  ⟨rfl, rfl, rfl⟩

/-- C5 (amended): in `AddSingle` on an address with a canonical entry,
the stored time is updated (to the penalised announced time) exactly
when the announced time is nonzero and the stored time is older than the
announced time minus the update interval minus the penalty — where the
interval is **one hour** (60·60 s, not 60 s) when the peer is currently
online, and 24 hours otherwise. -/
theorem c5_time_update {c : Ctx} {st : AMState} {a : CAddr} {src : Nat}
    {pen now : Int} {rnd : Nat} {it : Entry}
    (hinv : Inv c st) (hr : c.routable a.svc = true)
    (hfc : findCanonical st a.svc = some it) :
    ∃ it' ∈ (addSingle c st a src pen now rnd).2.entries,
      it'.fAlias = false ∧ it'.svc = a.svc ∧
      it'.nTime =
        (if a.time ≠ 0 ∧ (it.nTime = 0 ∨ (it.nTime : Int) < (a.time : Int) -
            (if now - (a.time : Int) < 24 * 60 * 60 then (60 * 60 : Int) else 24 * 60 * 60) -
            (if c.sameAddr a.svc src then (0 : Int) else pen))
        then toU32 (max 0 ((a.time : Int) - (if c.sameAddr a.svc src then (0 : Int) else pen)))
        else it.nTime) :=
  addSingle_time_update hinv hr hfc

/-- C5 witness: the update decision at a concrete state. -/
theorem c5_time_update_w :
    ∃ it' ∈ (addSingle ctxT stc5 ⟨1, 100000, 1⟩ 1001 0 100000 0).2.entries,
      it'.fAlias = false ∧ it'.svc = (⟨1, 100000, 1⟩ : CAddr).svc ∧
      it'.nTime =
        (if (⟨1, 100000, 1⟩ : CAddr).time ≠ 0 ∧ (itC5.nTime = 0 ∨ (itC5.nTime : Int) <
            ((⟨1, 100000, 1⟩ : CAddr).time : Int) -
            (if (100000 : Int) - ((⟨1, 100000, 1⟩ : CAddr).time : Int) < 24 * 60 * 60
              then (60 * 60 : Int) else 24 * 60 * 60) -
            (if ctxT.sameAddr (⟨1, 100000, 1⟩ : CAddr).svc 1001 then (0 : Int) else 0))
        then toU32 (max 0 (((⟨1, 100000, 1⟩ : CAddr).time : Int) -
          (if ctxT.sameAddr (⟨1, 100000, 1⟩ : CAddr).svc 1001 then (0 : Int) else 0)))
        else itC5.nTime) :=
  c5_time_update (add_inv (inv_empty ctxT 0)) rfl (by decide)

/-- C5 counterexample: announced time 100000 with stored time 99000,
peer currently online, no penalty: the claim's 60-second interval
demands an update (99000 < 100000 − 60), but the code's one-hour
interval leaves the stored time at 99000. -/
theorem c5_time_update_cx :
    (match findCanonical (addSingle ctxT stc5 ⟨1, 100000, 1⟩ 1001 0 100000 0).2 1 with
     | some e => e.nTime
     | none => 0) = 99000 ∧
    (match findCanonical stc5 1 with
     | some e => e.nTime
     | none => 0) = 99000 ∧
    (99000 : Int) < 100000 - 60 ∧ (100000 : Int) - 100000 < 24 * 60 * 60 := by decide

/-- C6 (amended): when `Good_` (with test_before_evict) finds the target
tried slot occupied and the collision set already holds
TRIED_COLLISION_CAP = 10 members, the entry is neither added to the
collision set nor promoted: the call returns false with the state as
left by the statistics update (no fall-through to MakeTried). -/
theorem c6_full_collision {c : Ctx} {st : AMState} {a : Nat} {nTime : Int} {it w : Entry}
    (hfc : findCanonical st a = some it)
    (htr : (modifyE c { st with nLastGood := nTime } it fun i =>
      { i with nLastSuccess := nTime, nLastTry := nTime, nAttempts := 0 }).2.fInTried = false)
    (hsl : findSlot (modifyE c { st with nLastGood := nTime } it fun i =>
        { i with nLastSuccess := nTime, nLastTry := nTime, nAttempts := 0 }).1
      (true,
       getTriedBucket c (modifyE c { st with nLastGood := nTime } it fun i =>
         { i with nLastSuccess := nTime, nLastTry := nTime, nAttempts := 0 }).1.key a,
       getBucketPosition c (modifyE c { st with nLastGood := nTime } it fun i =>
         { i with nLastSuccess := nTime, nLastTry := nTime, nAttempts := 0 }).1.key false
         (getTriedBucket c (modifyE c { st with nLastGood := nTime } it fun i =>
           { i with nLastSuccess := nTime, nLastTry := nTime, nAttempts := 0 }).1.key a) a)
      = some w)
    (hfull : ¬ (modifyE c { st with nLastGood := nTime } it fun i =>
      { i with nLastSuccess := nTime, nLastTry := nTime, nAttempts := 0 }).1.collisions.length <
      ADDRMAN_SET_TRIED_COLLISION_SIZE) :
    good_ c st a true nTime =
      (false, (modifyE c { st with nLastGood := nTime } it fun i =>
        { i with nLastSuccess := nTime, nLastTry := nTime, nAttempts := 0 }).1) :=
  good_full_collision hfc htr hsl hfull

/-- C6 witness: the full-collision branch at a concrete state whose
collision set holds ten members. -/
theorem c6_full_collision_w :
    good_ ctxT stD 11 true 500000 =
      (false, (modifyE ctxT { stD with nLastGood := 500000 } itD fun i =>
        { i with nLastSuccess := 500000, nLastTry := 500000, nAttempts := 0 }).1) :=
  @c6_full_collision ctxT stD 11 500000 itD wD (by decide) (by decide) (by decide) (by decide)

/-- C6 counterexample: with the collision set full, `Good` returns false
and the entry stays in the new table — it is NOT promoted by a
fall-through to MakeTried as claimed. -/
theorem c6_full_collision_cx :
    (good_ ctxT stD 11 true 500000).1 = false ∧
    stD.collisions.length = 10 ∧
    (match findCanonical (good_ ctxT stD 11 true 500000).2 11 with
     | some e => e.fInTried
     | none => true) = false ∧
    (good_ ctxT stD 11 true 500000).2.collisions.length = 10 := by decide

/-- C7 (amended): on an address with no canonical entry, Good returns
false and leaves the table, random vector, counters and collision set
unchanged — but it has already set nLastGood to the call time, so the
state is not entirely unchanged; Attempt, Connected and SetServices are
complete no-ops. -/
theorem c7_lookup_miss {c : Ctx} {st : AMState} {a : Nat} {tbe cf : Bool} {t : Int}
    {sv : Nat} (h : findCanonical st a = none) :
    good_ c st a tbe t = (false, { st with nLastGood := t }) ∧
    attempt_ c st a cf t = st ∧
    connected_ c st a t = st ∧
    setServices_ c st a sv = st :=
  ⟨good_miss_eq h, attempt_miss_eq h, connected_miss_eq h, setServices_miss_eq h⟩

/-- C7 witness: the four operations on an absent address of the empty
manager. -/
theorem c7_lookup_miss_w :
    good_ ctxT (AMState.empty 0) 42 true 5 =
      (false, { AMState.empty 0 with nLastGood := 5 }) ∧
    attempt_ ctxT (AMState.empty 0) 42 true 5 = AMState.empty 0 ∧
    connected_ ctxT (AMState.empty 0) 42 5 = AMState.empty 0 ∧
    setServices_ ctxT (AMState.empty 0) 42 7 = AMState.empty 0 :=
  c7_lookup_miss rfl

/-- C7 counterexample: Good on an absent address changes the last-good
timestamp from its initial value 1 to the call time 5, so the state is
not left entirely unchanged as claimed. -/
theorem c7_lookup_miss_cx :
    (good_ ctxT (AMState.empty 0) 42 true 5).1 = false ∧
    (good_ ctxT (AMState.empty 0) 42 true 5).2.nLastGood = 5 ∧
    (AMState.empty 0).nLastGood = 1 := by decide

/-- C8 (amended): the recent-try exemption of is_terrible requires a
**nonzero** last_try: for last_try ≠ 0 with last_try ≥ now − 60 s the
function returns false; an entry with last_try = 0 is not exempt. -/
theorem c8_recent_try {e : Entry} {now : Int} (h0 : e.nLastTry ≠ 0)
    (h60 : e.nLastTry ≥ now - 60) : isTerrible e now = false :=
  isTerrible_recent h0 h60

/-- C8 witness: a concrete recently-tried entry. -/
theorem c8_recent_try_w :
    isTerrible ⟨1, 1, false, false, 0, 0, 500000, 0, 5, 0, 0, 0⟩ 0 = false :=
  c8_recent_try (by decide) (by decide)

/-- C8 counterexample: an entry with last_try = 0 satisfies
last_try ≥ now − 60 at now = 0, yet is_terrible returns true. -/
theorem c8_recent_try_cx :
    isTerrible e0 0 = true ∧ e0.nLastTry = 0 ∧ e0.nLastTry ≥ 0 - 60 := by decide

/-- C9 (amended): `GetAddr_` returns at most the limit the code
computes: the whole random vector when both arguments are zero,
otherwise first cut to max_pct percent of the vector when max_pct ≠ 0
and then to max_addresses when max_addresses ≠ 0 — a zero argument means
"no limit", not a bound of zero. -/
theorem c9_getaddr_bound {c : Ctx} {st : AMState} {maxA maxP : Nat}
    {network : Option Nat} {now : Int} {rng : Nat → Nat} :
    (getAddr_ c st maxA maxP network now rng).1.length ≤
      (fun n1 => if maxA ≠ 0 then min n1 maxA else n1)
        (if maxP ≠ 0 then maxP * st.vRandom.length / 100 else st.vRandom.length) :=
  getAddr_length

/-- C9 counterexample: with max_addresses = 0 and max_pct = 0 on a
manager holding one entry, GetAddr returns one address, while the
claim's bound min(0, 0% of 1) would be 0. -/
theorem c9_getaddr_cx :
    (getAddr_ ctxT stg 0 0 none 500000 (fun _ => 0)).1.length = 1 := by decide

/-- C10: when the entry to remove is the canonical entry of an address
that still has aliases, EraseInner does not destroy it: one alias is
erased instead, the canonical entry keeps its table and all statistics
(time, services, last_try, last_count_attempt, last_success, attempts),
takes over the erased alias's source, and the address's reference count
drops by exactly one. -/
theorem c10_erase_redirect {c : Ctx} {st : AMState} {e al : Entry}
    (hinv : Inv c st) (hm : e ∈ st.entries) (ha : e.fAlias = false)
    (hal : findAlias st e.svc = some al) :
    ∃ e' ∈ (eraseInner c st e).entries,
      e'.fAlias = false ∧ e'.fInTried = e.fInTried ∧ e'.svc = e.svc ∧
      e'.source = al.source ∧
      e'.nTime = e.nTime ∧ e'.nServices = e.nServices ∧ e'.nLastTry = e.nLastTry ∧
      e'.nLastCountAttempt = e.nLastCountAttempt ∧ e'.nLastSuccess = e.nLastSuccess ∧
      e'.nAttempts = e.nAttempts ∧
      countAddr (eraseInner c st e) e.svc + 1 = countAddr st e.svc :=
  eraseInner_redirect_facts hinv hm ha hal

/-- C10 witness: the redirect at a concrete state with one canonical
entry and one alias. -/
theorem c10_erase_redirect_w :
    ∃ e' ∈ (eraseInner ctxT sta cnA).entries,
      e'.fAlias = false ∧ e'.fInTried = cnA.fInTried ∧ e'.svc = cnA.svc ∧
      e'.source = alA.source ∧
      e'.nTime = cnA.nTime ∧ e'.nServices = cnA.nServices ∧ e'.nLastTry = cnA.nLastTry ∧
      e'.nLastCountAttempt = cnA.nLastCountAttempt ∧ e'.nLastSuccess = cnA.nLastSuccess ∧
      e'.nAttempts = cnA.nAttempts ∧
      countAddr (eraseInner ctxT sta cnA) cnA.svc + 1 = countAddr sta cnA.svc :=
  c10_erase_redirect (add_inv (add_inv (inv_empty ctxT 0))) (by decide) (by decide) (by decide)

end AddrSpec
